import Mathlib

/-!
# NST functional model (`src/api/nstV2Api.cpp`)

A shallow embedding of `nstV2Api::nstFuncModel`: the descriptor checks, the recursive
loop-nest engine `nstLooper` with its AGU update discipline, and the nine kernels
(`nstMacOp`, `nstVAddSubOp`, `nstVMultOp`, `nstOuterPOp`, `nstMaxMinOp`, `nstThTstOp`,
`nstMaskOp`, `nstMaskMacOp`, `nstCopyOp`).

Conventions.
* Machine words (`uint32_t`) are naturals below `2^32`; every store truncates with `% 2^32`.
* AGU cursors are byte addresses, integers reduced modulo `2^ptrBits` at every update.
* TCDM is a byte-addressed memory; a word access touches the four bytes `a .. a+3`.
* Failing `assert`s are modelled by `Except`: the error carries the machine state at the abort.
* The kernels are called through `callInit`, `callExecute`, `callStore`, which also append an
  event (kind and cursor snapshot) to the ghost field `trace`; nothing reads that field.
-/

namespace Ntx

/-! ## Constants of the headers -/

/-- Constants of `nstV2Api.hpp` used by the model. The header is not part of the sources, so its
constants are parameters; `ptrBits` is the width of a pointer on the platform. -/
structure NstParams where
  C_N_HW_LOOPS : Nat
  C_HW_LOOP_WIDTH : Nat
  C_N_NST_OPCODES : Nat
  C_NST_MAC_OP : Nat
  C_NST_VADDSUB_OP : Nat
  C_NST_VMULT_OP : Nat
  C_NST_OUTERP_OP : Nat
  C_NST_MAXMIN_OP : Nat
  C_NST_THTST_OP : Nat
  C_NST_MASK_OP : Nat
  C_NST_MASKMAC_OP : Nat
  C_NST_COPY_OP : Nat
  C_NST_THTST_AUX_CMP_EQ : Nat
  C_NST_MASK_AUX_CMP_LT : Nat
  C_NST_THTST_AUX_CMP_LE : Nat
  C_NST_THTST_AUX_BIN_OUT : Nat
  ptrBits : Nat

/-- Modelled from the spec: the number of AGUs (`C_N_AGUS`, header constant); the spec has three
AGUs and the kernels index `agu[0]`, `agu[1]`, `agu[2]`. -/
def C_N_AGUS : Nat := 3

/-- Modelled from the spec: the 32-bit pattern of `+0.0` (`C_FP32_ZERO_VAL`, header constant). -/
def C_FP32_ZERO_VAL : Nat := 0

/-- Modelled from the spec: the 32-bit pattern of `+1.0` (`C_FP32_ONE_VAL`, header constant). -/
def C_FP32_ONE_VAL : Nat := 0x3F800000

/-- The nine opcode constants, in the order of the `switch` of `nstFuncModel`. -/
def NstParams.opcodes (C : NstParams) : List Nat :=
  [C.C_NST_MAC_OP, C.C_NST_VADDSUB_OP, C.C_NST_VMULT_OP, C.C_NST_OUTERP_OP, C.C_NST_MAXMIN_OP,
   C.C_NST_THTST_OP, C.C_NST_MASK_OP, C.C_NST_MASKMAC_OP, C.C_NST_COPY_OP]

/-- The usual values: opcodes `0..8`, five hardware loops of 16 bit, 64-bit pointers. -/
def stdParams : NstParams where
  C_N_HW_LOOPS := 5
  C_HW_LOOP_WIDTH := 16
  C_N_NST_OPCODES := 9
  C_NST_MAC_OP := 0
  C_NST_VADDSUB_OP := 1
  C_NST_VMULT_OP := 2
  C_NST_OUTERP_OP := 3
  C_NST_MAXMIN_OP := 4
  C_NST_THTST_OP := 5
  C_NST_MASK_OP := 6
  C_NST_MASKMAC_OP := 7
  C_NST_COPY_OP := 8
  C_NST_THTST_AUX_CMP_EQ := 0
  C_NST_MASK_AUX_CMP_LT := 1
  C_NST_THTST_AUX_CMP_LE := 2
  C_NST_THTST_AUX_BIN_OUT := 4
  ptrBits := 64

/-! ## Data model -/

/-- The descriptor fields of `nstV2Api` read by `nstFuncModel`. -/
structure NstDesc where
  opCode : Nat
  initLevel : Nat
  innerLevel : Nat
  outerLevel : Nat
  initSel : Nat
  auxFunc : Nat
  polarity : Bool
  loopBound : Nat → Nat
  aguOff : Nat → Int
  aguStride : Nat → Nat → Int
  checkTcdmAddrs : Bool
  tcdmLow : Int
  tcdmHigh : Int

/-- The three phases of a kernel. -/
inductive EvKind where
  | init
  | execute
  | store
  deriving DecidableEq

/-- One kernel call: which phase, and the AGU cursors at the call. -/
structure Event where
  kind : EvKind
  agu : Nat → Int

/-- The consumed FMA primitive `pcsMac(opA, opB, firstOp, negate, readout, accu, res)` of
`fp32_mac.hpp` and the accumulator's `clear()`. The primitive is not part of the sources; it is a
parameter. `accu` and `res` are reference parameters: the result is the new accumulator and the
new content of `res` (the last argument is the content of `res` before the call). -/
structure FmaPrim (Acc : Type) where
  clear : Acc
  pcsMac : Nat → Nat → Bool → Bool → Bool → Acc → Nat → Acc × Nat

/-- The mutable state `nstFuncModel` works on: the members `agu`, `accuState`, `aluState`,
`cntState`, `idxState` of `nstV2Api`, the members `tst`, `opA`, `opB` of the kernel object,
the TCDM bytes, and the ghost event log. -/
structure NstState (Acc : Type) where
  agu : Nat → Int
  accuState : Acc
  aluState : Nat
  cntState : Nat
  idxState : Nat
  tst : Bool
  opA : Int
  opB : Int
  mem : Int → Nat
  trace : List Event

/-- How a run can fail: a failed sanity `assert` (lines 173-179), the `default: assert(0)` of the
opcode `switch`, a failed address `assert` of `nstLooper` (lines 224-226), or a `for` loop whose
32-bit counter can never exceed its bound. Each carries the machine state at that point. -/
inductive NstFault (Acc : Type) where
  | sanity (m : NstState Acc)
  | badOpCode (m : NstState Acc)
  | aguRange (m : NstState Acc)
  | hang (m : NstState Acc)

/-! ## Memory -/

/-- The 32-bit word at byte address `a` (little endian). -/
def loadWord (mem : Int → Nat) (a : Int) : Nat :=
  mem a % 256 + 256 * (mem (a + 1) % 256) + 65536 * (mem (a + 2) % 256)
    + 16777216 * (mem (a + 3) % 256)

/-- Memory after writing the 32-bit word `w` at byte address `a`. -/
def storeWord (mem : Int → Nat) (a : Int) (w : Nat) : Int → Nat :=
  fun x =>
    if x = a then w % 256
    else if x = a + 1 then w / 256 % 256
    else if x = a + 2 then w / 65536 % 256
    else if x = a + 3 then w / 16777216 % 256
    else mem x

/-! ## FP32 helpers -/

/-- Modelled from the spec: `fp32_getSign` (header helper), the IEEE-754 sign bit of a word. -/
def fp32_getSign (w : Nat) : Bool := w / 2147483648 % 2 == 1

/-- The exponent field of an FP32 pattern. -/
def fp32Exp (w : Nat) : Nat := w / 8388608 % 256

/-- The fraction field of an FP32 pattern. -/
def fp32Frac (w : Nat) : Nat := w % 8388608

/-- Modelled from the spec: `fp32ToFloat` (header helper), the bit-pattern-to-real conversion used
for comparisons. The result is `none` for a NaN and otherwise the IEEE-754 value scaled by
`2^149` (an integer); an infinity is `±2^277`, beyond every finite value. -/
def fp32ToFloat (w : Nat) : Option Int :=
  if fp32Exp w = 255 ∧ fp32Frac w ≠ 0 then none
  else
    let mag : Nat :=
      if fp32Exp w = 0 then fp32Frac w else (8388608 + fp32Frac w) * 2 ^ (fp32Exp w - 1)
    some (if fp32_getSign w then -(mag : Int) else (mag : Int))

/-- The C comparison `x > y` on floats: false when an operand is a NaN. -/
def floatGt (x y : Option Int) : Bool :=
  match x, y with
  | some a, some b => decide (b < a)
  | _, _ => false

/-- The C comparison `x >= y` on floats: false when an operand is a NaN. -/
def floatGe (x y : Option Int) : Bool :=
  match x, y with
  | some a, some b => decide (b ≤ a)
  | _, _ => false

/-- The C comparison `x == y` on floats: false when an operand is a NaN. -/
def floatEq (x y : Option Int) : Bool :=
  match x, y with
  | some a, some b => decide (a = b)
  | _, _ => false

/-! ## The kernel interface and the loop-nest engine -/

/-- The class `nstInternalOp`: the three virtual methods, acting on the machine state. -/
structure nstInternalOp (Acc : Type) where
  init : NstState Acc → NstState Acc
  execute : NstState Acc → NstState Acc
  store : NstState Acc → NstState Acc

/-- The call `op.init()` (line 238), logged. -/
def callInit {Acc : Type} (op : nstInternalOp Acc) (m : NstState Acc) : NstState Acc :=
  { op.init m with trace := m.trace ++ [⟨EvKind.init, m.agu⟩] }

/-- The call `op.execute()` (line 242), logged. -/
def callExecute {Acc : Type} (op : nstInternalOp Acc) (m : NstState Acc) : NstState Acc :=
  { op.execute m with trace := m.trace ++ [⟨EvKind.execute, m.agu⟩] }

/-- The call `op.store()` (line 251), logged. -/
def callStore {Acc : Type} (op : nstInternalOp Acc) (m : NstState Acc) : NstState Acc :=
  { op.store m with trace := m.trace ++ [⟨EvKind.store, m.agu⟩] }

/-- The three address assertions of lines 224-226. -/
def aguInRange (d : NstDesc) (agu : Nat → Int) : Bool :=
  (decide (d.tcdmLow ≤ agu 0) && decide (agu 0 ≤ d.tcdmHigh))
    && (decide (d.tcdmLow ≤ agu 1) && decide (agu 1 ≤ d.tcdmHigh))
    && (decide (d.tcdmLow ≤ agu 2) && decide (agu 2 ≤ d.tcdmHigh))

/-- Lines 223-238 of `nstLooper`: the optional address check, then `init` when the level is
`initLevel`. -/
def looperEnter {Acc : Type} (d : NstDesc) (op : nstInternalOp Acc) (level : Nat)
    (m : NstState Acc) : Except (NstFault Acc) (NstState Acc) :=
  if d.checkTcdmAddrs && !aguInRange d m.agu then Except.error (NstFault.aguRange m)
  else Except.ok (if d.initLevel = level then callInit op m else m)

/-- The loop of lines 258-260: every cursor advances by its stride of `level`
(pointer arithmetic, modulo `2^ptrBits`). -/
def aguStep (C : NstParams) (d : NstDesc) (level : Nat) (agu : Nat → Int) : Nat → Int :=
  fun o => if o < C_N_AGUS then (agu o + d.aguStride o level) % (2 : Int) ^ C.ptrBits else agu o

/-- The AGU update of lines 254-261 on the machine state. -/
def aguUpdate {Acc : Type} (C : NstParams) (d : NstDesc) (level : Nat) (m : NstState Acc) :
    NstState Acc :=
  { m with agu := aguStep C d level m.agu }

/-- Lines 249-261 of `nstLooper`: `store` when the level is `innerLevel`, then the AGU update
when `level < C_N_HW_LOOPS` and `isLast` is false. -/
def looperExit {Acc : Type} (C : NstParams) (d : NstDesc) (op : nstInternalOp Acc) (level : Nat)
    (isLast : Bool) (m : NstState Acc) : NstState Acc :=
  let m1 := if d.innerLevel = level then callStore op m else m
  if level < C.C_N_HW_LOOPS ∧ isLast = false then aguUpdate C d level m1 else m1

/-- The loop `for (k = ...; k <= bound; k++) body(k, k == bound)` of line 245 with `n` iterations
left, the next one being iteration `k`. -/
def forLoop {Acc : Type} (body : Bool → NstState Acc → Except (NstFault Acc) (NstState Acc))
    (bound : Nat) : Nat → Nat → NstState Acc → Except (NstFault Acc) (NstState Acc)
  | 0, _, m => Except.ok m
  | n + 1, k, m =>
    match body (k == bound) m with
    | Except.error e => Except.error e
    | Except.ok m1 => forLoop body bound n (k + 1) m1

/-- The recursive lambda `nstLooper(level, op, isLast)` of lines 220-263. At a level above 0 the
loop runs `loopBound[level-1] + 1` times; its counter `k` is a `uint32_t`, so with a bound of
`2^32 - 1` or more the condition `k <= bound` never fails and the call does not return
(`NstFault.hang`). -/
def nstLooper {Acc : Type} (C : NstParams) (d : NstDesc) (op : nstInternalOp Acc) :
    Nat → Bool → NstState Acc → Except (NstFault Acc) (NstState Acc)
  | 0, isLast, m =>
    match looperEnter d op 0 m with
    | Except.error e => Except.error e
    | Except.ok m1 => Except.ok (looperExit C d op 0 isLast (callExecute op m1))
  | l + 1, isLast, m =>
    match looperEnter d op (l + 1) m with
    | Except.error e => Except.error e
    | Except.ok m1 =>
      if 4294967295 ≤ d.loopBound l then Except.error (NstFault.hang m1)
      else
        match forLoop (nstLooper C d op l) (d.loopBound l) (d.loopBound l + 1) 0 m1 with
        | Except.error e => Except.error e
        | Except.ok m2 => Except.ok (looperExit C d op (l + 1) isLast m2)

/-! ## The nine kernels -/

/-- The init value of the ALU kernels: `+0.0` when `initSel >= 3`, else the word at
`agu[initSel]` (lines 566-571, 626-631, 698-703, 900-905). -/
def loadInitSel {Acc : Type} (d : NstDesc) (m : NstState Acc) : Nat :=
  if 3 ≤ d.initSel then C_FP32_ZERO_VAL else loadWord m.mem (m.agu d.initSel)

/-- The accumulator preload of lines 286-293 and 367-374:
`pcsMac(*res, C_FP32_ONE_VAL, 1, negate, 0, accuState, *res)` with `res = agu[sel]`. -/
def fmaPreload {Acc : Type} (F : FmaPrim Acc) (sel : Nat) (negate : Bool) (m : NstState Acc) :
    NstState Acc :=
  let a := m.agu sel
  let r := F.pcsMac (loadWord m.mem a) C_FP32_ONE_VAL true negate false m.accuState
    (loadWord m.mem a)
  { m with accuState := r.1, mem := storeWord m.mem a r.2 }

/-- The store shared by MAC, VADDSUB, VMULT and OUTERP (lines 329-345, 407-423, 464-480,
535-551): `pcsMac(0, 0, 0, 0, 1, accuState, *res)` with `res = agu[2]`, then the ReLU. -/
def fmaStore {Acc : Type} (F : FmaPrim Acc) (d : NstDesc) (m : NstState Acc) : NstState Acc :=
  let a := m.agu 2
  let r := F.pcsMac C_FP32_ZERO_VAL C_FP32_ZERO_VAL false false true m.accuState
    (loadWord m.mem a)
  let mem1 := storeWord m.mem a r.2
  { m with
    accuState := r.1
    mem := if d.auxFunc ≠ 0 ∧ fp32_getSign (loadWord mem1 a) = true
      then storeWord mem1 a C_FP32_ZERO_VAL else mem1 }

/-- The kernel `nstMacOp` (lines 276-352). In `execute` the result goes to an uninitialised
local `res` that is never read; the model passes 0 for its old content and drops the new one
(the same holds for the `execute` of VADDSUB, VMULT and OUTERP). -/
def nstMacOp {Acc : Type} (F : FmaPrim Acc) (d : NstDesc) : nstInternalOp Acc where
  init := fun m =>
    if 3 ≤ d.initSel then { m with accuState := F.clear } else fmaPreload F d.initSel false m
  execute := fun m =>
    let r := F.pcsMac (loadWord m.mem (m.agu 0)) (loadWord m.mem (m.agu 1)) false d.polarity
      false m.accuState 0
    { m with accuState := r.1 }
  store := fmaStore F d

/-- The kernel `nstVAddSubOp` (lines 358-430). -/
def nstVAddSubOp {Acc : Type} (F : FmaPrim Acc) (d : NstDesc) : nstInternalOp Acc where
  init := fun m =>
    if 3 ≤ d.initSel then { m with accuState := F.clear }
    else fmaPreload F d.initSel d.polarity m
  execute := fun m =>
    let r := F.pcsMac (loadWord m.mem (m.agu 0)) C_FP32_ONE_VAL false false false m.accuState 0
    { m with accuState := r.1 }
  store := fmaStore F d

/-- The kernel `nstVMultOp` (lines 433-487). -/
def nstVMultOp {Acc : Type} (F : FmaPrim Acc) (d : NstDesc) : nstInternalOp Acc where
  init := fun m => m
  execute := fun m =>
    let r := F.pcsMac (loadWord m.mem (m.agu 0)) (loadWord m.mem (m.agu 1)) true d.polarity
      false m.accuState 0
    { m with accuState := r.1 }
  store := fmaStore F d

/-- The kernel `nstOuterPOp` (lines 494-558). -/
def nstOuterPOp {Acc : Type} (F : FmaPrim Acc) (d : NstDesc) : nstInternalOp Acc where
  init := fun m => { m with aluState := loadInitSel d m, accuState := F.clear }
  execute := fun m =>
    let r := F.pcsMac (loadWord m.mem (m.agu 0)) m.aluState true d.polarity false m.accuState 0
    { m with accuState := r.1 }
  store := fmaStore F d

/-- The kernel `nstMaxMinOp` (lines 564-617). -/
def nstMaxMinOp {Acc : Type} (d : NstDesc) : nstInternalOp Acc where
  init := fun m => { m with aluState := loadInitSel d m, cntState := 0 }
  execute := fun m =>
    let b := loadWord m.mem (m.agu 1)
    let tst := Bool.xor (floatGt (fp32ToFloat m.aluState) (fp32ToFloat b)) (!d.polarity)
    let m1 := if tst = true then { m with aluState := b, idxState := m.cntState } else m
    { m1 with cntState := (m1.cntState + 1) % 4294967296 }
  store := fun m =>
    { m with mem := storeWord m.mem (m.agu 2) (if d.auxFunc ≠ 0 then m.idxState else m.aluState) }

/-- The kernel `nstThTstOp` (lines 625-690). -/
def nstThTstOp {Acc : Type} (C : NstParams) (d : NstDesc) : nstInternalOp Acc where
  init := fun m => { m with aluState := loadInitSel d m }
  execute := fun m =>
    let b := loadWord m.mem (m.agu 1)
    let sel := d.auxFunc &&& 3
    let t : Bool :=
      if sel = C.C_NST_THTST_AUX_CMP_EQ then
        Bool.xor (floatEq (fp32ToFloat m.aluState) (fp32ToFloat b)) d.polarity
      else if sel = C.C_NST_MASK_AUX_CMP_LT then
        Bool.xor (floatGt (fp32ToFloat m.aluState) (fp32ToFloat b)) d.polarity
      else if sel = C.C_NST_THTST_AUX_CMP_LE then
        Bool.xor (floatGe (fp32ToFloat m.aluState) (fp32ToFloat b)) d.polarity
      else false
    { m with opB := m.agu 1, tst := t }
  store := fun m =>
    let w : Nat :=
      if d.auxFunc &&& 4 ≠ 0 then (if m.tst = true then C_FP32_ONE_VAL else C_FP32_ZERO_VAL)
      else (if m.tst = true then loadWord m.mem m.opB else m.aluState)
    { m with mem := storeWord m.mem (m.agu 2) w }

/-- The predicate `switch` shared by `nstMaskOp::execute` (lines 727-752) and
`nstMaskMacOp::execute` (lines 824-849); `b` is the word `*opB`. -/
def maskPredicate {Acc : Type} (C : NstParams) (d : NstDesc) (m : NstState Acc) (b : Nat) : Bool :=
  if d.auxFunc = C.C_NST_THTST_AUX_CMP_EQ then
    Bool.xor (floatEq (fp32ToFloat m.aluState) (fp32ToFloat b)) d.polarity
  else if d.auxFunc = C.C_NST_MASK_AUX_CMP_LT then
    Bool.xor (floatGt (fp32ToFloat m.aluState) (fp32ToFloat b)) d.polarity
  else if d.auxFunc = C.C_NST_THTST_AUX_CMP_LE then
    Bool.xor (floatGe (fp32ToFloat m.aluState) (fp32ToFloat b)) d.polarity
  else if d.auxFunc = C.C_NST_THTST_AUX_BIN_OUT then
    Bool.xor (decide (m.cntState = m.aluState)) d.polarity
  else false

/-- The kernel `nstMaskOp` (lines 696-771). -/
def nstMaskOp {Acc : Type} (C : NstParams) (d : NstDesc) : nstInternalOp Acc where
  init := fun m => { m with aluState := loadInitSel d m, cntState := 0 }
  execute := fun m =>
    { m with
      opA := m.agu 0
      tst := maskPredicate C d m (loadWord m.mem (m.agu 1))
      cntState := (m.cntState + 1) % 4294967296 }
  store := fun m =>
    let w : Nat := if m.tst = true then loadWord m.mem m.opA else C_FP32_ZERO_VAL
    { m with mem := storeWord m.mem (m.agu 2) w }

/-- The kernel `nstMaskMacOp` (lines 778-889). -/
def nstMaskMacOp {Acc : Type} (C : NstParams) (F : FmaPrim Acc) (d : NstDesc) :
    nstInternalOp Acc where
  init := fun m =>
    let alu := if 3 ≤ d.initSel then C_FP32_ZERO_VAL else loadWord m.mem (m.agu 1)
    let m1 := fmaPreload F 0 false { m with aluState := alu }
    { m1 with cntState := 0 }
  execute := fun m =>
    let opB : Int := if d.auxFunc &&& 4 ≠ 0 then m.agu 2 else m.agu 1
    { m with
      opA := m.agu 2
      tst := maskPredicate C d m (loadWord m.mem opB)
      cntState := (m.cntState + 1) % 4294967296 }
  store := fun m =>
    if m.tst = true then
      let a := m.agu 2
      let r := F.pcsMac (loadWord m.mem m.opA) C_FP32_ONE_VAL false false true m.accuState
        (loadWord m.mem a)
      { m with accuState := r.1, mem := storeWord m.mem a r.2 }
    else m

/-- The kernel `nstCopyOp` (lines 896-944). -/
def nstCopyOp {Acc : Type} (d : NstDesc) : nstInternalOp Acc where
  init := fun m => if d.auxFunc &&& 1 ≠ 0 then m else { m with aluState := loadInitSel d m }
  execute := fun m =>
    if d.auxFunc &&& 1 ≠ 0 then { m with aluState := loadWord m.mem (m.agu 0) } else m
  store := fun m => { m with mem := storeWord m.mem (m.agu 2) m.aluState }

/-! ## `nstFuncModel` -/

/-- The sanity checks of lines 173-179. The bound `1ULL << C_HW_LOOP_WIDTH` is
`2 ^ C_HW_LOOP_WIDTH`, the shift being defined for a width below 64 only. -/
def sanityChecks (C : NstParams) (d : NstDesc) : Bool :=
  decide (d.initLevel ≥ d.innerLevel) && decide (d.outerLevel ≥ d.innerLevel)
    && decide (d.outerLevel ≥ d.initLevel) && decide (C.C_N_HW_LOOPS ≥ d.outerLevel)
    && decide (C.C_N_NST_OPCODES > d.opCode)
    && (List.range C.C_N_HW_LOOPS).all (fun k => decide (d.loopBound k < 2 ^ C.C_HW_LOOP_WIDTH))

/-- The opcode `switch` of lines 186-216; `none` is the `default` branch. -/
def selectOp {Acc : Type} (C : NstParams) (F : FmaPrim Acc) (d : NstDesc) :
    Option (nstInternalOp Acc) :=
  if d.opCode = C.C_NST_MAC_OP then some (nstMacOp F d)
  else if d.opCode = C.C_NST_VADDSUB_OP then some (nstVAddSubOp F d)
  else if d.opCode = C.C_NST_VMULT_OP then some (nstVMultOp F d)
  else if d.opCode = C.C_NST_OUTERP_OP then some (nstOuterPOp F d)
  else if d.opCode = C.C_NST_MAXMIN_OP then some (nstMaxMinOp d)
  else if d.opCode = C.C_NST_THTST_OP then some (nstThTstOp C d)
  else if d.opCode = C.C_NST_MASK_OP then some (nstMaskOp C d)
  else if d.opCode = C.C_NST_MASKMAC_OP then some (nstMaskMacOp C F d)
  else if d.opCode = C.C_NST_COPY_OP then some (nstCopyOp d)
  else none

/-- The function `nstV2Api::nstFuncModel` (lines 168-269): sanity checks, AGU init
(`memcpy(&agu, &aguOff, ...)`), kernel selection, then `nstLooper(outerLevel, *op, true)`. -/
def nstFuncModel {Acc : Type} (C : NstParams) (F : FmaPrim Acc) (d : NstDesc) (m : NstState Acc) :
    Except (NstFault Acc) (NstState Acc) :=
  if sanityChecks C d = false then Except.error (NstFault.sanity m)
  else
    let m1 : NstState Acc := { m with agu := d.aguOff }
    match selectOp C F d with
    | none => Except.error (NstFault.badOpCode m1)
    | some op => nstLooper C d op d.outerLevel true m1

/-- A descriptor passes validation: the sanity checks hold and the `switch` finds a kernel. -/
def validDesc (C : NstParams) (d : NstDesc) : Bool :=
  sanityChecks C d && (C.opcodes.contains d.opCode)

/-! ## Specification vocabulary

The definitions below are not code of the program: they are the words in which the properties
of the program are stated. -/

/-- The state carried by a fault. -/
def NstFault.state {Acc : Type} : NstFault Acc → NstState Acc
  | NstFault.sanity m => m
  | NstFault.badOpCode m => m
  | NstFault.aguRange m => m
  | NstFault.hang m => m

/-- The run was rejected by the descriptor validation (a sanity `assert` or the `default`
branch of the opcode `switch`). -/
def isRejected {Acc : Type} : Except (NstFault Acc) (NstState Acc) → Bool
  | Except.error (NstFault.sanity _) => true
  | Except.error (NstFault.badOpCode _) => true
  | _ => false

/-- The run was aborted by an address `assert` of `nstLooper`. -/
def isAddrAbort {Acc : Type} : Except (NstFault Acc) (NstState Acc) → Bool
  | Except.error (NstFault.aguRange _) => true
  | _ => false

/-- The event log at the end of a run, completed or not. -/
def runTrace {Acc : Type} : Except (NstFault Acc) (NstState Acc) → List Event
  | Except.ok m => m.trace
  | Except.error f => f.state.trace

/-- The word at byte address `a` after a completed run (`none` for a run that failed). -/
def finalWord {Acc : Type} (r : Except (NstFault Acc) (NstState Acc)) (a : Int) : Option Nat :=
  match r with
  | Except.ok m => some (loadWord m.mem a)
  | Except.error _ => none

/-- The same descriptor with the address check switched off. -/
def NstDesc.unchecked (d : NstDesc) : NstDesc := { d with checkTcdmAddrs := false }

/-- The descriptor invariants in the words of the spec (section 3 and section 7). -/
def DescInvariants (C : NstParams) (d : NstDesc) : Prop :=
  d.innerLevel ≤ d.initLevel ∧ d.innerLevel ≤ d.outerLevel ∧ d.initLevel ≤ d.outerLevel
    ∧ d.outerLevel ≤ C.C_N_HW_LOOPS ∧ d.opCode ∈ C.opcodes
    ∧ ∀ k, k < C.C_N_HW_LOOPS → d.loopBound k < 2 ^ C.C_HW_LOOP_WIDTH

/-- The product `prod_{lo <= k < hi} (loopBound[k] + 1)`. -/
def loopProd (d : NstDesc) (lo hi : Nat) : Nat :=
  ∏ k ∈ Finset.Ico lo hi, (d.loopBound k + 1)

/-- The number of events of kind `k` in a log. -/
def countKind (k : EvKind) (t : List Event) : Nat := t.countP (fun e => decide (e.kind = k))

/-- The displacement `D_l` of one complete sweep of the levels below `l` for AGU `o`:
`D_0 = 0`, `D_(l+1) = (loopBound[l]+1) * D_l + loopBound[l] * aguStride[o][l]`. -/
def sweepDisp (d : NstDesc) (o : Nat) : Nat → Int
  | 0 => 0
  | l + 1 => ((d.loopBound l : Int) + 1) * sweepDisp d o l + (d.loopBound l : Int) * d.aguStride o l

/-- A kernel that leaves the AGU cursors alone. -/
def OpFrame {Acc : Type} (op : nstInternalOp Acc) : Prop :=
  ∀ m, (op.init m).agu = m.agu ∧ (op.execute m).agu = m.agu ∧ (op.store m).agu = m.agu

/-- The cursors after the exit of level `level` (lines 254-261). -/
def exitAgu (C : NstParams) (d : NstDesc) (level : Nat) (isLast : Bool) (agu : Nat → Int) :
    Nat → Int :=
  if level < C.C_N_HW_LOOPS ∧ isLast = false then aguStep C d level agu else agu

/-- The init event of an entry to `level`, if there is one. -/
def initEv (d : NstDesc) (level : Nat) (agu : Nat → Int) : List Event :=
  if d.initLevel = level then [⟨EvKind.init, agu⟩] else []

/-- The store event of an exit from `level`, if there is one. -/
def storeEv (d : NstDesc) (level : Nat) (agu : Nat → Int) : List Event :=
  if d.innerLevel = level then [⟨EvKind.store, agu⟩] else []

/-- Events and final cursors of `n` loop iterations, the next one being iteration `k`. -/
def loopSem (body : Bool → (Nat → Int) → List Event × (Nat → Int)) (bound : Nat) :
    Nat → Nat → (Nat → Int) → List Event × (Nat → Int)
  | 0, _, a => ([], a)
  | n + 1, k, a =>
    ((body (k == bound) a).1 ++ (loopSem body bound n (k + 1) (body (k == bound) a).2).1,
      (loopSem body bound n (k + 1) (body (k == bound) a).2).2)

/-- Events and final cursors of a call of `nstLooper` that no address check aborts, as a
function of the cursors at the call. -/
def looperSem (C : NstParams) (d : NstDesc) : Nat → Bool → (Nat → Int) → List Event × (Nat → Int)
  | 0, isLast, a =>
    (initEv d 0 a ++ [⟨EvKind.execute, a⟩] ++ storeEv d 0 a, exitAgu C d 0 isLast a)
  | l + 1, isLast, a =>
    (initEv d (l + 1) a ++ (loopSem (looperSem C d l) (d.loopBound l) (d.loopBound l + 1) 0 a).1
        ++ storeEv d (l + 1) (loopSem (looperSem C d l) (d.loopBound l) (d.loopBound l + 1) 0 a).2,
      exitAgu C d (l + 1) isLast
        (loopSem (looperSem C d l) (d.loopBound l) (d.loopBound l + 1) 0 a).2)

/-- The relation between a (possibly aborted) piece of a run started in `m` and its events and
cursors `s` without address checks: either it completes with exactly these events and cursors
(and, with the check on, every execute event has its cursors in range), or the check is on
and it aborts after a prefix of the events, at cursors that are out of range and are those of
an execute event still to come. -/
def StepSpec {Acc : Type} (d : NstDesc) (m : NstState Acc)
    (r : Except (NstFault Acc) (NstState Acc)) (s : List Event × (Nat → Int)) : Prop :=
  (∃ m1, r = Except.ok m1 ∧ m1.trace = m.trace ++ s.1 ∧ m1.agu = s.2
      ∧ (d.checkTcdmAddrs = true →
          ∀ e ∈ s.1, e.kind = EvKind.execute → aguInRange d e.agu = true))
  ∨ (d.checkTcdmAddrs = true ∧ ∃ mf pre post, r = Except.error (NstFault.aguRange mf)
      ∧ s.1 = pre ++ post ∧ mf.trace = m.trace ++ pre ∧ aguInRange d mf.agu = false
      ∧ ∃ e ∈ post, e.kind = EvKind.execute ∧ e.agu = mf.agu)

/-- The execute windows of a log: for every store event, the number of execute events since
the previous store event (or since the beginning); `n` is the count of the window still open.
Executes after the last store are not listed. -/
def execWindows : List Event → Nat → List Nat
  | [], _ => []
  | e :: t, n =>
    match e.kind with
    | EvKind.store => n :: execWindows t 0
    | EvKind.execute => execWindows t (n + 1)
    | EvKind.init => execWindows t n

/-- The store windows of a log: for every init event, the number of store events up to the next
init event or the end of the log; `cur` is the count of the window still open (`none` before
the first init). -/
def storeWindows : List Event → Option Nat → List Nat
  | [], none => []
  | [], some n => [n]
  | e :: t, cur =>
    match e.kind, cur with
    | EvKind.init, none => storeWindows t (some 0)
    | EvKind.init, some n => n :: storeWindows t (some 0)
    | EvKind.store, none => storeWindows t none
    | EvKind.store, some n => storeWindows t (some (n + 1))
    | EvKind.execute, c => storeWindows t c

/-- The number of events fired at hook level `h` by one call of the looper at `level`:
`prod_{h<=k<level}(loopBound[k]+1)` when `h <= level`, none otherwise. -/
def hookCount (d : NstDesc) (h level : Nat) : Nat :=
  if h ≤ level then loopProd d h level else 0

/-- The accumulator after the products `A[0]*B[0], ..., A[n-1]*B[n-1]` were accumulated into a
cleared accumulator in ascending order, each by the call `pcsMac(A[i], B[i], 0, 0, 0, accu, res)`
of `nstMacOp::execute` with `negate = false`. -/
def macAccu {Acc : Type} (F : FmaPrim Acc) (A B : Nat → Nat) : Nat → Acc
  | 0 => F.clear
  | n + 1 => (F.pcsMac (A n) (B n) false false false (macAccu F A B n) 0).1

/-- The part of the contract of the FMA primitive (spec, section 6) that a dot product relies
on: the readout call `pcsMac(0, 0, 0, 0, 1, accu, res)` of the `store` phase renders the
accumulator without changing it, and what it renders does not depend on the old content of
`res`. -/
def FmaReadoutContract {Acc : Type} (F : FmaPrim Acc) : Prop :=
  (∀ acc r, (F.pcsMac C_FP32_ZERO_VAL C_FP32_ZERO_VAL false false true acc r).1 = acc)
    ∧ (∀ acc r1 r2, (F.pcsMac C_FP32_ZERO_VAL C_FP32_ZERO_VAL false false true acc r1).2
        = (F.pcsMac C_FP32_ZERO_VAL C_FP32_ZERO_VAL false false true acc r2).2)

/-- The four bytes of the word at `a` and those of the word at `b` do not overlap. -/
def wordsDisjoint (a b : Int) : Prop := a + 3 < b ∨ b + 3 < a

/-- The dot product descriptors of the spec (section 8, property 4): MAC, `initSel >= 3`,
`auxFunc = 0`, `polarity = 0`, `innerLevel = 0`, `initLevel = outerLevel = 1`, stride 4 on
AGU 0 and AGU 1 and stride 0 on AGU 2 at level 0. -/
def MacDotDesc (C : NstParams) (d : NstDesc) : Prop :=
  d.opCode = C.C_NST_MAC_OP ∧ 3 ≤ d.initSel ∧ d.auxFunc = 0 ∧ d.polarity = false
    ∧ d.innerLevel = 0 ∧ d.initLevel = 1 ∧ d.outerLevel = 1
    ∧ d.aguStride 0 0 = 4 ∧ d.aguStride 1 0 = 4 ∧ d.aguStride 2 0 = 0

/-- The memory layout of a dot product: the arrays `A` (at `aguOff[0]`) and `B` (at
`aguOff[1]`) of `loopBound[0] + 1` words and the destination word (at `aguOff[2]`) lie in the
address space, and the destination word overlaps no word of `A` or `B`. -/
def MacDotLayout (C : NstParams) (d : NstDesc) : Prop :=
  (0 ≤ d.aguOff 0 ∧ d.aguOff 0 + 4 * (d.loopBound 0 : Int) < (2 : Int) ^ C.ptrBits)
    ∧ (0 ≤ d.aguOff 1 ∧ d.aguOff 1 + 4 * (d.loopBound 0 : Int) < (2 : Int) ^ C.ptrBits)
    ∧ (0 ≤ d.aguOff 2 ∧ d.aguOff 2 < (2 : Int) ^ C.ptrBits)
    ∧ ∀ i : Nat, i ≤ d.loopBound 0 →
        wordsDisjoint (d.aguOff 0 + 4 * (i : Int)) (d.aguOff 2)
          ∧ wordsDisjoint (d.aguOff 1 + 4 * (i : Int)) (d.aguOff 2)

/-! ## Concrete data for the scenarios of the spec -/

/-- The value of an FP32 pattern scaled by `2^149`; a NaN counts as zero. -/
def fp32Val (w : Nat) : Int :=
  match fp32ToFloat w with
  | some v => v
  | none => 0

/-- The FP32 pattern of the real `x / 2^298`, truncated toward zero when it is not
representable (`x` is an accumulator of `exactFma`): the exponent field is the number of
`i < 254` with `2^(i+172) <= |x|`, and `|x| >= 2^426` gives an infinity. -/
def fp32Encode (x : Int) : Nat :=
  let mag : Nat := x.natAbs
  let sgn : Nat := if x < 0 then 2147483648 else 0
  let e : Nat := ((List.range 254).filter (fun i => mag >>> (i + 172) != 0)).length
  if mag >>> 426 != 0 then sgn + 2139095040
  else if e = 0 then sgn + mag >>> 149
  else sgn + e * 8388608 + (mag >>> (e + 148) - 8388608)

/-- Modelled from the spec: the FMA primitive of section 6 read as exact arithmetic, for
finite operands whose sums an FP32 word holds exactly; it is evaluated at such values only.
The accumulator is the exact sum scaled by `2^298`; `firstOp` resets it to the (signed) product,
otherwise the product is added; `readout` renders the accumulator into `res`, which is left
alone when `readout` is false. Outside these values it is not the primitive of the spec: a NaN
operand counts as zero, an infinity as `2^277`, and the rendering truncates where the bit-true
primitive rounds. -/
def exactFma : FmaPrim Int where
  clear := 0
  pcsMac := fun a b firstOp negate readout acc res =>
    let p : Int := fp32Val a * fp32Val b
    let p1 : Int := if negate then -p else p
    let acc1 : Int := if firstOp then p1 else acc + p1
    (acc1, if readout then fp32Encode acc1 else res)

/-- A memory holding the given words from byte address 0 on, and zero elsewhere. -/
def memOfWords (ws : List Nat) : Int → Nat :=
  fun x => if x < 0 then 0 else ws.getD (x.toNat / 4) 0 / 256 ^ (x.toNat % 4) % 256

/-- A machine state with the given memory and left-over index latch, everything else zero. -/
def stateOf (mem : Int → Nat) (idx : Nat) : NstState Int where
  agu := fun _ => 0
  accuState := 0
  aluState := 0
  cntState := 0
  idxState := idx
  tst := false
  opA := 0
  opB := 0
  mem := mem
  trace := []

/-- Scenario S1 of the spec: the dot product descriptor. -/
def descS1 : NstDesc where
  opCode := 0
  initLevel := 1
  innerLevel := 0
  outerLevel := 1
  initSel := 3
  auxFunc := 0
  polarity := false
  loopBound := fun k => if k = 0 then 3 else 0
  aguOff := fun o => if o = 0 then 0 else if o = 1 then 16 else 32
  aguStride := fun o l => if l = 0 ∧ o < 2 then 4 else 0
  checkTcdmAddrs := false
  tcdmLow := 0
  tcdmHigh := 0

/-- Memory of S1: A = [1.0, 2.0, 3.0, 4.0] at offset 0, B = [10.0, 20.0, 30.0, 40.0] at 16. -/
def memS1 : Int → Nat :=
  memOfWords [0x3F800000, 0x40000000, 0x40400000, 0x40800000,
    0x41200000, 0x41A00000, 0x41F00000, 0x42200000]

/-- The descriptor of S1 with the address check on and a window `[64, 128]` that contains none
of the cursors 0, 16, 32. -/
def descS1Checked : NstDesc :=
  { descS1 with checkTcdmAddrs := true, tcdmLow := 64, tcdmHigh := 128 }

/-- The descriptor of S1 with the levels out of order (`initLevel = 0 < innerLevel = 1`). -/
def descS1BadLevels : NstDesc :=
  { descS1 with initLevel := 0, innerLevel := 1 }

/-- The descriptor of S1 with the address check on and the window `[0, 24]`: the cursors are
in range at the start, and AGU 0 and AGU 1 leave the window at the fourth innermost iteration. -/
def descS1Window : NstDesc :=
  { descS1 with checkTcdmAddrs := true, tcdmLow := 0, tcdmHigh := 24, aguOff := fun _ => 16 }

/-- Scenario S2 of the spec: S1 with the ReLU on (`auxFunc = 1`). -/
def descS2 : NstDesc := { descS1 with auxFunc := 1 }

/-- Memory of S2: A = [1.0, 2.0, 3.0, 4.0] at offset 0, B = [-10.0, -20.0, -30.0, -40.0] at 16. -/
def memS2 : Int → Nat :=
  memOfWords [0x3F800000, 0x40000000, 0x40400000, 0x40800000,
    0xC1200000, 0xC1A00000, 0xC1F00000, 0xC2200000]

/-- Scenario S3 of the spec: MAXMIN with `initSel = 3`, `polarity = 1`, `auxFunc = 1`,
`loopBound[0] = 7`, stride 4 on AGU 1, destination stride 0; one init window of eight executes
closed by one store (`initLevel = innerLevel = outerLevel = 1`). -/
def descS3 : NstDesc where
  opCode := 4
  initLevel := 1
  innerLevel := 1
  outerLevel := 1
  initSel := 3
  auxFunc := 1
  polarity := true
  loopBound := fun k => if k = 0 then 7 else 0
  aguOff := fun o => if o = 2 then 32 else 0
  aguStride := fun o l => if l = 0 ∧ o = 1 then 4 else 0
  checkTcdmAddrs := false
  tcdmLow := 0
  tcdmHigh := 0

/-- Memory of S3: [3.0, 1.0, 4.0, 1.0, 5.0, 9.0, 2.0, 6.0] at offset 0. -/
def memS3 : Int → Nat :=
  memOfWords [0x40400000, 0x3F800000, 0x40800000, 0x3F800000,
    0x40A00000, 0x41100000, 0x40000000, 0x40C00000]

/-- The data of S3 with the second value replaced by `-1.0`. -/
def memS3Neg : Int → Nat :=
  memOfWords [0x40400000, 0xBF800000, 0x40800000, 0x3F800000,
    0x40A00000, 0x41100000, 0x40000000, 0x40C00000]

/-- The registers a MAXMIN window works on: `aluState`, `idxState`, `cntState`. -/
def nstRegs {Acc : Type} (m : NstState Acc) : Nat × Nat × Nat :=
  (m.aluState, m.idxState, m.cntState)

/-- The states before each execute of a MAXMIN window over the data of S3 that starts with the
running value `9.0` and a left-over index 7; between two executes AGU 1 advances by 4. -/
def winS3 : Nat → NstState Int
  | 0 => { stateOf memS3 7 with aluState := 0x41100000, agu := descS3.aguOff }
  | k + 1 => aguUpdate stdParams descS3 0 ((nstMaxMinOp descS3).execute (winS3 k))

/-- The values the header is expected to give the `auxFunc` codes (spec, section 4.8 and
section 4.9): `CMP_EQ = 0`, `CMP_LT = 1`, `CMP_LE = 2`, `BIN_OUT = 4`. -/
def AuxCodes (C : NstParams) : Prop :=
  C.C_NST_THTST_AUX_CMP_EQ = 0 ∧ C.C_NST_MASK_AUX_CMP_LT = 1 ∧ C.C_NST_THTST_AUX_CMP_LE = 2
    ∧ C.C_NST_THTST_AUX_BIN_OUT = 4

/-- Scenario S4 of the spec: THTST with `auxFunc = CMP_LE` (2), `polarity = 0`, the threshold
read through AGU 0 (`initSel = 0`) at every element (`initLevel = innerLevel = 0`), the input
through AGU 1 and the destination through AGU 2, both with stride 4. -/
def descS4 : NstDesc where
  opCode := 5
  initLevel := 0
  innerLevel := 0
  outerLevel := 1
  initSel := 0
  auxFunc := 2
  polarity := false
  loopBound := fun k => if k = 0 then 3 else 0
  aguOff := fun o => if o = 0 then 0 else if o = 1 then 4 else 20
  aguStride := fun o l => if l = 0 ∧ (o = 1 ∨ o = 2) then 4 else 0
  checkTcdmAddrs := false
  tcdmLow := 0
  tcdmHigh := 0

/-- Memory of S4: the threshold 2.5 at offset 0, the input [1.0, 2.0, 3.0, 4.0] at offset 4;
the destination is at offset 20. -/
def memS4 : Int → Nat :=
  memOfWords [0x40200000, 0x3F800000, 0x40000000, 0x40400000, 0x40800000]

/-- Scenario S5 of the spec: MASK with `auxFunc = BIN_OUT` (4), `polarity = 0`, one init window
of eight executes (`initLevel = 1`), the store after every execute (`innerLevel = 0`); A is read
through AGU 0, `aluState` is loaded through AGU 1 (`initSel = 1`), the destination is written
through AGU 2. -/
def descS5 : NstDesc where
  opCode := 6
  initLevel := 1
  innerLevel := 0
  outerLevel := 1
  initSel := 1
  auxFunc := 4
  polarity := false
  loopBound := fun k => if k = 0 then 7 else 0
  aguOff := fun o => if o = 0 then 0 else if o = 1 then 32 else 36
  aguStride := fun o l => if l = 0 ∧ (o = 0 ∨ o = 2) then 4 else 0
  checkTcdmAddrs := false
  tcdmLow := 0
  tcdmHigh := 0

/-- Memory of S5: A = [10.0, ..., 17.0] at offset 0, the word `w` loaded into `aluState` at
offset 32, and a destination at offset 36 that holds the pattern of `1.0` in every word. -/
def memS5 (w : Nat) : Int → Nat :=
  memOfWords [0x41200000, 0x41300000, 0x41400000, 0x41500000, 0x41600000, 0x41700000,
    0x41800000, 0x41880000, w, 0x3F800000, 0x3F800000, 0x3F800000, 0x3F800000, 0x3F800000,
    0x3F800000, 0x3F800000, 0x3F800000]

/-- Scenario S6 of the spec: COPY with `auxFunc = 1`, `outerLevel = 2`, `innerLevel = 0`,
`loopBound = [3, 1]`. AGU 0 walks a 2x4 tile of a matrix with rows of six words (stride 4
inside a row, 12 from the end of a row to the start of the next), AGU 2 walks contiguously. -/
def descS6 : NstDesc where
  opCode := 8
  initLevel := 2
  innerLevel := 0
  outerLevel := 2
  initSel := 3
  auxFunc := 1
  polarity := false
  loopBound := fun k => if k = 0 then 3 else if k = 1 then 1 else 0
  aguOff := fun o => if o = 2 then 48 else 0
  aguStride := fun o l =>
    if o = 0 then (if l = 0 then 4 else if l = 1 then 12 else 0)
    else if o = 2 then (if l = 0 then 4 else if l = 1 then 4 else 0)
    else 0
  checkTcdmAddrs := false
  tcdmLow := 0
  tcdmHigh := 0

/-- Memory of S6: a 2x6 matrix of the words 101..106, 201..206 at offset 0; the destination
is at offset 48. -/
def memS6 : Int → Nat :=
  memOfWords [101, 102, 103, 104, 105, 106, 201, 202, 203, 204, 205, 206]

/-- A VADDSUB descriptor with init, execute and store at the same element
(`initLevel = innerLevel = 0`, one element): the init value is read through AGU 1
(`initSel = 1`), A through AGU 0, the result goes to AGU 2. -/
def descAddSub (pol : Bool) : NstDesc where
  opCode := 1
  initLevel := 0
  innerLevel := 0
  outerLevel := 0
  initSel := 1
  auxFunc := 0
  polarity := pol
  loopBound := fun _ => 0
  aguOff := fun o => if o = 0 then 0 else if o = 1 then 4 else 8
  aguStride := fun _ _ => 0
  checkTcdmAddrs := false
  tcdmLow := 0
  tcdmHigh := 0

/-- Memory for `descAddSub`: A = 3.0 at offset 0, the init value 5.0 at offset 4. -/
def memAddSub : Int → Nat := memOfWords [0x40400000, 0x40A00000]

/-- A MASKMAC state for the `auxFunc & 0x4` cases: `aluState` holds the pattern of 2.0,
`cntState` is 0, all cursors are 0 and the word at offset 0, the destination element `*agu[2]`,
is `w`. -/
def stateMaskMac (w : Nat) : NstState Int :=
  { stateOf (memOfWords [w]) 0 with aluState := 0x40000000 }

/-- A MASKMAC descriptor with the given `auxFunc` and `polarity = 0`. -/
def descMaskMac (aux : Nat) : NstDesc :=
  { descS5 with opCode := 7, auxFunc := aux }

/-- The states before each execute of the MASK window of S5, `aluState` holding `w`: between
two executes the looper stores and advances the cursors of level 0. -/
def winS5 (w : Nat) : Nat → NstState Int
  | 0 => (nstMaskOp stdParams descS5).init { stateOf (memS5 w) 0 with agu := descS5.aguOff }
  | k + 1 =>
    aguUpdate stdParams descS5 0
      ((nstMaskOp stdParams descS5).store ((nstMaskOp stdParams descS5).execute (winS5 w k)))

/-- The scalar descriptor `descAddSub false` (all loop bounds 0) with the address check on and
a window `[64, 128]` that contains none of the cursors 0, 4, 8. -/
def descScalarChecked : NstDesc :=
  { descAddSub false with checkTcdmAddrs := true, tcdmLow := 64, tcdmHigh := 128 }

/-- The memory at the end of a run, completed or not. -/
def runMem {Acc : Type} : Except (NstFault Acc) (NstState Acc) → Int → Nat
  | Except.ok m => m.mem
  | Except.error f => f.state.mem

/-- The elements a log visits: the cursors at its execute events, in order. -/
def visits (t : List Event) : List (Nat → Int) :=
  (t.filter (fun e => decide (e.kind = EvKind.execute))).map (fun e => e.agu)

/-- Memory after copying, for every visit in order, the word at the AGU 0 cursor to the
AGU 2 cursor. -/
def copyWords (vs : List (Nat → Int)) (mem : Int → Nat) : Int → Nat :=
  vs.foldl (fun mm v => storeWord mm (v 2) (loadWord mm (v 0))) mem

instance wordsDisjointDecidable (a b : Int) : Decidable (wordsDisjoint a b) := by
  unfold wordsDisjoint
  exact inferInstance

/-- What a piece of a COPY run (with `auxFunc & 1` set and `innerLevel = 0`) does to memory:
it copies, at every execute event it logs, the word at `agu[0]` to `agu[2]`. -/
def CopySpec {Acc : Type} (m : NstState Acc) (r : Except (NstFault Acc) (NstState Acc)) : Prop :=
  ∃ evs, runTrace r = m.trace ++ evs ∧ runMem r = copyWords (visits evs) m.mem

/-- A choice among the registers `accuState`, `aluState`, `cntState`, `tst`, `opA`, `opB`. -/
structure RegMask where
  acc : Bool
  alu : Bool
  cnt : Bool
  tst : Bool
  opA : Bool
  opB : Bool

/-- No register. -/
def RegMask.none : RegMask := ⟨false, false, false, false, false, false⟩

/-- Every register of `k1` is one of `k2`. -/
def RegMask.le (k1 k2 : RegMask) : Prop :=
  (k1.acc = true → k2.acc = true) ∧ (k1.alu = true → k2.alu = true)
    ∧ (k1.cnt = true → k2.cnt = true) ∧ (k1.tst = true → k2.tst = true)
    ∧ (k1.opA = true → k2.opA = true) ∧ (k1.opB = true → k2.opB = true)

/-- Two machine states have the same memory, the same cursors and the same content in the
registers of `k`. -/
def Agree {Acc : Type} (k : RegMask) (m m' : NstState Acc) : Prop :=
  m.mem = m'.mem ∧ m.agu = m'.agu
    ∧ (k.acc = true → m.accuState = m'.accuState)
    ∧ (k.alu = true → m.aluState = m'.aluState)
    ∧ (k.cnt = true → m.cntState = m'.cntState)
    ∧ (k.tst = true → m.tst = m'.tst)
    ∧ (k.opA = true → m.opA = m'.opA)
    ∧ (k.opB = true → m.opB = m'.opB)

/-- A kernel that reads no register before it has written it: `init` needs no register and
sets those of `k1`, `execute` needs those of `k1` and sets those of `k2`, `store` needs those
of `k2` and keeps them; memory and cursors are carried along. -/
def Hygienic {Acc : Type} (op : nstInternalOp Acc) (k1 k2 : RegMask) : Prop :=
  RegMask.le k1 k2
    ∧ (∀ m m', Agree RegMask.none m m' → Agree k1 (op.init m) (op.init m'))
    ∧ (∀ m m', Agree k1 m m' → Agree k2 (op.execute m) (op.execute m'))
    ∧ (∀ m m', Agree k2 m m' → Agree k2 (op.store m) (op.store m'))

/-- Two runs end the same way: both return, in states related by `Q`, or both fail, with the
same kind of fault and the same memory. -/
def SameOutcome {Acc : Type} (Q : NstState Acc → NstState Acc → Prop)
    (r r' : Except (NstFault Acc) (NstState Acc)) : Prop :=
  match r, r' with
  | Except.ok a, Except.ok b => Q a b
  | Except.error (NstFault.sanity a), Except.error (NstFault.sanity b) => a.mem = b.mem
  | Except.error (NstFault.badOpCode a), Except.error (NstFault.badOpCode b) => a.mem = b.mem
  | Except.error (NstFault.aguRange a), Except.error (NstFault.aguRange b) => a.mem = b.mem
  | Except.error (NstFault.hang a), Except.error (NstFault.hang b) => a.mem = b.mem
  | _, _ => False

/-- Modelled from the spec: the part of the contract of the FMA primitive (section 6) that says
`firstOp` resets the accumulator to the product rather than adding to it: a call with `firstOp`
set does not depend on the accumulator it is given. -/
def FmaFirstOpContract {Acc : Type} (F : FmaPrim Acc) : Prop :=
  ∀ (a b : Nat) (negate readout : Bool) (acc acc' : Acc) (res : Nat),
    F.pcsMac a b true negate readout acc res = F.pcsMac a b true negate readout acc' res

/-- The total displacement of AGU `o` over a run with `L` loop levels:
`sum_{l<L} aguStride[o][l] * loopBound[l] * prod_{l<k<L}(loopBound[k]+1)`. -/
def runDisp (d : NstDesc) (o L : Nat) : Int :=
  ∑ l ∈ Finset.range L, d.aguStride o l * (d.loopBound l : Int) * (loopProd d (l + 1) L : Int)

/-- The same descriptor with other strides. -/
def NstDesc.withStride (d : NstDesc) (s : Nat → Nat → Int) : NstDesc := { d with aguStride := s }

/-- What a run needs of the machine beyond the faults of `NstFault`: a call stack deeper than
the budget, an index past the `C_N_HW_LOOPS` entries of `loopBound`, a wrap of the 32-bit loop
counter. -/
inductive ResFault where
  | stackDepth
  | loopBoundIndex (i : Nat)
  | counterWrap
  deriving DecidableEq

/-- The loop of line 245 with its `uint32_t` counter made explicit: after iteration `k` the
increment `k++` must not wrap, or `k <= bound` would never fail. -/
def forLoopChk {Acc : Type}
    (body : Bool → NstState Acc → Except ResFault (Except (NstFault Acc) (NstState Acc)))
    (bound : Nat) :
    Nat → Nat → NstState Acc → Except ResFault (Except (NstFault Acc) (NstState Acc))
  | 0, _, m => Except.ok (Except.ok m)
  | n + 1, k, m =>
    match body (k == bound) m with
    | Except.error r => Except.error r
    | Except.ok (Except.error e) => Except.ok (Except.error e)
    | Except.ok (Except.ok m1) =>
      if 4294967296 ≤ k + 1 then Except.error ResFault.counterWrap
      else forLoopChk body bound n (k + 1) m1

/-- The recursive lambda `nstLooper` (lines 220-263) with its resources made explicit: `fuel`
is the number of nested activations the stack may hold, the call for `level - 1` taking one
more; `loopBound.w[level-1]` is an access to an array of `C_N_HW_LOOPS` entries; the loop
counter is a `uint32_t`. -/
def nstLooperChk {Acc : Type} (C : NstParams) (d : NstDesc) (op : nstInternalOp Acc) :
    Nat → Nat → Bool → NstState Acc → Except ResFault (Except (NstFault Acc) (NstState Acc))
  | 0, _, _, _ => Except.error ResFault.stackDepth
  | fuel + 1, level, isLast, m =>
    match looperEnter d op level m with
    | Except.error e => Except.ok (Except.error e)
    | Except.ok m1 =>
      if level = 0 then Except.ok (Except.ok (looperExit C d op level isLast (callExecute op m1)))
      else if C.C_N_HW_LOOPS ≤ level - 1 then Except.error (ResFault.loopBoundIndex (level - 1))
      else
        match forLoopChk (nstLooperChk C d op fuel (level - 1)) (d.loopBound (level - 1))
            (d.loopBound (level - 1) + 1) 0 m1 with
        | Except.error r => Except.error r
        | Except.ok (Except.error e) => Except.ok (Except.error e)
        | Except.ok (Except.ok m2) => Except.ok (Except.ok (looperExit C d op level isLast m2))

/-- The function `nstFuncModel` (lines 168-269) over the looper with explicit resources, the
stack holding `fuel` activations of the looper. -/
def nstFuncModelChk {Acc : Type} (C : NstParams) (F : FmaPrim Acc) (d : NstDesc) (fuel : Nat)
    (m : NstState Acc) : Except ResFault (Except (NstFault Acc) (NstState Acc)) :=
  if sanityChecks C d = false then Except.ok (Except.error (NstFault.sanity m))
  else
    let m1 : NstState Acc := { m with agu := d.aguOff }
    match selectOp C F d with
    | none => Except.ok (Except.error (NstFault.badOpCode m1))
    | some op => nstLooperChk C d op fuel d.outerLevel true m1

/-- The resource fault of a run, if there is one. -/
def resFault {Acc : Type} :
    Except ResFault (Except (NstFault Acc) (NstState Acc)) → Option ResFault
  | Except.error r => some r
  | Except.ok _ => none

/-- Where a run stands as far as the order of its kernel events goes: before the first init;
after an init, before the next execute; after an execute, before the next store or execute;
after a store. -/
inductive Phase where
  | fresh
  | armed
  | busy
  | done
  deriving DecidableEq

/-- The phase after an event of kind `k`, `none` when the event is out of order: an init comes
first or after a store, an execute after an init, an execute or a store, and a store after an
execute. -/
def phaseStep : Phase → EvKind → Option Phase
  | Phase.fresh, EvKind.init => some Phase.armed
  | Phase.done, EvKind.init => some Phase.armed
  | Phase.armed, EvKind.execute => some Phase.busy
  | Phase.busy, EvKind.execute => some Phase.busy
  | Phase.done, EvKind.execute => some Phase.busy
  | Phase.busy, EvKind.store => some Phase.done
  | _, _ => none

/-- The phase after a sequence of events, `none` when one of them is out of order. -/
def phaseRun : Phase → List Event → Option Phase
  | p, [] => some p
  | p, e :: t =>
    match phaseStep p e.kind with
    | none => none
    | some q => phaseRun q t

/-- The phases in which a call of the looper at `level` can start: below `innerLevel` any but
the first, from `innerLevel` below `initLevel` after an init or a store, from `initLevel` on
before the first init or after a store. -/
def phasePre (d : NstDesc) (level : Nat) (p : Phase) : Prop :=
  if level < d.innerLevel then p ≠ Phase.fresh
  else if level < d.initLevel then p = Phase.armed ∨ p = Phase.done
  else p = Phase.fresh ∨ p = Phase.done

/-- The phase in which a call of the looper at `level` ends: after an execute below
`innerLevel`, after a store from `innerLevel` on. -/
def phasePost (d : NstDesc) (level : Nat) : Phase :=
  if level < d.innerLevel then Phase.busy else Phase.done

/-- A dot product descriptor with the address check on: the destination word at offset 0, `A`
at offset 4, `B` at offset 20, and the window `[0, 28]`, which the cursor of AGU 1 leaves at
the fourth innermost iteration. -/
def descDotWindow : NstDesc :=
  { descS1 with
    checkTcdmAddrs := true
    tcdmLow := 0
    tcdmHigh := 28
    aguOff := fun o => if o = 0 then 4 else if o = 1 then 20 else 0 }

/-- Memory for `descDotWindow`: the destination word (zero) at offset 0, A = [1.0, 2.0, 3.0, 4.0]
at offset 4, B = [10.0, 20.0, 30.0, 40.0] at offset 20. -/
def memDotWindow : Int → Nat :=
  memOfWords [0, 0x3F800000, 0x40000000, 0x40400000, 0x40800000,
    0x41200000, 0x41A00000, 0x41F00000, 0x42200000]

/-- An FP32 pattern that is neither a NaN nor an infinity. -/
def fp32Finite (w : Nat) : Prop := fp32Exp w ≠ 255

/-- Modelled from the spec: the contract of the FMA primitive (section 6) read as exact
arithmetic on finite operands, `V acc` being the exact value an accumulator holds (scaled by
`2^298`): `firstOp` resets the accumulator to the product, otherwise the product is added, and
`negate` flips the sign of the product. What `readout` renders is left to the primitive. -/
def ExactFmaContract {Acc : Type} (F : FmaPrim Acc) (V : Acc → Int) : Prop :=
  (∀ (a b : Nat) (negate readout : Bool) (acc : Acc) (res : Nat),
      fp32Finite a → fp32Finite b →
      V (F.pcsMac a b true negate readout acc res).1
        = if negate = true then -(fp32Val a * fp32Val b) else fp32Val a * fp32Val b)
    ∧ (∀ (a b : Nat) (negate readout : Bool) (acc : Acc) (res : Nat),
      fp32Finite a → fp32Finite b →
      V (F.pcsMac a b false negate readout acc res).1
        = V acc + if negate = true then -(fp32Val a * fp32Val b) else fp32Val a * fp32Val b)

/-- A primitive that leaves `res` alone in a call without `readout` (the spec leaves the
content of `res` after such a call open). -/
def FmaKeepsRes {Acc : Type} (F : FmaPrim Acc) : Prop :=
  ∀ (a b : Nat) (firstOp negate : Bool) (acc : Acc) (res : Nat),
    (F.pcsMac a b firstOp negate false acc res).2 = res

set_option maxRecDepth 100000

/-! ## The loop-nest engine and its event log -/

section Engine

variable {Acc : Type}

theorem callInit_agu {op : nstInternalOp Acc} (hop : OpFrame op) (m : NstState Acc) :
    (callInit op m).agu = m.agu := (hop m).1

theorem callExecute_agu {op : nstInternalOp Acc} (hop : OpFrame op) (m : NstState Acc) :
    (callExecute op m).agu = m.agu := (hop m).2.1

theorem callStore_agu {op : nstInternalOp Acc} (hop : OpFrame op) (m : NstState Acc) :
    (callStore op m).agu = m.agu := (hop m).2.2

theorem enter_trace (d : NstDesc) {op : nstInternalOp Acc} (hop : OpFrame op) (level : Nat)
    (m : NstState Acc) :
    (if d.initLevel = level then callInit op m else m).trace = m.trace ++ initEv d level m.agu
      ∧ (if d.initLevel = level then callInit op m else m).agu = m.agu := by
  by_cases h : d.initLevel = level
  · simp [h, initEv, callInit, (hop m).1]
  · simp [h, initEv]

theorem looperExit_spec (C : NstParams) (d : NstDesc) {op : nstInternalOp Acc} (hop : OpFrame op)
    (level : Nat) (isLast : Bool) (m : NstState Acc) :
    (looperExit C d op level isLast m).trace = m.trace ++ storeEv d level m.agu
      ∧ (looperExit C d op level isLast m).agu = exitAgu C d level isLast m.agu := by
  unfold looperExit exitAgu storeEv
  by_cases h : d.innerLevel = level <;>
    by_cases h2 : level < C.C_N_HW_LOOPS ∧ isLast = false <;>
    simp [h, h2, aguUpdate, callStore, (hop m).2.2]

theorem looperEnter_ok_or_fault (d : NstDesc) (op : nstInternalOp Acc) (level : Nat)
    (m : NstState Acc) :
    ((d.checkTcdmAddrs = true → aguInRange d m.agu = true)
        ∧ looperEnter d op level m
          = Except.ok (if d.initLevel = level then callInit op m else m))
      ∨ (d.checkTcdmAddrs = true ∧ aguInRange d m.agu = false
        ∧ looperEnter d op level m = Except.error (NstFault.aguRange m)) := by
  unfold looperEnter
  cases hc : d.checkTcdmAddrs <;> cases hr : aguInRange d m.agu <;> simp

theorem loopSem_succ (body : Bool → (Nat → Int) → List Event × (Nat → Int)) (bound n k : Nat)
    (a : Nat → Int) :
    loopSem body bound (n + 1) k a
      = ((body (k == bound) a).1 ++ (loopSem body bound n (k + 1) (body (k == bound) a).2).1,
        (loopSem body bound n (k + 1) (body (k == bound) a).2).2) := rfl

theorem looperSem_first_exec (C : NstParams) (d : NstDesc) (level : Nat) (isLast : Bool)
    (a : Nat → Int) :
    ∃ e ∈ (looperSem C d level isLast a).1, e.kind = EvKind.execute ∧ e.agu = a := by
  induction level generalizing isLast a with
  | zero => exact ⟨⟨EvKind.execute, a⟩, by simp [looperSem], rfl, rfl⟩
  | succ l ih =>
    obtain ⟨e, he, hk, ha⟩ := ih (0 == d.loopBound l) a
    refine ⟨e, ?_, hk, ha⟩
    simp only [looperSem, loopSem_succ, List.mem_append]
    exact Or.inl (Or.inr (Or.inl he))

theorem forLoop_spec (d : NstDesc)
    (body : Bool → NstState Acc → Except (NstFault Acc) (NstState Acc))
    (sem : Bool → (Nat → Int) → List Event × (Nat → Int))
    (H : ∀ b m, StepSpec d m (body b m) (sem b m.agu)) (bound : Nat) :
    ∀ (n k : Nat) (m : NstState Acc),
      StepSpec d m (forLoop body bound n k m) (loopSem sem bound n k m.agu) := by
  intro n
  induction n with
  | zero =>
    intro k m
    exact Or.inl ⟨m, rfl, by simp [loopSem], rfl, by simp [loopSem]⟩
  | succ n ih =>
    intro k m
    rcases H (k == bound) m with ⟨m1, hr, ht, ha, hin⟩ | ⟨hc, mf, pre, post, hr, hs, ht, hout, hex⟩
    · have hfl : forLoop body bound (n + 1) k m = forLoop body bound n (k + 1) m1 := by
        simp [forLoop, hr]
      rw [hfl, loopSem_succ, ← ha]
      rcases ih (k + 1) m1 with
        ⟨m2, hr2, ht2, ha2, hin2⟩ | ⟨hc, mf, pre, post, hr2, hs2, ht2, hout, hex⟩
      · refine Or.inl ⟨m2, hr2, ?_, ha2, ?_⟩
        · rw [ht2, ht, List.append_assoc]
        · intro hc e he hk
          rcases List.mem_append.1 he with h | h
          · exact hin hc e h hk
          · exact hin2 hc e h hk
      · refine Or.inr ⟨hc, mf, (sem (k == bound) m.agu).1 ++ pre, post, hr2, ?_, ?_, hout, hex⟩
        · show _ ++ _ = _
          rw [hs2, List.append_assoc]
        · rw [ht2, ht, List.append_assoc]
    · have hfl : forLoop body bound (n + 1) k m = Except.error (NstFault.aguRange mf) := by
        simp [forLoop, hr]
      rw [hfl, loopSem_succ]
      obtain ⟨e, he, hk, hea⟩ := hex
      refine Or.inr ⟨hc, mf, pre,
        post ++ (loopSem sem bound n (k + 1) (sem (k == bound) m.agu).2).1, rfl, ?_, ht, hout, e,
        ?_, hk, hea⟩
      · show _ ++ _ = _
        rw [hs, List.append_assoc]
      · exact List.mem_append_left _ he

theorem nstLooper_spec (C : NstParams) (d : NstDesc) {op : nstInternalOp Acc} (hop : OpFrame op) :
    ∀ (level : Nat), (∀ k, k < level → d.loopBound k < 4294967295) →
      ∀ (isLast : Bool) (m : NstState Acc),
        StepSpec d m (nstLooper C d op level isLast m) (looperSem C d level isLast m.agu) := by
  intro level
  induction level with
  | zero =>
    intro _ isLast m
    rcases looperEnter_ok_or_fault d op 0 m with ⟨hin, he⟩ | ⟨hc, hout, he⟩
    · have hE := enter_trace d hop 0 m
      have hX := looperExit_spec C d hop 0 isLast
        (callExecute op (if d.initLevel = 0 then callInit op m else m))
      have hrun : nstLooper C d op 0 isLast m = Except.ok (looperExit C d op 0 isLast
          (callExecute op (if d.initLevel = 0 then callInit op m else m))) := by
        simp only [nstLooper, he]
      refine Or.inl ⟨_, hrun, ?_, ?_, ?_⟩
      · rw [hX.1, callExecute_agu hop, hE.2]
        simp [callExecute, hE.1, hE.2, looperSem]
      · rw [hX.2, callExecute_agu hop, hE.2]
        simp [looperSem]
      · intro hc e he hk
        simp only [looperSem, initEv, storeEv, List.mem_append] at he
        rcases he with (he | he) | he
        · split at he <;> simp at he
          rw [he] at hk
          simp at hk
        · simp at he
          rw [he]
          exact hin hc
        · split at he <;> simp at he
          rw [he] at hk
          simp at hk
    · have hrun : nstLooper C d op 0 isLast m = Except.error (NstFault.aguRange m) := by
        simp only [nstLooper, he]
      exact Or.inr ⟨hc, m, [], (looperSem C d 0 isLast m.agu).1, hrun, by simp, by simp, hout,
        looperSem_first_exec C d 0 isLast m.agu⟩
  | succ l ih =>
    intro hb isLast m
    have hbl : ¬ (4294967295 ≤ d.loopBound l) := by
      have := hb l (Nat.lt_succ_self l)
      omega
    rcases looperEnter_ok_or_fault d op (l + 1) m with ⟨hin, he⟩ | ⟨hc, hout, he⟩
    · have hE := enter_trace d hop (l + 1) m
      have hL := forLoop_spec d (nstLooper C d op l) (looperSem C d l)
        (ih (fun k hk => hb k (Nat.lt_succ_of_lt hk))) (d.loopBound l) (d.loopBound l + 1) 0
        (if d.initLevel = l + 1 then callInit op m else m)
      rw [hE.2] at hL
      rcases hL with ⟨m2, hr, ht, ha, hin2⟩ | ⟨hc, mf, pre, post, hr, hs, ht, hout, hex⟩
      · have hX := looperExit_spec C d hop (l + 1) isLast m2
        have hrun : nstLooper C d op (l + 1) isLast m
            = Except.ok (looperExit C d op (l + 1) isLast m2) := by
          simp only [nstLooper, he, hbl, if_false, hr]
        refine Or.inl ⟨_, hrun, ?_, ?_, ?_⟩
        · rw [hX.1, ht, hE.1, ha]
          simp [looperSem]
        · rw [hX.2, ha]
          simp [looperSem]
        · intro hc e he hk
          simp only [looperSem, initEv, storeEv, List.mem_append] at he
          rcases he with (he | he) | he
          · split at he <;> simp at he
            rw [he] at hk
            simp at hk
          · exact hin2 hc e he hk
          · split at he <;> simp at he
            rw [he] at hk
            simp at hk
      · obtain ⟨e, hep, hk, hea⟩ := hex
        have hrun : nstLooper C d op (l + 1) isLast m = Except.error (NstFault.aguRange mf) := by
          simp only [nstLooper, he, hbl, if_false, hr]
        refine Or.inr ⟨hc, mf, initEv d (l + 1) m.agu ++ pre,
          post ++ storeEv d (l + 1)
            (loopSem (looperSem C d l) (d.loopBound l) (d.loopBound l + 1) 0 m.agu).2,
          hrun, ?_, ?_, hout, e, List.mem_append_left _ hep, hk, hea⟩
        · simp only [looperSem]
          rw [hs]
          simp [List.append_assoc]
        · rw [ht, hE.1, List.append_assoc]
    · have hrun : nstLooper C d op (l + 1) isLast m = Except.error (NstFault.aguRange m) := by
        simp only [nstLooper, he]
      exact Or.inr ⟨hc, m, [], (looperSem C d (l + 1) isLast m.agu).1, hrun, by simp, by simp,
        hout, looperSem_first_exec C d (l + 1) isLast m.agu⟩

end Engine

/-! ## Counting events -/

theorem countKind_append (K : EvKind) (s t : List Event) :
    countKind K (s ++ t) = countKind K s + countKind K t := by
  simp [countKind, List.countP_append]

theorem countKind_initEv (K : EvKind) (d : NstDesc) (level : Nat) (a : Nat → Int) :
    countKind K (initEv d level a)
      = if d.initLevel = level ∧ K = EvKind.init then 1 else 0 := by
  unfold initEv countKind
  by_cases h : d.initLevel = level <;> cases K <;> simp [h]

theorem countKind_storeEv (K : EvKind) (d : NstDesc) (level : Nat) (a : Nat → Int) :
    countKind K (storeEv d level a)
      = if d.innerLevel = level ∧ K = EvKind.store then 1 else 0 := by
  unfold storeEv countKind
  by_cases h : d.innerLevel = level <;> cases K <;> simp [h]

theorem loopSem_count (K : EvKind) (body : Bool → (Nat → Int) → List Event × (Nat → Int))
    (c bound : Nat) (H : ∀ b a, countKind K (body b a).1 = c) :
    ∀ (n k : Nat) (a : Nat → Int), countKind K (loopSem body bound n k a).1 = n * c := by
  intro n
  induction n with
  | zero => intro k a; simp [loopSem, countKind]
  | succ n ih =>
    intro k a
    rw [loopSem_succ]
    show countKind K (_ ++ _) = _
    rw [countKind_append, H, ih]
    ring

theorem loopProd_self (d : NstDesc) (l : Nat) : loopProd d l l = 1 := by
  simp [loopProd]

theorem loopProd_succ (d : NstDesc) {lo hi : Nat} (h : lo ≤ hi) :
    loopProd d lo (hi + 1) = loopProd d lo hi * (d.loopBound hi + 1) := by
  unfold loopProd
  exact Finset.prod_Ico_succ_top h _

/-- The number of events of a kind fired at a hook level `h` (`initLevel` for init,
`innerLevel` for store) by a call at `level`. -/
theorem looperSem_count_hook (C : NstParams) (d : NstDesc) (K : EvKind) (h : Nat)
    (hK : K ≠ EvKind.execute)
    (hinit : K = EvKind.init → d.initLevel = h) (hstore : K = EvKind.store → d.innerLevel = h) :
    ∀ (level : Nat) (isLast : Bool) (a : Nat → Int),
      countKind K (looperSem C d level isLast a).1 = if h ≤ level then loopProd d h level else 0 := by
  intro level
  induction level with
  | zero =>
    intro isLast a
    simp only [looperSem, countKind_append, countKind_initEv, countKind_storeEv]
    cases K
    · have := hinit rfl
      by_cases h0 : h = 0
      · subst h0; simp [this, countKind, loopProd_self]
      · have h1 : ¬ d.initLevel = 0 := by omega
        simp [h1, h0, countKind]
    · exact absurd rfl hK
    · have := hstore rfl
      by_cases h0 : h = 0
      · subst h0; simp [this, countKind, loopProd_self]
      · have h1 : ¬ d.innerLevel = 0 := by omega
        simp [h1, h0, countKind]
  | succ l ih =>
    intro isLast a
    simp only [looperSem, countKind_append, countKind_initEv, countKind_storeEv]
    rw [loopSem_count K (looperSem C d l) (if h ≤ l then loopProd d h l else 0) _
      (fun b a => ih b a)]
    have key : (d.loopBound l + 1) * (if h ≤ l then loopProd d h l else 0)
        + (if h = l + 1 then 1 else 0) = if h ≤ l + 1 then loopProd d h (l + 1) else 0 := by
      by_cases h1 : h ≤ l
      · have h2 : ¬ h = l + 1 := by omega
        have h3 : h ≤ l + 1 := by omega
        simp only [h1, h2, h3, if_true, if_false]
        rw [loopProd_succ d h1]
        ring
      · by_cases h2 : h = l + 1
        · subst h2
          simp [loopProd_self]
        · have h3 : ¬ h ≤ l + 1 := by omega
          simp [h1, h2, h3]
    cases K
    · have e := hinit rfl
      rw [← key]
      simp [e]
      ring
    · exact absurd rfl hK
    · have e := hstore rfl
      rw [← key]
      simp [e]

theorem looperSem_count_execute (C : NstParams) (d : NstDesc) :
    ∀ (level : Nat) (isLast : Bool) (a : Nat → Int),
      countKind EvKind.execute (looperSem C d level isLast a).1 = loopProd d 0 level := by
  intro level
  induction level with
  | zero =>
    intro isLast a
    simp only [looperSem, countKind_append, countKind_initEv, countKind_storeEv]
    simp [countKind, loopProd_self]
  | succ l ih =>
    intro isLast a
    simp only [looperSem, countKind_append, countKind_initEv, countKind_storeEv]
    rw [loopSem_count EvKind.execute (looperSem C d l) (loopProd d 0 l) _ (fun b a => ih b a),
      loopProd_succ d (Nat.zero_le l)]
    simp
    ring

/-! ## The kernels leave the cursors alone; validation -/

section Kernels

variable {Acc : Type}

theorem fmaPreload_agu (F : FmaPrim Acc) (sel : Nat) (negate : Bool) (m : NstState Acc) :
    (fmaPreload F sel negate m).agu = m.agu := rfl

theorem fmaStore_agu (F : FmaPrim Acc) (d : NstDesc) (m : NstState Acc) :
    (fmaStore F d m).agu = m.agu := rfl

theorem nstMacOp_frame (F : FmaPrim Acc) (d : NstDesc) : OpFrame (nstMacOp F d) := by
  intro m
  refine ⟨?_, rfl, rfl⟩
  show (if 3 ≤ d.initSel then _ else _ : NstState Acc).agu = m.agu
  split <;> rfl

theorem nstVAddSubOp_frame (F : FmaPrim Acc) (d : NstDesc) : OpFrame (nstVAddSubOp F d) := by
  intro m
  refine ⟨?_, rfl, rfl⟩
  show (if 3 ≤ d.initSel then _ else _ : NstState Acc).agu = m.agu
  split <;> rfl

theorem nstVMultOp_frame (F : FmaPrim Acc) (d : NstDesc) : OpFrame (nstVMultOp F d) :=
  fun _ => ⟨rfl, rfl, rfl⟩

theorem nstOuterPOp_frame (F : FmaPrim Acc) (d : NstDesc) : OpFrame (nstOuterPOp F d) :=
  fun _ => ⟨rfl, rfl, rfl⟩

theorem nstMaxMinOp_frame (d : NstDesc) : OpFrame (nstMaxMinOp d : nstInternalOp Acc) := by
  intro m
  refine ⟨rfl, ?_, rfl⟩
  simp only [nstMaxMinOp]
  split <;> rfl

theorem nstThTstOp_frame (C : NstParams) (d : NstDesc) :
    OpFrame (nstThTstOp C d : nstInternalOp Acc) :=
  fun _ => ⟨rfl, rfl, rfl⟩

theorem nstMaskOp_frame (C : NstParams) (d : NstDesc) :
    OpFrame (nstMaskOp C d : nstInternalOp Acc) :=
  fun _ => ⟨rfl, rfl, rfl⟩

theorem nstMaskMacOp_frame (C : NstParams) (F : FmaPrim Acc) (d : NstDesc) :
    OpFrame (nstMaskMacOp C F d) := by
  intro m
  refine ⟨rfl, rfl, ?_⟩
  show (if m.tst = true then _ else _ : NstState Acc).agu = m.agu
  split <;> rfl

theorem nstCopyOp_frame (d : NstDesc) : OpFrame (nstCopyOp d : nstInternalOp Acc) := by
  intro m
  refine ⟨?_, ?_, rfl⟩
  · show (if d.auxFunc &&& 1 ≠ 0 then _ else _ : NstState Acc).agu = m.agu
    split <;> rfl
  · show (if d.auxFunc &&& 1 ≠ 0 then _ else _ : NstState Acc).agu = m.agu
    split <;> rfl

/-- The `switch` finds a kernel exactly for the nine opcode constants. -/
theorem selectOp_isSome_iff (C : NstParams) (F : FmaPrim Acc) (d : NstDesc) :
    (selectOp C F d).isSome = true ↔ d.opCode ∈ C.opcodes := by
  unfold selectOp NstParams.opcodes
  simp only [List.mem_cons, List.mem_singleton, List.not_mem_nil, or_false]
  constructor
  · intro h
    repeat' split at h
    all_goals first | (simp at h; done) | tauto
  · intro h
    repeat' split
    all_goals first | rfl | (exfalso; tauto)

/-- Every kernel the `switch` can select leaves the cursors alone. -/
theorem selectOp_frame (C : NstParams) (F : FmaPrim Acc) (d : NstDesc) (op : nstInternalOp Acc)
    (h : selectOp C F d = some op) : OpFrame op := by
  unfold selectOp at h
  repeat' split at h
  all_goals first | (simp at h; done) | skip
  all_goals (simp only [Option.some.injEq] at h; subst h)
  · exact nstMacOp_frame F d
  · exact nstVAddSubOp_frame F d
  · exact nstVMultOp_frame F d
  · exact nstOuterPOp_frame F d
  · exact nstMaxMinOp_frame d
  · exact nstThTstOp_frame C d
  · exact nstMaskOp_frame C d
  · exact nstMaskMacOp_frame C F d
  · exact nstCopyOp_frame d

theorem sanityChecks_iff (C : NstParams) (d : NstDesc) :
    sanityChecks C d = true ↔
      d.innerLevel ≤ d.initLevel ∧ d.innerLevel ≤ d.outerLevel ∧ d.initLevel ≤ d.outerLevel
        ∧ d.outerLevel ≤ C.C_N_HW_LOOPS ∧ d.opCode < C.C_N_NST_OPCODES
        ∧ ∀ k, k < C.C_N_HW_LOOPS → d.loopBound k < 2 ^ C.C_HW_LOOP_WIDTH := by
  simp [sanityChecks, Bool.and_eq_true, List.all_eq_true, and_assoc]

theorem validDesc_iff (C : NstParams) (d : NstDesc) :
    validDesc C d = true ↔ sanityChecks C d = true ∧ d.opCode ∈ C.opcodes := by
  simp [validDesc, Bool.and_eq_true]

theorem validDesc_bound (C : NstParams) (d : NstDesc) (hW : C.C_HW_LOOP_WIDTH < 32)
    (hv : validDesc C d = true) : ∀ k, k < d.outerLevel → d.loopBound k < 4294967295 := by
  intro k hk
  obtain ⟨hs, _⟩ := (validDesc_iff C d).1 hv
  obtain ⟨_, _, _, h4, _, h6⟩ := (sanityChecks_iff C d).1 hs
  have h := h6 k (by omega)
  have hp : 2 ^ C.C_HW_LOOP_WIDTH ≤ 2 ^ 31 := Nat.pow_le_pow_right (by norm_num) (by omega)
  have : (2 : Nat) ^ 31 = 2147483648 := by norm_num
  omega

/-- A valid descriptor is run: `nstFuncModel` is the call `nstLooper(outerLevel, *op, true)` on
the state with the cursors loaded from `aguOff`. -/
theorem nstFuncModel_valid (C : NstParams) (F : FmaPrim Acc) (d : NstDesc) (m : NstState Acc)
    (hv : validDesc C d = true) :
    ∃ op, selectOp C F d = some op ∧ OpFrame op
      ∧ nstFuncModel C F d m
        = nstLooper C d op d.outerLevel true { m with agu := d.aguOff } := by
  obtain ⟨hs, ho⟩ := (validDesc_iff C d).1 hv
  have h := (selectOp_isSome_iff C F d).2 ho
  obtain ⟨op, hop⟩ := Option.isSome_iff_exists.1 h
  refine ⟨op, hop, selectOp_frame C F d op hop, ?_⟩
  simp [nstFuncModel, hs, hop]

/-- The run of a valid descriptor against its events and cursors without address checks. -/
theorem nstFuncModel_spec (C : NstParams) (F : FmaPrim Acc) (d : NstDesc) (m : NstState Acc)
    (hW : C.C_HW_LOOP_WIDTH < 32) (hv : validDesc C d = true) :
    StepSpec d m (nstFuncModel C F d m) (looperSem C d d.outerLevel true d.aguOff) := by
  obtain ⟨op, _, hfr, hrun⟩ := nstFuncModel_valid C F d m hv
  rw [hrun]
  exact nstLooper_spec C d hfr d.outerLevel (validDesc_bound C d hW hv) true
    { m with agu := d.aguOff }

/-- A run of a valid descriptor that no address check aborts completes, with the events and
cursors of `looperSem`. -/
theorem nstFuncModel_complete (C : NstParams) (F : FmaPrim Acc) (d : NstDesc) (m : NstState Acc)
    (hW : C.C_HW_LOOP_WIDTH < 32) (hv : validDesc C d = true)
    (hna : isAddrAbort (nstFuncModel C F d m) = false) :
    ∃ m1, nstFuncModel C F d m = Except.ok m1
      ∧ m1.trace = m.trace ++ (looperSem C d d.outerLevel true d.aguOff).1
      ∧ m1.agu = (looperSem C d d.outerLevel true d.aguOff).2 := by
  rcases nstFuncModel_spec C F d m hW hv with ⟨m1, hr, ht, ha, _⟩ | ⟨_, mf, _, _, hr, _⟩
  · exact ⟨m1, hr, ht, ha⟩
  · rw [hr] at hna
    simp [isAddrAbort] at hna

end Kernels

/-! ## C1: how often the kernel is called -/

/-- C1 (as stated, refuted): the descriptor of S1 with the address check on and all cursors
outside `[tcdmLow, tcdmHigh]` passes validation, yet its run is aborted by the first address
assertion and calls `execute` zero times, not `prod_{k<1}(loopBound[k]+1) = 4` times. -/
theorem C1_counterexample :
    validDesc stdParams descS1Checked = true
      ∧ isAddrAbort (nstFuncModel stdParams exactFma descS1Checked (stateOf memS1 0)) = true
      ∧ countKind EvKind.execute
          (runTrace (nstFuncModel stdParams exactFma descS1Checked (stateOf memS1 0))) = 0
      ∧ loopProd descS1Checked 0 descS1Checked.outerLevel = 4 := by
  refine ⟨by decide, by decide, by decide, ?_⟩
  simp [loopProd, descS1Checked, descS1, Finset.prod_Ico_succ_top]

/-- C1 (amended): for every descriptor that passes validation and whose run is not aborted by
an address assertion (the loop counter being able to reach every bound, `C_HW_LOOP_WIDTH < 32`),
the run completes and calls `execute` exactly `prod_{k<outerLevel}(loopBound[k]+1)` times,
`init` exactly `prod_{initLevel<=k<outerLevel}(loopBound[k]+1)` times and `store` exactly
`prod_{innerLevel<=k<outerLevel}(loopBound[k]+1)` times. -/
theorem C1_call_counts {Acc : Type} (C : NstParams) (F : FmaPrim Acc) (d : NstDesc)
    (m : NstState Acc) (hW : C.C_HW_LOOP_WIDTH < 32) (hv : validDesc C d = true)
    (hna : isAddrAbort (nstFuncModel C F d m) = false) :
    ∃ m1 evs, nstFuncModel C F d m = Except.ok m1 ∧ m1.trace = m.trace ++ evs
      ∧ countKind EvKind.execute evs = loopProd d 0 d.outerLevel
      ∧ countKind EvKind.init evs = loopProd d d.initLevel d.outerLevel
      ∧ countKind EvKind.store evs = loopProd d d.innerLevel d.outerLevel := by
  obtain ⟨m1, hr, ht, _⟩ := nstFuncModel_complete C F d m hW hv hna
  obtain ⟨hs, _⟩ := (validDesc_iff C d).1 hv
  obtain ⟨_, h2, h3, _⟩ := (sanityChecks_iff C d).1 hs
  refine ⟨m1, _, hr, ht, looperSem_count_execute C d _ _ _, ?_, ?_⟩
  · rw [looperSem_count_hook C d EvKind.init d.initLevel (by decide) (fun _ => rfl)
      (fun h => by cases h)]
    simp [h3]
  · rw [looperSem_count_hook C d EvKind.store d.innerLevel (by decide) (fun h => by cases h)
      (fun _ => rfl)]
    simp [h2]

/-- C1 (amended), at S1: the dot product run calls `execute` 4 times, `init` once and `store`
4 times. -/
theorem C1_call_counts_witness :
    stdParams.C_HW_LOOP_WIDTH < 32 ∧ validDesc stdParams descS1 = true
      ∧ isAddrAbort (nstFuncModel stdParams exactFma descS1 (stateOf memS1 0)) = false
      ∧ ∃ m1 evs, nstFuncModel stdParams exactFma descS1 (stateOf memS1 0) = Except.ok m1
        ∧ m1.trace = (stateOf memS1 0).trace ++ evs
        ∧ countKind EvKind.execute evs = loopProd descS1 0 descS1.outerLevel
        ∧ countKind EvKind.init evs = loopProd descS1 descS1.initLevel descS1.outerLevel
        ∧ countKind EvKind.store evs = loopProd descS1 descS1.innerLevel descS1.outerLevel :=
  ⟨by decide, by decide, by decide,
    C1_call_counts stdParams exactFma descS1 (stateOf memS1 0) (by decide) (by decide)
      (by decide)⟩

/-! ## C2: execute events per store window -/

theorem execWindows_initEv (d : NstDesc) (level : Nat) (a : Nat → Int) (rest : List Event)
    (n : Nat) : execWindows (initEv d level a ++ rest) n = execWindows rest n := by
  unfold initEv
  split <;> simp [execWindows]

theorem execWindows_prefix (pre post : List Event) :
    ∀ n, ∃ n1, execWindows (pre ++ post) n = execWindows pre n ++ execWindows post n1 := by
  induction pre with
  | nil => intro n; exact ⟨n, by simp [execWindows]⟩
  | cons e t ih =>
    intro n
    cases hk : e.kind
    · obtain ⟨n1, h⟩ := ih n
      exact ⟨n1, by simp [execWindows, hk, h]⟩
    · obtain ⟨n1, h⟩ := ih (n + 1)
      exact ⟨n1, by simp [execWindows, hk, h]⟩
    · obtain ⟨n1, h⟩ := ih 0
      exact ⟨n1, by simp [execWindows, hk, h]⟩

theorem loopProd_pos (d : NstDesc) (lo hi : Nat) : 0 < loopProd d lo hi := by
  unfold loopProd
  exact Finset.prod_pos (fun _ _ => Nat.succ_pos _)

theorem replicate_glue {α : Type} (w : α) (p q : Nat) (hp : 0 < p) (t : List α) :
    List.replicate (p - 1) w ++ (w :: (List.replicate q w ++ t))
      = List.replicate (p + (q + 1) - 1) w ++ t := by
  have h : p + (q + 1) - 1 = (p - 1) + (1 + q) := by omega
  rw [h, List.replicate_add, List.replicate_add]
  simp

/-- Iterations of a body without store events add up their execute events. -/
theorem loopSem_windows_low (body : Bool → (Nat → Int) → List Event × (Nat → Int))
    (x bound : Nat)
    (H : ∀ b a rest n, execWindows ((body b a).1 ++ rest) n = execWindows rest (n + x)) :
    ∀ (n k : Nat) (a : Nat → Int) (rest : List Event) (n0 : Nat),
      execWindows ((loopSem body bound n k a).1 ++ rest) n0 = execWindows rest (n0 + n * x) := by
  intro n
  induction n with
  | zero => intro k a rest n0; simp [loopSem]
  | succ n ih =>
    intro k a rest n0
    rw [loopSem_succ]
    show execWindows ((_ ++ _) ++ rest) n0 = _
    rw [List.append_assoc, H, ih]
    congr 1
    ring

/-- Iterations of a body that closes `p` windows of `w` executes each close `n * p` of them. -/
theorem loopSem_windows_high (body : Bool → (Nat → Int) → List Event × (Nat → Int))
    (w p bound : Nat) (hp : 0 < p)
    (H : ∀ b a rest n, execWindows ((body b a).1 ++ rest) n
      = (n + w) :: (List.replicate (p - 1) w ++ execWindows rest 0)) :
    ∀ (n k : Nat) (a : Nat → Int) (rest : List Event) (n0 : Nat),
      execWindows ((loopSem body bound (n + 1) k a).1 ++ rest) n0
        = (n0 + w) :: (List.replicate ((n + 1) * p - 1) w ++ execWindows rest 0) := by
  intro n
  induction n with
  | zero =>
    intro k a rest n0
    rw [loopSem_succ]
    show execWindows ((_ ++ _) ++ rest) n0 = _
    rw [List.append_assoc, H]
    simp [loopSem]
  | succ n ih =>
    intro k a rest n0
    rw [loopSem_succ]
    show execWindows ((_ ++ _) ++ rest) n0 = _
    rw [List.append_assoc, H, ih, Nat.zero_add, replicate_glue w p _ hp]
    congr 2
    have : 0 < (n + 1) * p := Nat.mul_pos (Nat.succ_pos n) hp
    rw [Nat.succ_mul (n + 1) p]
    congr 1
    omega

/-- The execute windows of one call of the looper: below `innerLevel` it only adds executes to
the open window; from `innerLevel` on it closes `prod_{innerLevel<=k<level}` windows, each of
`prod_{k<innerLevel}` executes. -/
theorem looperSem_windows (C : NstParams) (d : NstDesc) :
    ∀ (level : Nat) (isLast : Bool) (a : Nat → Int) (rest : List Event) (n : Nat),
      execWindows ((looperSem C d level isLast a).1 ++ rest) n
        = if level < d.innerLevel then execWindows rest (n + loopProd d 0 level)
          else (n + loopProd d 0 d.innerLevel)
            :: (List.replicate (loopProd d d.innerLevel level - 1) (loopProd d 0 d.innerLevel)
              ++ execWindows rest 0) := by
  intro level
  induction level with
  | zero =>
    intro isLast a rest n
    simp only [looperSem, List.append_assoc, execWindows_initEv]
    by_cases h : d.innerLevel = 0
    · simp [storeEv, h, execWindows, loopProd_self]
    · have h1 : 0 < d.innerLevel := Nat.pos_of_ne_zero h
      simp [storeEv, h, h1, execWindows, loopProd_self]
  | succ l ih =>
    intro isLast a rest n
    simp only [looperSem, List.append_assoc, execWindows_initEv]
    by_cases h : l < d.innerLevel
    · have hlow := loopSem_windows_low (looperSem C d l) (loopProd d 0 l) (d.loopBound l)
        (fun b a rest n => by rw [ih b a rest n, if_pos h])
      rw [hlow]
      have hmul : (d.loopBound l + 1) * loopProd d 0 l = loopProd d 0 (l + 1) := by
        rw [loopProd_succ d (Nat.zero_le l)]; ring
      by_cases h2 : d.innerLevel = l + 1
      · have h3 : ¬ (l + 1 < d.innerLevel) := by omega
        simp only [storeEv, h2, if_true, h3, if_false, List.singleton_append, execWindows]
        rw [hmul]
        simp [loopProd_self]
      · have h3 : l + 1 < d.innerLevel := by omega
        simp only [storeEv, h2, if_false, List.nil_append, h3, if_true]
        rw [hmul]
    · have hp := loopProd_pos d d.innerLevel l
      have hhigh := loopSem_windows_high (looperSem C d l) (loopProd d 0 d.innerLevel)
        (loopProd d d.innerLevel l) (d.loopBound l) hp
        (fun b a rest n => by rw [ih b a rest n, if_neg h])
      rw [hhigh]
      have h2 : ¬ d.innerLevel = l + 1 := by omega
      have h3 : ¬ (l + 1 < d.innerLevel) := by omega
      simp only [storeEv, h2, if_false, List.nil_append, h3]
      rw [loopProd_succ d (Nat.le_of_not_lt h), Nat.mul_comm]

/-- C2: for every valid descriptor (with `C_HW_LOOP_WIDTH < 32`) and every run, completed or
aborted by an address assertion, exactly `prod_{k<innerLevel}(loopBound[k]+1)` execute events
occur before the first store event and between every two consecutive store events; a run that
is not aborted completes and has exactly `prod_{innerLevel<=k<outerLevel}(loopBound[k]+1)` such
windows. -/
theorem C2_executes_per_store {Acc : Type} (C : NstParams) (F : FmaPrim Acc) (d : NstDesc)
    (m : NstState Acc) (hW : C.C_HW_LOOP_WIDTH < 32) (hv : validDesc C d = true)
    (ht : m.trace = []) :
    (∀ n ∈ execWindows (runTrace (nstFuncModel C F d m)) 0, n = loopProd d 0 d.innerLevel)
      ∧ (isAddrAbort (nstFuncModel C F d m) = false →
          ∃ m1, nstFuncModel C F d m = Except.ok m1
            ∧ execWindows m1.trace 0
              = List.replicate (loopProd d d.innerLevel d.outerLevel)
                  (loopProd d 0 d.innerLevel)) := by
  obtain ⟨hs, _⟩ := (validDesc_iff C d).1 hv
  obtain ⟨_, h2, _⟩ := (sanityChecks_iff C d).1 hs
  have hfull : execWindows (looperSem C d d.outerLevel true d.aguOff).1 0
      = List.replicate (loopProd d d.innerLevel d.outerLevel) (loopProd d 0 d.innerLevel) := by
    have h := looperSem_windows C d d.outerLevel true d.aguOff [] 0
    rw [List.append_nil, if_neg (by omega)] at h
    rw [h]
    have hp := loopProd_pos d d.innerLevel d.outerLevel
    obtain ⟨q, hq⟩ : ∃ q, loopProd d d.innerLevel d.outerLevel = q + 1 :=
      ⟨loopProd d d.innerLevel d.outerLevel - 1, by omega⟩
    rw [hq]
    simp [execWindows, List.replicate_succ]
  constructor
  · intro n hn
    rcases nstFuncModel_spec C F d m hW hv with
      ⟨m1, hr, htr, _, _⟩ | ⟨_, mf, pre, post, hr, hsplit, htr, _, _⟩
    · rw [hr] at hn
      simp only [runTrace, htr, ht, List.nil_append, hfull] at hn
      exact (List.mem_replicate.1 hn).2
    · rw [hr] at hn
      simp only [runTrace, NstFault.state, htr, ht, List.nil_append] at hn
      obtain ⟨n1, hpre⟩ := execWindows_prefix pre post 0
      rw [← hsplit, hfull] at hpre
      have : n ∈ List.replicate (loopProd d d.innerLevel d.outerLevel)
          (loopProd d 0 d.innerLevel) := by
        rw [hpre]
        exact List.mem_append_left _ hn
      exact (List.mem_replicate.1 this).2
  · intro hna
    obtain ⟨m1, hr, htr, _⟩ := nstFuncModel_complete C F d m hW hv hna
    exact ⟨m1, hr, by rw [htr, ht, List.nil_append, hfull]⟩

/-- C2 at S1: every store of the dot product run is preceded by exactly one execute, and the
run has four such windows. -/
theorem C2_executes_per_store_witness :
    stdParams.C_HW_LOOP_WIDTH < 32 ∧ validDesc stdParams descS1 = true
      ∧ (stateOf memS1 0).trace = []
      ∧ (∀ n ∈ execWindows (runTrace (nstFuncModel stdParams exactFma descS1 (stateOf memS1 0))) 0,
          n = loopProd descS1 0 descS1.innerLevel)
      ∧ (isAddrAbort (nstFuncModel stdParams exactFma descS1 (stateOf memS1 0)) = false →
          ∃ m1, nstFuncModel stdParams exactFma descS1 (stateOf memS1 0) = Except.ok m1
            ∧ execWindows m1.trace 0
              = List.replicate (loopProd descS1 descS1.innerLevel descS1.outerLevel)
                  (loopProd descS1 0 descS1.innerLevel)) :=
  ⟨by decide, by decide, rfl,
    C2_executes_per_store stdParams exactFma descS1 (stateOf memS1 0) (by decide) (by decide) rfl⟩

/-! ## C3: store events per init window -/

theorem hookCount_succ (d : NstDesc) (h l : Nat) :
    hookCount d h (l + 1) = (d.loopBound l + 1) * hookCount d h l + (if h = l + 1 then 1 else 0) := by
  unfold hookCount
  by_cases h1 : h ≤ l
  · have h2 : ¬ h = l + 1 := by omega
    have h3 : h ≤ l + 1 := by omega
    simp only [h1, h2, h3, if_true, if_false]
    rw [loopProd_succ d h1]
    ring
  · by_cases h2 : h = l + 1
    · subst h2
      simp [loopProd_self]
    · have h3 : ¬ h ≤ l + 1 := by omega
      simp [h1, h2, h3]

theorem storeWindows_init_cons (a : Nat → Int) (t : List Event) (cur : Option Nat) :
    storeWindows (⟨EvKind.init, a⟩ :: t) cur = cur.toList ++ storeWindows t (some 0) := by
  cases cur <;> simp [storeWindows]

theorem storeWindows_execute_cons (a : Nat → Int) (t : List Event) (cur : Option Nat) :
    storeWindows (⟨EvKind.execute, a⟩ :: t) cur = storeWindows t cur := by
  cases cur <;> simp [storeWindows]

theorem storeWindows_storeEv (d : NstDesc) (level : Nat) (a : Nat → Int) (rest : List Event)
    (cur : Option Nat) :
    storeWindows (storeEv d level a ++ rest) cur
      = storeWindows rest (cur.map (fun n => n + (if d.innerLevel = level then 1 else 0))) := by
  unfold storeEv
  by_cases h : d.innerLevel = level
  · cases cur <;> simp [h, storeWindows]
  · cases cur <;> simp [h]

theorem option_map_add_add (cur : Option Nat) (x y : Nat) :
    (cur.map (fun n => n + x)).map (fun n => n + y) = cur.map (fun n => n + (x + y)) := by
  cases cur <;> simp [Nat.add_assoc]

/-- Iterations of a body without init events add up their store events. -/
theorem loopSem_storeWindows_low (body : Bool → (Nat → Int) → List Event × (Nat → Int))
    (x bound : Nat)
    (H : ∀ b a rest cur, storeWindows ((body b a).1 ++ rest) cur
      = storeWindows rest (cur.map (fun n => n + x))) :
    ∀ (n k : Nat) (a : Nat → Int) (rest : List Event) (cur : Option Nat),
      storeWindows ((loopSem body bound n k a).1 ++ rest) cur
        = storeWindows rest (cur.map (fun i => i + n * x)) := by
  intro n
  induction n with
  | zero => intro k a rest cur; cases cur <;> simp [loopSem]
  | succ n ih =>
    intro k a rest cur
    rw [loopSem_succ]
    show storeWindows ((_ ++ _) ++ rest) cur = _
    rw [List.append_assoc, H, ih, option_map_add_add]
    congr 2
    funext i
    ring

/-- Iterations of a body that opens `q` init windows of `w` stores each open `n * q`. -/
theorem loopSem_storeWindows_high (body : Bool → (Nat → Int) → List Event × (Nat → Int))
    (w q bound : Nat) (hq : 0 < q)
    (H : ∀ b a rest cur, storeWindows ((body b a).1 ++ rest) cur
      = cur.toList ++ (List.replicate (q - 1) w ++ storeWindows rest (some w))) :
    ∀ (n k : Nat) (a : Nat → Int) (rest : List Event) (cur : Option Nat),
      storeWindows ((loopSem body bound (n + 1) k a).1 ++ rest) cur
        = cur.toList ++ (List.replicate ((n + 1) * q - 1) w ++ storeWindows rest (some w)) := by
  intro n
  induction n with
  | zero =>
    intro k a rest cur
    rw [loopSem_succ]
    show storeWindows ((_ ++ _) ++ rest) cur = _
    rw [List.append_assoc, H]
    simp [loopSem]
  | succ n ih =>
    intro k a rest cur
    rw [loopSem_succ]
    show storeWindows ((_ ++ _) ++ rest) cur = _
    rw [List.append_assoc, H, ih]
    have : 0 < (n + 1) * q := Nat.mul_pos (Nat.succ_pos n) hq
    show _ ++ (List.replicate (q - 1) w ++ (w :: (List.replicate _ w ++ _))) = _
    rw [replicate_glue w q _ hq, Nat.succ_mul (n + 1) q]
    congr 3
    omega

/-- The store windows of one call of the looper: below `initLevel` it only adds its stores to
the open window; from `initLevel` on it opens `prod_{initLevel<=k<level}` windows, each of
`prod_{innerLevel<=k<initLevel}` stores. -/
theorem looperSem_storeWindows (C : NstParams) (d : NstDesc) (hle : d.innerLevel ≤ d.initLevel) :
    ∀ (level : Nat) (isLast : Bool) (a : Nat → Int) (rest : List Event) (cur : Option Nat),
      storeWindows ((looperSem C d level isLast a).1 ++ rest) cur
        = if level < d.initLevel then
            storeWindows rest (cur.map (fun n => n + hookCount d d.innerLevel level))
          else cur.toList
            ++ (List.replicate (loopProd d d.initLevel level - 1)
                (loopProd d d.innerLevel d.initLevel)
              ++ storeWindows rest (some (loopProd d d.innerLevel d.initLevel))) := by
  intro level
  induction level with
  | zero =>
    intro isLast a rest cur
    simp only [looperSem, List.append_assoc]
    by_cases h : d.initLevel = 0
    · have hi : d.innerLevel = 0 := by omega
      simp [initEv, storeEv, h, hi, storeWindows_init_cons, storeWindows_execute_cons,
        storeWindows, loopProd_self]
    · have h1 : 0 < d.initLevel := Nat.pos_of_ne_zero h
      simp only [initEv, h, if_false, List.nil_append, List.singleton_append,
        storeWindows_execute_cons, storeWindows_storeEv, h1, if_true]
      congr 2
      funext n
      by_cases hi : d.innerLevel = 0 <;> simp [hookCount, hi, loopProd_self]
  | succ l ih =>
    intro isLast a rest cur
    simp only [looperSem, List.append_assoc]
    by_cases h : l < d.initLevel
    · have hlow := loopSem_storeWindows_low (looperSem C d l) (hookCount d d.innerLevel l)
        (d.loopBound l) (fun b a rest cur => by rw [ih b a rest cur, if_pos h])
      by_cases h2 : d.initLevel = l + 1
      · have h3 : ¬ (l + 1 < d.initLevel) := by omega
        simp only [initEv, h2, if_true, List.singleton_append, storeWindows_init_cons, hlow,
          storeWindows_storeEv, option_map_add_add, Option.map_some', h3, if_false]
        have hle1 : d.innerLevel ≤ l + 1 := h2 ▸ hle
        have hc := hookCount_succ d d.innerLevel l
        have e : hookCount d d.innerLevel (l + 1) = loopProd d d.innerLevel (l + 1) := by
          simp [hookCount, hle1]
        rw [loopProd_self, ← e, hc]
        simp
      · have h3 : l + 1 < d.initLevel := by omega
        simp only [initEv, h2, if_false, List.nil_append, hlow, storeWindows_storeEv,
          option_map_add_add, h3, if_true]
        rw [hookCount_succ d d.innerLevel l]
    · have hq := loopProd_pos d d.initLevel l
      have hhigh := loopSem_storeWindows_high (looperSem C d l)
        (loopProd d d.innerLevel d.initLevel) (loopProd d d.initLevel l) (d.loopBound l) hq
        (fun b a rest cur => by rw [ih b a rest cur, if_neg h])
      have h2 : ¬ d.initLevel = l + 1 := by omega
      have h3 : ¬ (l + 1 < d.initLevel) := by omega
      have h4 : ¬ d.innerLevel = l + 1 := by omega
      simp only [initEv, h2, if_false, List.nil_append, hhigh, storeEv, h4, h3]
      rw [loopProd_succ d (Nat.le_of_not_lt h), Nat.mul_comm]

/-- C3 (as stated, refuted): in the dot product run of S1 (`innerLevel = 0`, `initLevel = 1`,
`loopBound[0] = 3`) the single init event is followed by 4 store events, not by
`prod_{k<innerLevel}(loopBound[k]+1) = 1`. -/
theorem C3_counterexample :
    validDesc stdParams descS1 = true
      ∧ storeWindows (runTrace (nstFuncModel stdParams exactFma descS1 (stateOf memS1 0))) none
        = [4]
      ∧ loopProd descS1 0 descS1.innerLevel = 1 := by
  refine ⟨by decide, by decide, ?_⟩
  simp [loopProd, descS1]

/-- C3 (amended): for every valid descriptor (with `C_HW_LOOP_WIDTH < 32`) whose run is not
aborted by an address assertion, the run completes and each of its
`prod_{initLevel<=k<outerLevel}(loopBound[k]+1)` init events is followed, before the next init
event or the end of the run, by exactly `prod_{innerLevel<=k<initLevel}(loopBound[k]+1)` store
events. -/
theorem C3_stores_per_init {Acc : Type} (C : NstParams) (F : FmaPrim Acc) (d : NstDesc)
    (m : NstState Acc) (hW : C.C_HW_LOOP_WIDTH < 32) (hv : validDesc C d = true)
    (ht : m.trace = []) (hna : isAddrAbort (nstFuncModel C F d m) = false) :
    ∃ m1, nstFuncModel C F d m = Except.ok m1
      ∧ storeWindows m1.trace none
        = List.replicate (loopProd d d.initLevel d.outerLevel)
            (loopProd d d.innerLevel d.initLevel) := by
  obtain ⟨hs, _⟩ := (validDesc_iff C d).1 hv
  obtain ⟨h1, _, h3, _⟩ := (sanityChecks_iff C d).1 hs
  obtain ⟨m1, hr, htr, _⟩ := nstFuncModel_complete C F d m hW hv hna
  refine ⟨m1, hr, ?_⟩
  have h := looperSem_storeWindows C d h1 d.outerLevel true d.aguOff [] none
  rw [List.append_nil, if_neg (by omega)] at h
  rw [htr, ht, List.nil_append, h]
  have hp := loopProd_pos d d.initLevel d.outerLevel
  obtain ⟨q, hq⟩ : ∃ q, loopProd d d.initLevel d.outerLevel = q + 1 :=
    ⟨loopProd d d.initLevel d.outerLevel - 1, by omega⟩
  rw [hq]
  simp only [Option.toList, List.nil_append, Nat.add_sub_cancel, storeWindows]
  rw [← List.replicate_succ']

/-- C3 (amended) at S1: the one init event of the dot product run is followed by
`prod_{0<=k<1}(loopBound[k]+1) = 4` store events. -/
theorem C3_stores_per_init_witness :
    stdParams.C_HW_LOOP_WIDTH < 32 ∧ validDesc stdParams descS1 = true
      ∧ (stateOf memS1 0).trace = []
      ∧ isAddrAbort (nstFuncModel stdParams exactFma descS1 (stateOf memS1 0)) = false
      ∧ ∃ m1, nstFuncModel stdParams exactFma descS1 (stateOf memS1 0) = Except.ok m1
        ∧ storeWindows m1.trace none
          = List.replicate (loopProd descS1 descS1.initLevel descS1.outerLevel)
              (loopProd descS1 descS1.innerLevel descS1.initLevel) :=
  ⟨by decide, by decide, rfl, by decide,
    C3_stores_per_init stdParams exactFma descS1 (stateOf memS1 0) (by decide) (by decide) rfl
      (by decide)⟩

/-! ## C4: the AGU update discipline -/

theorem aguStep_modEq (C : NstParams) (d : NstDesc) (level : Nat) (a : Nat → Int) (o : Nat)
    (ho : o < C_N_AGUS) :
    aguStep C d level a o = (a o + d.aguStride o level) % (2 : Int) ^ C.ptrBits := by
  simp [aguStep, ho]

theorem exitAgu_modEq (C : NstParams) (d : NstDesc) (level : Nat) (isLast : Bool)
    (a : Nat → Int) (o : Nat) (ho : o < C_N_AGUS) :
    Int.ModEq ((2 : Int) ^ C.ptrBits) (exitAgu C d level isLast a o)
      (a o + (if level < C.C_N_HW_LOOPS ∧ isLast = false then d.aguStride o level else 0)) := by
  unfold exitAgu
  by_cases h : level < C.C_N_HW_LOOPS ∧ isLast = false
  · rw [if_pos h, if_pos h, aguStep_modEq C d level a o ho]
    exact Int.mod_modEq _ _
  · rw [if_neg h, if_neg h, add_zero]

/-- One complete loop: `n + 1` iterations ending at iteration `bound` move a cursor by
`(n + 1)` inner displacements and `n` strides. -/
theorem loopSem_agu (M : Int) (body : Bool → (Nat → Int) → List Event × (Nat → Int)) (o : Nat)
    (D S : Int) (bound : Nat)
    (H : ∀ b a, Int.ModEq M ((body b a).2 o) (a o + D + (if b = false then S else 0))) :
    ∀ (n k : Nat) (a : Nat → Int), k + n = bound →
      Int.ModEq M ((loopSem body bound (n + 1) k a).2 o) (a o + ((n : Int) + 1) * D + (n : Int) * S) := by
  intro n
  induction n with
  | zero =>
    intro k a hk
    have hb : (k == bound) = true := by simp; omega
    rw [loopSem_succ, hb]
    have h := H true a
    simp only [loopSem] at h ⊢
    simpa using h
  | succ n ih =>
    intro k a hk
    have hb : (k == bound) = false := by simp; omega
    rw [loopSem_succ, hb]
    have h1 := H false a
    have h2 := ih (k + 1) (body false a).2 (by omega)
    show Int.ModEq M ((loopSem body bound (n + 1) (k + 1) (body false a).2).2 o) _
    refine h2.trans ?_
    have h3 := (h1.add_right (((n : Int) + 1) * D + (n : Int) * S))
    simp only [if_true] at h3
    have e1 : (body false a).2 o + ((n : Int) + 1) * D + (n : Int) * S
        = (body false a).2 o + (((n : Int) + 1) * D + (n : Int) * S) := by ring
    have e2 : a o + (((n + 1 : Nat) : Int) + 1) * D + ((n + 1 : Nat) : Int) * S
        = a o + D + S + (((n : Int) + 1) * D + (n : Int) * S) := by push_cast; ring
    rw [e1, e2]
    exact h3

/-- The cursors after a call of the looper at a level the hardware has
(`level <= C_N_HW_LOOPS`): the start cursor plus the sweep displacement `D_level`, plus the
stride of `level` unless the call is the last iteration (modulo the pointer width). -/
theorem looperSem_agu (C : NstParams) (d : NstDesc) (o : Nat) (ho : o < C_N_AGUS) :
    ∀ (level : Nat), level ≤ C.C_N_HW_LOOPS → ∀ (isLast : Bool) (a : Nat → Int),
      Int.ModEq ((2 : Int) ^ C.ptrBits) ((looperSem C d level isLast a).2 o)
        (a o + sweepDisp d o level
          + (if level < C.C_N_HW_LOOPS ∧ isLast = false then d.aguStride o level else 0)) := by
  intro level
  induction level with
  | zero =>
    intro _ isLast a
    simp only [looperSem, sweepDisp, add_zero]
    exact exitAgu_modEq C d 0 isLast a o ho
  | succ l ih =>
    intro hl isLast a
    have hl1 : l < C.C_N_HW_LOOPS := by omega
    have hbody : ∀ b a, Int.ModEq ((2 : Int) ^ C.ptrBits) ((looperSem C d l b a).2 o)
        (a o + sweepDisp d o l + (if b = false then d.aguStride o l else 0)) := by
      intro b a
      have := ih (by omega) b a
      simpa [hl1] using this
    have hloop := loopSem_agu ((2 : Int) ^ C.ptrBits) (looperSem C d l) o (sweepDisp d o l)
      (d.aguStride o l) (d.loopBound l) hbody (d.loopBound l) 0 a (by omega)
    simp only [looperSem, sweepDisp]
    refine (exitAgu_modEq C d (l + 1) isLast _ o ho).trans ?_
    have h := hloop.add_right
      (if l + 1 < C.C_N_HW_LOOPS ∧ isLast = false then d.aguStride o (l + 1) else 0)
    have e : a o + ((d.loopBound l : Int) + 1) * sweepDisp d o l
          + (d.loopBound l : Int) * d.aguStride o l
        = a o + (((d.loopBound l : Int) + 1) * sweepDisp d o l
          + (d.loopBound l : Int) * d.aguStride o l) := by ring
    rw [e] at h
    exact h

theorem looperSem_not_last (C : NstParams) (d : NstDesc) (level : Nat)
    (hl : level < C.C_N_HW_LOOPS) (a : Nat → Int) :
    (looperSem C d level false a).2 = aguStep C d level (looperSem C d level true a).2 := by
  cases level <;> simp [looperSem, exitAgu, hl]

/-- A call of the looper that returns has the events and cursors of `looperSem`. -/
theorem nstLooper_ok {Acc : Type} (C : NstParams) (d : NstDesc) {op : nstInternalOp Acc}
    (hop : OpFrame op) (level : Nat) (hb : ∀ k, k < level → d.loopBound k < 4294967295)
    (isLast : Bool) (m m1 : NstState Acc) (h : nstLooper C d op level isLast m = Except.ok m1) :
    m1.trace = m.trace ++ (looperSem C d level isLast m.agu).1
      ∧ m1.agu = (looperSem C d level isLast m.agu).2 := by
  rcases nstLooper_spec C d hop level hb isLast m with
    ⟨m2, hr, ht, ha, _⟩ | ⟨_, mf, _, _, hr, _⟩
  · rw [h] at hr
    cases hr
    exact ⟨ht, ha⟩
  · rw [h] at hr
    cases hr

/-- Without the address check a call of the looper returns. -/
theorem nstLooper_total {Acc : Type} (C : NstParams) (d : NstDesc) {op : nstInternalOp Acc}
    (hop : OpFrame op) (level : Nat) (hb : ∀ k, k < level → d.loopBound k < 4294967295)
    (hc : d.checkTcdmAddrs = false) (isLast : Bool) (m : NstState Acc) :
    ∃ m1, nstLooper C d op level isLast m = Except.ok m1 := by
  rcases nstLooper_spec C d hop level hb isLast m with ⟨m2, hr, _⟩ | ⟨hc1, _⟩
  · exact ⟨m2, hr⟩
  · rw [hc] at hc1
    cases hc1

/-- C4: for a valid descriptor (with `C_HW_LOOP_WIDTH < 32`), its kernel `op`, an AGU
`o < 3` and a level `l < outerLevel`, consider one iteration of the loop with bound
`loopBound[l]`, that is one call `nstLooper(l, op, isLast)` started in any state `m`.
When the iteration is not the last one (`isLast = false`) the cursor after it, which is the
cursor at the start of the next iteration, is the cursor at its start plus `D_l` plus
`aguStride[o][l]`; after the last iteration (`isLast = true`) it is the start cursor plus `D_l`
only, no stride of level `l` being added (both at pointer width); a complete sweep of that
loop, the call at level `l + 1` without its own stride, displaces the cursor by
`D_(l+1) = (loopBound[l]+1) * D_l + loopBound[l] * aguStride[o][l]`; without the address check
every iteration returns; and no kernel operation changes a cursor. -/
theorem C4_cursor_advance {Acc : Type} (C : NstParams) (F : FmaPrim Acc) (d : NstDesc)
    (op : nstInternalOp Acc) (hW : C.C_HW_LOOP_WIDTH < 32) (hv : validDesc C d = true)
    (hsel : selectOp C F d = some op) (o : Nat) (ho : o < C_N_AGUS) (l : Nat)
    (hl : l < d.outerLevel) (m : NstState Acc) :
    (∀ m1, nstLooper C d op l false m = Except.ok m1 →
        m1.agu o = (m.agu o + sweepDisp d o l + d.aguStride o l) % (2 : Int) ^ C.ptrBits)
      ∧ (∀ m1, nstLooper C d op l true m = Except.ok m1 →
        m1.agu o % (2 : Int) ^ C.ptrBits = (m.agu o + sweepDisp d o l) % (2 : Int) ^ C.ptrBits)
      ∧ (∀ m1, nstLooper C d op (l + 1) true m = Except.ok m1 →
        m1.agu o % (2 : Int) ^ C.ptrBits
          = (m.agu o + (((d.loopBound l : Int) + 1) * sweepDisp d o l
              + (d.loopBound l : Int) * d.aguStride o l)) % (2 : Int) ^ C.ptrBits)
      ∧ (d.checkTcdmAddrs = false → ∀ isLast, ∃ m1, nstLooper C d op l isLast m = Except.ok m1)
      ∧ (∀ s : NstState Acc,
          (op.init s).agu = s.agu ∧ (op.execute s).agu = s.agu ∧ (op.store s).agu = s.agu) := by
  have hop := selectOp_frame C F d op hsel
  obtain ⟨hs, _⟩ := (validDesc_iff C d).1 hv
  obtain ⟨_, _, _, h4, _⟩ := (sanityChecks_iff C d).1 hs
  have hlN : l < C.C_N_HW_LOOPS := by omega
  have hb : ∀ k, k < l → d.loopBound k < 4294967295 :=
    fun k hk => validDesc_bound C d hW hv k (by omega)
  have hlast := looperSem_agu C d o ho l (by omega) true m.agu
  simp only [Bool.true_eq_false, and_false, if_false, add_zero] at hlast
  refine ⟨?_, ?_, ?_, ?_, hop⟩
  · intro m1 h
    rw [(nstLooper_ok C d hop l hb false m m1 h).2, looperSem_not_last C d l hlN,
      aguStep_modEq C d l _ o ho]
    exact hlast.add_right _
  · intro m1 h
    rw [(nstLooper_ok C d hop l hb true m m1 h).2]
    exact hlast
  · intro m1 h
    have hb1 : ∀ k, k < l + 1 → d.loopBound k < 4294967295 :=
      fun k hk => validDesc_bound C d hW hv k (by omega)
    rw [(nstLooper_ok C d hop (l + 1) hb1 true m m1 h).2]
    have hsweep := looperSem_agu C d o ho (l + 1) (by omega) true m.agu
    simp only [Bool.true_eq_false, and_false, if_false, add_zero, sweepDisp] at hsweep
    exact hsweep
  · intro hc isLast
    exact nstLooper_total C d hop l hb hc isLast m

/-- C4 at S1: in the dot product run, an iteration of the level-0 loop that is not the last
advances the cursor of AGU 0 by `D_0 + aguStride[0][0] = 4`. -/
theorem C4_cursor_advance_witness :
    stdParams.C_HW_LOOP_WIDTH < 32 ∧ validDesc stdParams descS1 = true
      ∧ selectOp stdParams exactFma descS1 = some (nstMacOp exactFma descS1)
      ∧ 0 < C_N_AGUS ∧ 0 < descS1.outerLevel
      ∧ (∀ m1, nstLooper stdParams descS1 (nstMacOp exactFma descS1) 0 false
            { stateOf memS1 0 with agu := descS1.aguOff } = Except.ok m1 →
          m1.agu 0 = (descS1.aguOff 0 + sweepDisp descS1 0 0 + descS1.aguStride 0 0)
            % (2 : Int) ^ stdParams.ptrBits)
      ∧ (descS1.aguOff 0 + sweepDisp descS1 0 0 + descS1.aguStride 0 0)
          % (2 : Int) ^ stdParams.ptrBits = 4 :=
  ⟨by decide, by decide, rfl, by decide, by decide,
    (C4_cursor_advance stdParams exactFma descS1 (nstMacOp exactFma descS1) (by decide)
      (by decide) rfl 0 (by decide) 0 (by decide)
      { stateOf memS1 0 with agu := descS1.aguOff }).1,
    by decide⟩

/-! ## C5, C6: descriptor validation -/

section Validation

variable {Acc : Type}

theorem forLoop_not_rejected (body : Bool → NstState Acc → Except (NstFault Acc) (NstState Acc))
    (H : ∀ b m, isRejected (body b m) = false) (bound : Nat) :
    ∀ (n k : Nat) (m : NstState Acc), isRejected (forLoop body bound n k m) = false := by
  intro n
  induction n with
  | zero => intro k m; rfl
  | succ n ih =>
    intro k m
    have h := H (k == bound) m
    simp only [forLoop]
    cases hb : body (k == bound) m with
    | error e => rw [hb] at h; exact h
    | ok m1 => exact ih (k + 1) m1

/-- The looper never fails with a validation fault. -/
theorem nstLooper_not_rejected (C : NstParams) (d : NstDesc) (op : nstInternalOp Acc) :
    ∀ (level : Nat) (isLast : Bool) (m : NstState Acc),
      isRejected (nstLooper C d op level isLast m) = false := by
  intro level
  induction level with
  | zero =>
    intro isLast m
    rcases looperEnter_ok_or_fault d op 0 m with ⟨_, he⟩ | ⟨_, _, he⟩ <;>
      simp only [nstLooper, he] <;> rfl
  | succ l ih =>
    intro isLast m
    rcases looperEnter_ok_or_fault d op (l + 1) m with ⟨_, he⟩ | ⟨_, _, he⟩
    · simp only [nstLooper, he]
      split
      · rfl
      · have h := forLoop_not_rejected (nstLooper C d op l) ih (d.loopBound l)
          (d.loopBound l + 1) 0 (if d.initLevel = l + 1 then callInit op m else m)
        cases hf : forLoop (nstLooper C d op l) (d.loopBound l) (d.loopBound l + 1) 0
            (if d.initLevel = l + 1 then callInit op m else m) with
        | error e => rw [hf] at h; exact h
        | ok m2 => rfl
    · simp only [nstLooper, he]
      rfl

theorem validDesc_iff_invariants (C : NstParams) (d : NstDesc)
    (hop : ∀ c, c ∈ C.opcodes → c < C.C_N_NST_OPCODES) :
    validDesc C d = true ↔ DescInvariants C d := by
  rw [validDesc_iff, sanityChecks_iff]
  unfold DescInvariants
  constructor
  · rintro ⟨⟨h1, h2, h3, h4, _, h6⟩, h7⟩
    exact ⟨h1, h2, h3, h4, h7, h6⟩
  · rintro ⟨h1, h2, h3, h4, h5, h6⟩
    exact ⟨⟨h1, h2, h3, h4, hop _ h5, h6⟩, h5⟩

/-- A descriptor that does not pass validation is rejected. -/
theorem nstFuncModel_invalid (C : NstParams) (F : FmaPrim Acc) (d : NstDesc)
    (m : NstState Acc) (hv : validDesc C d = false) :
    isRejected (nstFuncModel C F d m) = true := by
  unfold nstFuncModel
  cases hs : sanityChecks C d
  · rfl
  · have ho : ¬ d.opCode ∈ C.opcodes := by
      intro h
      have := (validDesc_iff C d).2 ⟨hs, h⟩
      rw [this] at hv
      cases hv
    have hn : selectOp C F d = none := by
      cases hsel : selectOp C F d with
      | none => rfl
      | some op =>
        exact absurd ((selectOp_isSome_iff C F d).1 (by rw [hsel]; rfl)) ho
    simp [hn, isRejected]

/-- C5: provided the nine opcode constants of the header are below `C_N_NST_OPCODES` (and
`C_HW_LOOP_WIDTH < 64`, so that the shift of line 179 is defined), `nstFuncModel` fails validation if and only if the descriptor violates one of
`innerLevel <= initLevel`, `innerLevel <= outerLevel`, `initLevel <= outerLevel`,
`outerLevel <= N_HW_LOOPS`, `opCode` is one of the nine opcodes,
`loopBound[k] < 2^HW_LOOP_WIDTH` for every `k < N_HW_LOOPS`; every other descriptor is accepted
and run: its kernel is selected and the result is that of `nstLooper(outerLevel, *op, true)` on
the cursors `aguOff`. -/
theorem C5_validation (C : NstParams) (F : FmaPrim Acc) (d : NstDesc) (m : NstState Acc)
    (_hW : C.C_HW_LOOP_WIDTH < 64) (hop : ∀ c, c ∈ C.opcodes → c < C.C_N_NST_OPCODES) :
    (isRejected (nstFuncModel C F d m) = true ↔ ¬ DescInvariants C d)
      ∧ (DescInvariants C d →
          ∃ op, selectOp C F d = some op
            ∧ nstFuncModel C F d m
              = nstLooper C d op d.outerLevel true { m with agu := d.aguOff }) := by
  have hiff := validDesc_iff_invariants C d hop
  constructor
  · constructor
    · intro hr hinv
      obtain ⟨op, _, _, hrun⟩ := nstFuncModel_valid C F d m (hiff.2 hinv)
      rw [hrun, nstLooper_not_rejected] at hr
      cases hr
    · intro hn
      apply nstFuncModel_invalid
      cases hv : validDesc C d
      · rfl
      · exact absurd (hiff.1 hv) hn
  · intro hinv
    obtain ⟨op, hsel, _, hrun⟩ := nstFuncModel_valid C F d m (hiff.2 hinv)
    exact ⟨op, hsel, hrun⟩

/-- C5 at two descriptors: S1 with `initLevel < innerLevel` is rejected, S1 itself is run. -/
theorem C5_validation_witness :
    stdParams.C_HW_LOOP_WIDTH < 64
      ∧ (∀ c, c ∈ stdParams.opcodes → c < stdParams.C_N_NST_OPCODES)
      ∧ (isRejected (nstFuncModel stdParams exactFma descS1BadLevels (stateOf memS1 0)) = true
          ↔ ¬ DescInvariants stdParams descS1BadLevels)
      ∧ isRejected (nstFuncModel stdParams exactFma descS1BadLevels (stateOf memS1 0)) = true
      ∧ isRejected (nstFuncModel stdParams exactFma descS1 (stateOf memS1 0)) = false :=
  ⟨by decide, by decide,
    (C5_validation stdParams exactFma descS1BadLevels (stateOf memS1 0) (by decide)
      (by decide)).1,
    by decide, by decide⟩

/-- C6: a run that `nstFuncModel` rejects stops before any kernel event with the TCDM bytes,
the registers and the latches exactly as they were before the call; and provided every value
below `C_N_NST_OPCODES` is one of the nine opcode constants of the header (so that the
`default` branch of the `switch`, which comes after the AGU init, is dead), the AGU cursors
too: the whole machine state is the one of the call. -/
theorem C6_rejection_no_effect (C : NstParams) (F : FmaPrim Acc) (d : NstDesc)
    (m : NstState Acc) (f : NstFault Acc) (hr : nstFuncModel C F d m = Except.error f)
    (hrej : isRejected (nstFuncModel C F d m) = true) :
    (f.state.mem = m.mem ∧ f.state.accuState = m.accuState ∧ f.state.aluState = m.aluState
        ∧ f.state.cntState = m.cntState ∧ f.state.idxState = m.idxState
        ∧ f.state.tst = m.tst ∧ f.state.opA = m.opA ∧ f.state.opB = m.opB
        ∧ f.state.trace = m.trace)
      ∧ ((∀ c, c < C.C_N_NST_OPCODES → c ∈ C.opcodes) → f.state = m) := by
  unfold nstFuncModel at hr
  cases hs : sanityChecks C d
  · simp only [hs, if_true] at hr
    cases hr
    exact ⟨⟨rfl, rfl, rfl, rfl, rfl, rfl, rfl, rfl, rfl⟩, fun _ => rfl⟩
  · cases hsel : selectOp C F d with
    | none =>
      simp only [hs, Bool.true_eq_false, if_false, hsel] at hr
      cases hr
      refine ⟨⟨rfl, rfl, rfl, rfl, rfl, rfl, rfl, rfl, rfl⟩, ?_⟩
      intro hdense
      exfalso
      obtain ⟨_, _, _, _, h5, _⟩ := (sanityChecks_iff C d).1 hs
      have h := (selectOp_isSome_iff C F d).2 (hdense _ h5)
      rw [hsel] at h
      cases h
    | some op =>
      exfalso
      have hv : validDesc C d = true :=
        (validDesc_iff C d).2 ⟨hs, (selectOp_isSome_iff C F d).1 (by rw [hsel]; rfl)⟩
      obtain ⟨op1, _, _, hrun⟩ := nstFuncModel_valid C F d m hv
      rw [hrun, nstLooper_not_rejected] at hrej
      cases hrej

/-- C6 at S1 with `initLevel < innerLevel`: the run is rejected by the first sanity check and
the fault carries the machine state of the call. -/
theorem C6_rejection_no_effect_witness :
    nstFuncModel stdParams exactFma descS1BadLevels (stateOf memS1 7)
        = Except.error (NstFault.sanity (stateOf memS1 7))
      ∧ isRejected (nstFuncModel stdParams exactFma descS1BadLevels (stateOf memS1 7)) = true
      ∧ (∀ c, c < stdParams.C_N_NST_OPCODES → c ∈ stdParams.opcodes)
      ∧ (NstFault.sanity (stateOf memS1 7)).state = stateOf memS1 7 :=
  ⟨rfl, by decide, by decide,
    (C6_rejection_no_effect stdParams exactFma descS1BadLevels (stateOf memS1 7)
      (NstFault.sanity (stateOf memS1 7)) rfl (by decide)).2 (by decide)⟩

end Validation

/-! ## C7: the address check -/

section AddressCheck

variable {Acc : Type}

theorem loopSem_congr (body1 body2 : Bool → (Nat → Int) → List Event × (Nat → Int))
    (H : ∀ b a, body1 b a = body2 b a) (bound : Nat) :
    ∀ (n k : Nat) (a : Nat → Int), loopSem body1 bound n k a = loopSem body2 bound n k a := by
  intro n
  induction n with
  | zero => intro k a; rfl
  | succ n ih => intro k a; simp only [loopSem_succ, H, ih]

/-- Switching the address check off changes neither events nor cursors of `looperSem`. -/
theorem looperSem_unchecked (C : NstParams) (d : NstDesc) :
    ∀ (level : Nat) (isLast : Bool) (a : Nat → Int),
      looperSem C d.unchecked level isLast a = looperSem C d level isLast a := by
  intro level
  induction level with
  | zero => intro isLast a; rfl
  | succ l ih =>
    intro isLast a
    simp only [looperSem]
    rw [loopSem_congr (looperSem C d.unchecked l) (looperSem C d l) ih]
    rfl

theorem validDesc_unchecked (C : NstParams) (d : NstDesc) :
    validDesc C d.unchecked = validDesc C d := rfl

/-- C7: for every valid descriptor `d` with `checkTcdmAddrs` set (and `C_HW_LOOP_WIDTH < 32`),
the run of `d` with the check switched off completes, and the run of `d` is aborted by an
address assertion if and only if that unchecked run has an execute event, which is an entry to
level 0 with the cursors of that entry, at which `agu[0]`, `agu[1]` or `agu[2]` lies outside
`[tcdmLow, tcdmHigh]`. In particular the assertions made on entry to outer levels never abort
a run whose innermost cursors are all in range. -/
theorem C7_address_abort (C : NstParams) (F : FmaPrim Acc) (d : NstDesc) (m : NstState Acc)
    (hW : C.C_HW_LOOP_WIDTH < 32) (hv : validDesc C d = true)
    (hc : d.checkTcdmAddrs = true) :
    ∃ mu evs, nstFuncModel C F d.unchecked m = Except.ok mu ∧ mu.trace = m.trace ++ evs
      ∧ (isAddrAbort (nstFuncModel C F d m) = true
          ↔ ∃ e ∈ evs, e.kind = EvKind.execute ∧ aguInRange d e.agu = false) := by
  have hvu : validDesc C d.unchecked = true := hv
  rcases nstFuncModel_spec C F d.unchecked m hW hvu with
    ⟨mu, hru, htu, _, _⟩ | ⟨hcu, _⟩
  · rw [looperSem_unchecked] at htu
    have htu1 : mu.trace = m.trace ++ (looperSem C d d.outerLevel true d.aguOff).1 := htu
    refine ⟨mu, _, hru, htu1, ?_⟩
    rcases nstFuncModel_spec C F d m hW hv with
      ⟨m1, hr, _, _, hin⟩ | ⟨_, mf, pre, post, hr, hsplit, _, hout, e, he, hk, hea⟩
    · rw [hr]
      constructor
      · intro h
        cases h
      · rintro ⟨e, he, hk, hout⟩
        rw [hin hc e he hk] at hout
        cases hout
    · rw [hr]
      constructor
      · intro _
        refine ⟨e, ?_, hk, by rw [hea]; exact hout⟩
        rw [hsplit]
        exact List.mem_append_right _ he
      · intro _
        rfl
  · cases hcu

/-- C7 at S1 with the window `[0, 24]` and all cursors starting at 16: the run is aborted,
and the unchecked run has an execute event with a cursor outside the window. -/
theorem C7_address_abort_witness :
    stdParams.C_HW_LOOP_WIDTH < 32 ∧ validDesc stdParams descS1Window = true
      ∧ descS1Window.checkTcdmAddrs = true
      ∧ isAddrAbort (nstFuncModel stdParams exactFma descS1Window (stateOf memS1 0)) = true
      ∧ ∃ mu evs, nstFuncModel stdParams exactFma descS1Window.unchecked (stateOf memS1 0)
            = Except.ok mu
          ∧ mu.trace = (stateOf memS1 0).trace ++ evs
          ∧ (isAddrAbort (nstFuncModel stdParams exactFma descS1Window (stateOf memS1 0)) = true
              ↔ ∃ e ∈ evs, e.kind = EvKind.execute ∧ aguInRange descS1Window e.agu = false) :=
  ⟨by decide, by decide, rfl, by decide,
    C7_address_abort stdParams exactFma descS1Window (stateOf memS1 0) (by decide) (by decide)
      rfl⟩

end AddressCheck

/-! ## Memory -/

theorem loadWord_storeWord_same (mem : Int → Nat) (a : Int) (w : Nat) :
    loadWord (storeWord mem a w) a = w % 4294967296 := by
  have h1 : ¬ (a + 1 = a) := by omega
  have h2 : ¬ (a + 2 = a) := by omega
  have h3 : ¬ (a + 2 = a + 1) := by omega
  have h4 : ¬ (a + 3 = a) := by omega
  have h5 : ¬ (a + 3 = a + 1) := by omega
  have h6 : ¬ (a + 3 = a + 2) := by omega
  simp only [loadWord, storeWord, if_true, h1, h2, h3, h4, h5, h6, if_false, Nat.mod_mod]
  omega

theorem loadWord_storeWord_disjoint (mem : Int → Nat) (a b : Int) (w : Nat)
    (h : b + 3 < a ∨ a + 3 < b) : loadWord (storeWord mem a w) b = loadWord mem b := by
  have e0 : storeWord mem a w b = mem b := by
    unfold storeWord
    rw [if_neg (by omega), if_neg (by omega), if_neg (by omega), if_neg (by omega)]
  have e1 : storeWord mem a w (b + 1) = mem (b + 1) := by
    unfold storeWord
    rw [if_neg (by omega), if_neg (by omega), if_neg (by omega), if_neg (by omega)]
  have e2 : storeWord mem a w (b + 2) = mem (b + 2) := by
    unfold storeWord
    rw [if_neg (by omega), if_neg (by omega), if_neg (by omega), if_neg (by omega)]
  have e3 : storeWord mem a w (b + 3) = mem (b + 3) := by
    unfold storeWord
    rw [if_neg (by omega), if_neg (by omega), if_neg (by omega), if_neg (by omega)]
  simp only [loadWord, e0, e1, e2, e3]

theorem loadWord_lt (mem : Int → Nat) (a : Int) : loadWord mem a < 4294967296 := by
  unfold loadWord
  omega

theorem finalWord_some {Acc : Type} (r : Except (NstFault Acc) (NstState Acc)) (a : Int)
    (w : Nat) (h : finalWord r a = some w) : ∃ m1, r = Except.ok m1 ∧ loadWord m1.mem a = w := by
  cases r with
  | error e => simp [finalWord] at h
  | ok m1 => exact ⟨m1, rfl, by simpa [finalWord] using h⟩

/-! ## The FMA stores -/

/-- The word the FMA stores leave at `agu[2]`. -/
theorem fmaStore_word {Acc : Type} (F : FmaPrim Acc) (d : NstDesc) (m : NstState Acc) :
    loadWord (fmaStore F d m).mem (m.agu 2)
      = if d.auxFunc ≠ 0
          ∧ fp32_getSign ((F.pcsMac C_FP32_ZERO_VAL C_FP32_ZERO_VAL false false true m.accuState
              (loadWord m.mem (m.agu 2))).2 % 4294967296) = true
        then C_FP32_ZERO_VAL
        else (F.pcsMac C_FP32_ZERO_VAL C_FP32_ZERO_VAL false false true m.accuState
              (loadWord m.mem (m.agu 2))).2 % 4294967296 := by
  simp only [fmaStore, loadWord_storeWord_same]
  split
  · rw [loadWord_storeWord_same]
    rfl
  · rw [loadWord_storeWord_same]

/-! ## C8: the dot product -/

section DotProduct

variable {Acc : Type}

theorem nstLooper_succ (C : NstParams) (d : NstDesc) (op : nstInternalOp Acc) (l : Nat)
    (isLast : Bool) (m : NstState Acc) :
    nstLooper C d op (l + 1) isLast m
      = match looperEnter d op (l + 1) m with
        | Except.error e => Except.error e
        | Except.ok m1 =>
          if 4294967295 ≤ d.loopBound l then Except.error (NstFault.hang m1)
          else
            match forLoop (nstLooper C d op l) (d.loopBound l) (d.loopBound l + 1) 0 m1 with
            | Except.error e => Except.error e
            | Except.ok m2 => Except.ok (looperExit C d op (l + 1) isLast m2) := rfl

theorem nstLooper_zero (C : NstParams) (d : NstDesc) (op : nstInternalOp Acc)
    (isLast : Bool) (m : NstState Acc) :
    nstLooper C d op 0 isLast m
      = match looperEnter d op 0 m with
        | Except.error e => Except.error e
        | Except.ok m1 => Except.ok (looperExit C d op 0 isLast (callExecute op m1)) := rfl

/-- One innermost iteration of a dot product: the call `nstLooper(0, op, isLast)`. -/
theorem mac_step (C : NstParams) (F : FmaPrim Acc) (d : NstDesc) (hF : FmaReadoutContract F)
    (hd : MacDotDesc C d) (A B : Nat → Nat) (k : Nat) (isLast : Bool) (s s1 : NstState Acc)
    (hrun : nstLooper C d (nstMacOp F d) 0 isLast s = Except.ok s1)
    (hacc : s.accuState = macAccu F A B k)
    (hA : loadWord s.mem (s.agu 0) = A k) (hB : loadWord s.mem (s.agu 1) = B k) :
    s1.accuState = macAccu F A B (k + 1)
      ∧ loadWord s1.mem (s.agu 2)
        = (F.pcsMac C_FP32_ZERO_VAL C_FP32_ZERO_VAL false false true (macAccu F A B (k + 1))
            0).2 % 4294967296
      ∧ (∀ b, wordsDisjoint b (s.agu 2) → loadWord s1.mem b = loadWord s.mem b)
      ∧ s1.agu = exitAgu C d 0 isLast s.agu := by
  obtain ⟨_, _, haux, hpol, hin, hinit, _⟩ := hd
  have hi0 : ¬ d.initLevel = 0 := by omega
  rcases looperEnter_ok_or_fault d (nstMacOp F d) 0 s with ⟨_, he⟩ | ⟨_, _, he⟩
  · simp only [nstLooper, he, hi0, if_false, Except.ok.injEq] at hrun
    subst hrun
    have hX := looperExit_spec C d (nstMacOp_frame F d) 0 isLast (callExecute (nstMacOp F d) s)
    have hexit : ∀ x : NstState Acc,
        (looperExit C d (nstMacOp F d) 0 isLast x).mem = (fmaStore F d x).mem
          ∧ (looperExit C d (nstMacOp F d) 0 isLast x).accuState = (fmaStore F d x).accuState := by
      intro x
      unfold looperExit
      simp only [hin, if_true]
      split <;> exact ⟨rfl, rfl⟩
    have hex_acc : (callExecute (nstMacOp F d) s).accuState = macAccu F A B (k + 1) := by
      simp [callExecute, nstMacOp, hpol, hacc, hA, hB, macAccu]
    have hex_mem : (callExecute (nstMacOp F d) s).mem = s.mem := rfl
    have hex_agu : (callExecute (nstMacOp F d) s).agu = s.agu := rfl
    refine ⟨?_, ?_, ?_, ?_⟩
    · rw [(hexit _).2]
      simp only [fmaStore, hex_acc]
      exact hF.1 _ _
    · rw [(hexit _).1, ← hex_agu, fmaStore_word, hex_acc, haux]
      simp only [ne_eq, not_true_eq_false, false_and, if_false]
      rw [hF.2 _ _ 0]
    · intro b hb
      rw [(hexit _).1]
      simp only [fmaStore, haux, ne_eq, not_true_eq_false, false_and, if_false, hex_mem, hex_agu]
      exact loadWord_storeWord_disjoint _ _ _ _ (by unfold wordsDisjoint at hb; omega)
    · rw [hX.2, hex_agu]
  · simp only [nstLooper, he] at hrun
    cases hrun

/-- The innermost loop of a dot product, from iteration `k` on. -/
theorem mac_loop (C : NstParams) (F : FmaPrim Acc) (d : NstDesc) (hF : FmaReadoutContract F)
    (hd : MacDotDesc C d) (hl : MacDotLayout C d) (hN : 0 < C.C_N_HW_LOOPS) (A B : Nat → Nat) :
    ∀ (n k : Nat) (s s1 : NstState Acc), k + n = d.loopBound 0 + 1 →
      forLoop (nstLooper C d (nstMacOp F d) 0) (d.loopBound 0) n k s = Except.ok s1 →
      (0 < n → s.agu 0 = d.aguOff 0 + 4 * (k : Int) ∧ s.agu 1 = d.aguOff 1 + 4 * (k : Int)
        ∧ s.agu 2 = d.aguOff 2) →
      s.accuState = macAccu F A B k →
      (∀ i : Nat, i ≤ d.loopBound 0 → loadWord s.mem (d.aguOff 0 + 4 * (i : Int)) = A i
        ∧ loadWord s.mem (d.aguOff 1 + 4 * (i : Int)) = B i) →
      (0 < k → loadWord s.mem (d.aguOff 2)
        = (F.pcsMac C_FP32_ZERO_VAL C_FP32_ZERO_VAL false false true (macAccu F A B k)
            0).2 % 4294967296) →
      loadWord s1.mem (d.aguOff 2)
        = (F.pcsMac C_FP32_ZERO_VAL C_FP32_ZERO_VAL false false true
            (macAccu F A B (d.loopBound 0 + 1)) 0).2 % 4294967296 := by
  intro n
  induction n with
  | zero =>
    intro k s s1 hk hrun _ _ _ hdst
    simp only [forLoop, Except.ok.injEq] at hrun
    subst hrun
    have hk1 : k = d.loopBound 0 + 1 := by omega
    rw [← hk1]
    exact hdst (by omega)
  | succ n ih =>
    intro k s s1 hk hrun hagu hacc hsrc _
    obtain ⟨hg0, hg1, hg2⟩ := hagu (Nat.succ_pos n)
    simp only [forLoop] at hrun
    cases hb : nstLooper C d (nstMacOp F d) 0 (k == d.loopBound 0) s with
    | error e => rw [hb] at hrun; cases hrun
    | ok s2 =>
      rw [hb] at hrun
      have hkl : k ≤ d.loopBound 0 := by omega
      obtain ⟨hsA, hsB⟩ := hsrc k hkl
      obtain ⟨hacc2, hdst2, hframe, hagu2⟩ := mac_step C F d hF hd A B k (k == d.loopBound 0) s s2
        hb hacc (by rw [hg0]; exact hsA) (by rw [hg1]; exact hsB)
      rw [hg2] at hdst2 hframe
      obtain ⟨⟨h00, h01⟩, ⟨h10, h11⟩, ⟨h20, h21⟩, hdisj⟩ := hl
      refine ih (k + 1) s2 s1 (by omega) hrun ?_ hacc2 ?_ (fun _ => hdst2)
      · intro hn
        have hne : (k == d.loopBound 0) = false := by simp; omega
        obtain ⟨_, _, _, _, _, _, _, hs0, hs1, hs2⟩ := hd
        have hklt : (k : Int) + 1 ≤ (d.loopBound 0 : Int) := by omega
        rw [hagu2, hne]
        simp only [exitAgu, hN, and_self, if_true]
        refine ⟨?_, ?_, ?_⟩
        · rw [aguStep_modEq C d 0 s.agu 0 (by decide), hg0, hs0]
          rw [Int.emod_eq_of_lt (by omega) (by omega)]
          push_cast
          ring
        · rw [aguStep_modEq C d 0 s.agu 1 (by decide), hg1, hs1]
          rw [Int.emod_eq_of_lt (by omega) (by omega)]
          push_cast
          ring
        · rw [aguStep_modEq C d 0 s.agu 2 (by decide), hg2, hs2, add_zero]
          exact Int.emod_eq_of_lt h20 h21
      · intro i hi
        obtain ⟨hdA, hdB⟩ := hdisj i hi
        rw [hframe _ hdA, hframe _ hdB]
        exact hsrc i hi

/-- C8 (as stated, refuted): two descriptors that meet every condition of the claim and are
stopped by an address assertion. S1 with the check on and all cursors outside the window is
stopped before the first product and leaves the destination word as it was (zero);
`descDotWindow` is stopped at the fourth iteration and leaves the readout of the first three
products, `140.0` (`0x430C0000`). The readout of the four products is `300.0`
(`0x43960000`). -/
theorem C8_counterexample :
    FmaReadoutContract exactFma
      ∧ validDesc stdParams descS1Checked = true ∧ MacDotDesc stdParams descS1Checked
      ∧ MacDotLayout stdParams descS1Checked
      ∧ isAddrAbort (nstFuncModel stdParams exactFma descS1Checked (stateOf memS1 0)) = true
      ∧ loadWord (runMem (nstFuncModel stdParams exactFma descS1Checked (stateOf memS1 0)))
          (descS1Checked.aguOff 2) = 0
      ∧ (exactFma.pcsMac C_FP32_ZERO_VAL C_FP32_ZERO_VAL false false true
          (macAccu exactFma (fun i => loadWord memS1 (descS1Checked.aguOff 0 + 4 * (i : Int)))
            (fun i => loadWord memS1 (descS1Checked.aguOff 1 + 4 * (i : Int)))
            (descS1Checked.loopBound 0 + 1)) 0).2 % 4294967296 = 0x43960000
      ∧ validDesc stdParams descDotWindow = true ∧ MacDotDesc stdParams descDotWindow
      ∧ MacDotLayout stdParams descDotWindow
      ∧ isAddrAbort (nstFuncModel stdParams exactFma descDotWindow (stateOf memDotWindow 0))
          = true
      ∧ loadWord (runMem (nstFuncModel stdParams exactFma descDotWindow
          (stateOf memDotWindow 0))) (descDotWindow.aguOff 2) = 0x430C0000
      ∧ (exactFma.pcsMac C_FP32_ZERO_VAL C_FP32_ZERO_VAL false false true
          (macAccu exactFma
            (fun i => loadWord memDotWindow (descDotWindow.aguOff 0 + 4 * (i : Int)))
            (fun i => loadWord memDotWindow (descDotWindow.aguOff 1 + 4 * (i : Int)))
            (descDotWindow.loopBound 0 + 1)) 0).2 % 4294967296 = 0x43960000 := by
  have hd1 : MacDotDesc stdParams descS1Checked := by
    unfold MacDotDesc
    decide
  have hl1 : MacDotLayout stdParams descS1Checked := by
    unfold MacDotLayout wordsDisjoint
    refine ⟨by decide, by decide, by decide, ?_⟩
    intro i hi
    have hi3 : i ≤ 3 := hi
    have e0 : descS1Checked.aguOff 0 = 0 := rfl
    have e1 : descS1Checked.aguOff 1 = 16 := rfl
    have e2 : descS1Checked.aguOff 2 = 32 := rfl
    rw [e0, e1, e2]
    omega
  have hd2 : MacDotDesc stdParams descDotWindow := by
    unfold MacDotDesc
    decide
  have hl2 : MacDotLayout stdParams descDotWindow := by
    unfold MacDotLayout wordsDisjoint
    refine ⟨by decide, by decide, by decide, ?_⟩
    intro i hi
    have hi3 : i ≤ 3 := hi
    have e0 : descDotWindow.aguOff 0 = 4 := rfl
    have e1 : descDotWindow.aguOff 1 = 20 := rfl
    have e2 : descDotWindow.aguOff 2 = 0 := rfl
    rw [e0, e1, e2]
    omega
  have hF : FmaReadoutContract exactFma :=
    ⟨fun acc r => by
      have h : fp32Val C_FP32_ZERO_VAL = 0 := by decide
      simp [exactFma, h], fun _ _ _ => rfl⟩
  exact ⟨hF, by decide, hd1, hl1, by decide, by decide, by decide, by decide, hd2, hl2,
    by decide, by decide, by decide⟩

/-- C8 (amended): for a MAC descriptor with `initSel >= 3`, `auxFunc = 0`, `polarity = 0`,
`innerLevel = 0`, `initLevel = outerLevel = 1`, `loopBound[0] = N - 1`, stride 4 on AGU 0 and
AGU 1 at level 0, stride 0 on AGU 2, and a destination word disjoint from `A` and `B` (all
inside the address space), with a primitive whose readout call neither changes the accumulator
nor depends on the old destination content: a run that no address assertion stops completes,
and the word left at the destination is the readout of a cleared accumulator into which the
products `A[0]*B[0], ..., A[N-1]*B[N-1]` were accumulated in ascending order with
`negate = false`. -/
theorem C8_mac_dot_product (C : NstParams) (F : FmaPrim Acc) (d : NstDesc) (m : NstState Acc)
    (hF : FmaReadoutContract F) (hW : C.C_HW_LOOP_WIDTH < 32) (hv : validDesc C d = true)
    (hd : MacDotDesc C d) (hl : MacDotLayout C d)
    (hna : isAddrAbort (nstFuncModel C F d m) = false) :
    ∃ m1, nstFuncModel C F d m = Except.ok m1
      ∧ loadWord m1.mem (d.aguOff 2)
        = (F.pcsMac C_FP32_ZERO_VAL C_FP32_ZERO_VAL false false true
            (macAccu F (fun i => loadWord m.mem (d.aguOff 0 + 4 * (i : Int)))
              (fun i => loadWord m.mem (d.aguOff 1 + 4 * (i : Int))) (d.loopBound 0 + 1))
            0).2 % 4294967296 := by
  obtain ⟨m1, hr, _, _⟩ := nstFuncModel_complete C F d m hW hv hna
  refine ⟨m1, hr, ?_⟩
  obtain ⟨hs, _⟩ := (validDesc_iff C d).1 hv
  obtain ⟨_, _, _, h4, _⟩ := (sanityChecks_iff C d).1 hs
  have hd1 := hd
  obtain ⟨hop, hsel, _, _, hin, hinit, hout, _⟩ := hd1
  have hN : 0 < C.C_N_HW_LOOPS := by omega
  have hselect : selectOp C F d = some (nstMacOp F d) := by simp [selectOp, hop]
  have hrun : nstLooper C d (nstMacOp F d) 1 true { m with agu := d.aguOff } = Except.ok m1 := by
    rw [← hr]
    simp [nstFuncModel, hs, hselect, hout]
  have hbl : ¬ (4294967295 ≤ d.loopBound 0) := by
    have := validDesc_bound C d hW hv 0 (by omega)
    omega
  have hi1 : ¬ d.innerLevel = 0 + 1 := by omega
  rcases looperEnter_ok_or_fault d (nstMacOp F d) 1 { m with agu := d.aguOff } with
    ⟨_, he⟩ | ⟨_, _, he⟩
  · rw [nstLooper_succ] at hrun
    simp only [he, hbl, if_false, hinit, if_true] at hrun
    cases hf : forLoop (nstLooper C d (nstMacOp F d) 0) (d.loopBound 0) (d.loopBound 0 + 1) 0
        (callInit (nstMacOp F d) { m with agu := d.aguOff }) with
    | error e => rw [hf] at hrun; cases hrun
    | ok m2 =>
      rw [hf] at hrun
      simp only [looperExit, hi1, if_false, Except.ok.injEq, Bool.true_eq_false, and_false]
        at hrun
      subst hrun
      have hinit_state : callInit (nstMacOp F d) { m with agu := d.aguOff }
          = { m with agu := d.aguOff, accuState := F.clear,
                     trace := m.trace ++ [⟨EvKind.init, d.aguOff⟩] } := by
        simp [callInit, nstMacOp, hsel]
      rw [hinit_state] at hf
      exact mac_loop C F d hF hd hl hN _ _ (d.loopBound 0 + 1) 0 _ _ (by omega) hf
        (fun _ => by simp) rfl (fun i _ => ⟨rfl, rfl⟩) (fun h => absurd h (by omega))
  · simp only [nstLooper, he] at hrun
    cases hrun

theorem exactFma_readout : FmaReadoutContract exactFma := by
  constructor
  · intro acc r
    have h : fp32Val C_FP32_ZERO_VAL = 0 := by decide
    simp [exactFma, h]
  · intro acc r1 r2
    rfl

/-- C8 (amended) at S1: A = [1, 2, 3, 4] and B = [10, 20, 30, 40] leave `300.0` (`0x43960000`) at
offset 32 when the primitive is read as exact arithmetic. -/
theorem C8_mac_dot_product_witness :
    FmaReadoutContract exactFma ∧ stdParams.C_HW_LOOP_WIDTH < 32
      ∧ validDesc stdParams descS1 = true ∧ MacDotDesc stdParams descS1
      ∧ MacDotLayout stdParams descS1
      ∧ isAddrAbort (nstFuncModel stdParams exactFma descS1 (stateOf memS1 0)) = false
      ∧ (∃ m1, nstFuncModel stdParams exactFma descS1 (stateOf memS1 0) = Except.ok m1
        ∧ loadWord m1.mem (descS1.aguOff 2)
          = (exactFma.pcsMac C_FP32_ZERO_VAL C_FP32_ZERO_VAL false false true
              (macAccu exactFma (fun i => loadWord (stateOf memS1 0).mem (descS1.aguOff 0 + 4 * (i : Int)))
                (fun i => loadWord (stateOf memS1 0).mem (descS1.aguOff 1 + 4 * (i : Int)))
                (descS1.loopBound 0 + 1))
              0).2 % 4294967296)
      ∧ finalWord (nstFuncModel stdParams exactFma descS1 (stateOf memS1 0)) 32
        = some 0x43960000 := by
  have hd : MacDotDesc stdParams descS1 := by
    unfold MacDotDesc
    decide
  have hl : MacDotLayout stdParams descS1 := by
    unfold MacDotLayout wordsDisjoint
    refine ⟨by decide, by decide, by decide, ?_⟩
    intro i hi
    have hi3 : i ≤ 3 := hi
    have e0 : descS1.aguOff 0 = 0 := rfl
    have e1 : descS1.aguOff 1 = 16 := rfl
    have e2 : descS1.aguOff 2 = 32 := rfl
    rw [e0, e1, e2]
    omega
  exact ⟨exactFma_readout, by decide, by decide, hd, hl, by decide,
    C8_mac_dot_product stdParams exactFma descS1 (stateOf memS1 0) exactFma_readout (by decide)
      (by decide) hd hl (by decide),
    by decide⟩

end DotProduct

/-! ## C9: the ReLU of the FMA stores -/

/-- C9: for each of MAC, VADDSUB, VMULT and OUTERP and whatever the FMA primitive returns:
with `r` the word the readout call `pcsMac(0, 0, 0, 0, 1, accuState, *res)` leaves in `*res`,
the word at `agu[2]` after `store` is `r` itself when `auxFunc = 0` or the sign bit of `r` is
clear, and is the `+0.0` pattern when `auxFunc != 0` and the sign bit of `r` is set; so with
`auxFunc != 0` a stored word never has its sign bit set. In scenario S2, with the primitive read
as exact arithmetic, the run leaves `+0.0` at offset 32. -/
theorem C9_relu_store {Acc : Type} (F : FmaPrim Acc) (d : NstDesc) (m : NstState Acc)
    (op : nstInternalOp Acc)
    (hop : op ∈ [nstMacOp F d, nstVAddSubOp F d, nstVMultOp F d, nstOuterPOp F d]) :
    (loadWord (op.store m).mem (m.agu 2)
        = if d.auxFunc ≠ 0
            ∧ fp32_getSign ((F.pcsMac C_FP32_ZERO_VAL C_FP32_ZERO_VAL false false true
                m.accuState (loadWord m.mem (m.agu 2))).2 % 4294967296) = true
          then C_FP32_ZERO_VAL
          else (F.pcsMac C_FP32_ZERO_VAL C_FP32_ZERO_VAL false false true m.accuState
                (loadWord m.mem (m.agu 2))).2 % 4294967296)
      ∧ (d.auxFunc ≠ 0 → fp32_getSign (loadWord (op.store m).mem (m.agu 2)) = false)
      ∧ (∃ m1, nstFuncModel stdParams exactFma descS2 (stateOf memS2 0) = Except.ok m1
          ∧ loadWord m1.mem 32 = C_FP32_ZERO_VAL) := by
  have hst : op.store = fmaStore F d := by
    simp only [List.mem_cons, List.mem_singleton, List.not_mem_nil, or_false] at hop
    rcases hop with h | h | h | h <;> rw [h] <;> rfl
  rw [hst]
  refine ⟨fmaStore_word F d m, ?_, ?_⟩
  · intro haux
    rw [fmaStore_word]
    split
    · rfl
    · rename_i h
      simp only [haux, ne_eq, not_false_eq_true, true_and] at h
      simpa using h
  · exact finalWord_some _ 32 _ (by decide)

/-- C9 at the store of S2: with the ReLU on and an accumulator holding `-300`, the MAC store
leaves `+0.0` at `agu[2]`. -/
theorem C9_relu_store_witness :
    nstMacOp exactFma descS2
        ∈ [nstMacOp exactFma descS2, nstVAddSubOp exactFma descS2, nstVMultOp exactFma descS2,
            nstOuterPOp exactFma descS2]
      ∧ (descS2.auxFunc ≠ 0 →
          fp32_getSign (loadWord ((nstMacOp exactFma descS2).store
            { stateOf memS2 0 with accuState := -300 * 2 ^ 298, agu := descS2.aguOff }).mem
            (({ stateOf memS2 0 with accuState := -300 * 2 ^ 298, agu := descS2.aguOff } :
              NstState Int).agu 2)) = false)
      ∧ loadWord ((nstMacOp exactFma descS2).store
            { stateOf memS2 0 with accuState := -300 * 2 ^ 298, agu := descS2.aguOff }).mem 32
          = C_FP32_ZERO_VAL :=
  ⟨List.mem_cons_self _ _,
    (C9_relu_store exactFma descS2
      { stateOf memS2 0 with accuState := -300 * 2 ^ 298, agu := descS2.aguOff }
      (nstMacOp exactFma descS2) (List.mem_cons_self _ _)).2.1,
    by decide⟩

/-! ## C10: MAXMIN with `polarity = 1` -/

section MaxMin

variable {Acc : Type}

theorem floatGe_self (x : Option Int) (h : x ≠ none) : floatGe x x = true := by
  cases x with
  | none => exact absurd rfl h
  | some a => simp [floatGe]

theorem floatGe_of_gt {x y : Option Int} (h : floatGt x y = true) : floatGe x y = true := by
  cases x <;> cases y <;> simp [floatGt, floatGe] at h ⊢
  omega

theorem floatGt_of_ge_gt {x y z : Option Int} (h1 : floatGe z x = true)
    (h2 : floatGt x y = true) : floatGt z y = true := by
  cases x <;> cases y <;> cases z <;> simp [floatGt, floatGe] at h1 h2 ⊢
  omega

theorem floatGt_trans {x y z : Option Int} (h1 : floatGt x y = true)
    (h2 : floatGt y z = true) : floatGt x z = true := by
  cases x <;> cases y <;> cases z <;> simp [floatGt] at h1 h2 ⊢
  omega

theorem floatGe_of_not_gt {x y : Option Int} (h : floatGt x y = false) (hx : x ≠ none)
    (hy : y ≠ none) : floatGe y x = true := by
  cases x with
  | none => exact absurd rfl hx
  | some a =>
    cases y with
    | none => exact absurd rfl hy
    | some b =>
      simp [floatGt, floatGe] at h ⊢
      omega

theorem floatGt_left_some {x y : Option Int} (h : floatGt x y = true) : x ≠ none := by
  cases x <;> cases y <;> simp [floatGt] at h ⊢

/-- The registers after `nstMaxMinOp::execute` with `polarity = 1`: the running value and the
index are replaced when the running value is greater than the element read. -/
theorem maxMin_execute_regs (d : NstDesc) (hpol : d.polarity = true) (m : NstState Acc) :
    nstRegs ((nstMaxMinOp d).execute m)
      = if floatGt (fp32ToFloat m.aluState) (fp32ToFloat (loadWord m.mem (m.agu 1))) = true
        then (loadWord m.mem (m.agu 1), m.cntState, (m.cntState + 1) % 4294967296)
        else (m.aluState, m.idxState, (m.cntState + 1) % 4294967296) := by
  simp only [nstMaxMinOp, hpol, Bool.not_true, Bool.xor_false, nstRegs]
  split <;> rfl

/-- The invariant of a MAXMIN window with `polarity = 1` after `k` executes. -/
theorem maxMin_window (d : NstDesc) (hpol : d.polarity = true) (N : Nat)
    (hN : N ≤ 4294967296) (s : Nat → NstState Acc) (hcnt : (s 0).cntState = 0)
    (hstep : ∀ k, k < N → nstRegs (s (k + 1)) = nstRegs ((nstMaxMinOp d).execute (s k)))
    (hnan : ∀ k, k < N → fp32ToFloat (loadWord (s k).mem ((s k).agu 1)) ≠ none) :
    ∀ k, k ≤ N →
      (s k).cntState = k % 4294967296
        ∧ (((∀ j, j < k → floatGt (fp32ToFloat (s 0).aluState)
                (fp32ToFloat (loadWord (s j).mem ((s j).agu 1))) = false)
            ∧ (s k).aluState = (s 0).aluState ∧ (s k).idxState = (s 0).idxState)
          ∨ ((s k).idxState < k
            ∧ (s k).aluState = loadWord (s (s k).idxState).mem ((s (s k).idxState).agu 1)
            ∧ (∀ j, j < k → floatGe (fp32ToFloat (loadWord (s j).mem ((s j).agu 1)))
                (fp32ToFloat (loadWord (s (s k).idxState).mem ((s (s k).idxState).agu 1)))
                  = true)
            ∧ (∀ j, j < (s k).idxState →
                floatGt (fp32ToFloat (loadWord (s j).mem ((s j).agu 1)))
                  (fp32ToFloat (loadWord (s (s k).idxState).mem ((s (s k).idxState).agu 1)))
                  = true)
            ∧ floatGt (fp32ToFloat (s 0).aluState)
                (fp32ToFloat (loadWord (s (s k).idxState).mem ((s (s k).idxState).agu 1)))
                = true)) := by
  intro k
  induction k with
  | zero =>
    intro _
    exact ⟨by simp [hcnt], Or.inl ⟨fun j hj => absurd hj (Nat.not_lt_zero j), rfl, rfl⟩⟩
  | succ k ih =>
    intro hk
    have hkN : k < N := by omega
    obtain ⟨hc, hinv⟩ := ih (by omega)
    have hregs := hstep k hkN
    rw [maxMin_execute_regs d hpol] at hregs
    have hkmod : k % 4294967296 = k := Nat.mod_eq_of_lt (by omega)
    have hbk := hnan k hkN
    by_cases ht : floatGt (fp32ToFloat (s k).aluState)
        (fp32ToFloat (loadWord (s k).mem ((s k).agu 1))) = true
    · rw [if_pos ht] at hregs
      simp only [nstRegs, Prod.mk.injEq] at hregs
      obtain ⟨halu, hidx, hcn⟩ := hregs
      rw [hc, hkmod] at hidx hcn
      refine ⟨hcn, Or.inr ?_⟩
      rw [hidx, halu]
      rcases hinv with ⟨hno, ha, _⟩ | ⟨_, ha, hge, _, hv0⟩
      · rw [ha] at ht
        have hlt : ∀ j, j < k → floatGt (fp32ToFloat (loadWord (s j).mem ((s j).agu 1)))
            (fp32ToFloat (loadWord (s k).mem ((s k).agu 1))) = true := fun j hj =>
          floatGt_of_ge_gt
            (floatGe_of_not_gt (hno j hj) (floatGt_left_some ht) (hnan j (by omega))) ht
        refine ⟨Nat.lt_succ_self k, rfl, ?_, hlt, ht⟩
        intro j hj
        rcases Nat.lt_succ_iff_lt_or_eq.1 hj with h | h
        · exact floatGe_of_gt (hlt j h)
        · rw [h]; exact floatGe_self _ hbk
      · rw [ha] at ht
        have hlt : ∀ j, j < k → floatGt (fp32ToFloat (loadWord (s j).mem ((s j).agu 1)))
            (fp32ToFloat (loadWord (s k).mem ((s k).agu 1))) = true := fun j hj =>
          floatGt_of_ge_gt (hge j hj) ht
        refine ⟨Nat.lt_succ_self k, rfl, ?_, hlt, floatGt_trans hv0 ht⟩
        intro j hj
        rcases Nat.lt_succ_iff_lt_or_eq.1 hj with h | h
        · exact floatGe_of_gt (hlt j h)
        · rw [h]; exact floatGe_self _ hbk
    · have htf : floatGt (fp32ToFloat (s k).aluState)
          (fp32ToFloat (loadWord (s k).mem ((s k).agu 1))) = false := by
        cases h : floatGt (fp32ToFloat (s k).aluState)
          (fp32ToFloat (loadWord (s k).mem ((s k).agu 1)))
        · rfl
        · exact absurd h ht
      rw [if_neg ht] at hregs
      simp only [nstRegs, Prod.mk.injEq] at hregs
      obtain ⟨halu, hidx, hcn⟩ := hregs
      rw [hc, hkmod] at hcn
      refine ⟨hcn, ?_⟩
      rw [hidx, halu]
      rcases hinv with ⟨hno, ha, hi⟩ | ⟨hlt, ha, hge, hear, hv0⟩
      · refine Or.inl ⟨?_, ha, hi⟩
        intro j hj
        rcases Nat.lt_succ_iff_lt_or_eq.1 hj with h | h
        · exact hno j h
        · rw [h, ← ha]; exact htf
      · refine Or.inr ⟨by omega, ha, ?_, hear, hv0⟩
        intro j hj
        rcases Nat.lt_succ_iff_lt_or_eq.1 hj with h | h
        · exact hge j h
        · rw [h]
          rw [ha] at htf
          exact floatGe_of_not_gt htf (hnan _ (by omega)) hbk

/-- C10 (as stated, refuted): on the data [3, -1, 4, 1, 5, 9, 2, 6] the run of the S3
descriptor (`polarity = 1`, init value `0.0`) stores the index 1 of the minimum `-1.0`, and
`A[1] >= A[5] = 9.0` fails. On the data of S3 itself no element is below the running value
`0.0`, so the run stores the index that was left in `idxState` (0, or 7 when 7 was left), not
5. With `polarity = 0` the data of S3 give 5. -/
theorem C10_counterexample :
    validDesc stdParams descS3 = true
      ∧ finalWord (nstFuncModel stdParams exactFma descS3 (stateOf memS3Neg 0)) 32 = some 1
      ∧ floatGe (fp32ToFloat (loadWord memS3Neg 4)) (fp32ToFloat (loadWord memS3Neg 20)) = false
      ∧ finalWord (nstFuncModel stdParams exactFma descS3 (stateOf memS3 0)) 32 = some 0
      ∧ finalWord (nstFuncModel stdParams exactFma descS3 (stateOf memS3 7)) 32 = some 7
      ∧ floatGe (fp32ToFloat (loadWord memS3 0)) (fp32ToFloat (loadWord memS3 20)) = false
      ∧ finalWord (nstFuncModel stdParams exactFma { descS3 with polarity := false }
          (stateOf memS3 0)) 32 = some 5 := by
  refine ⟨by decide, by decide, by decide, by decide, by decide, by decide, by decide⟩

/-- C10 (amended): with `polarity = 1` the MAXMIN kernel tracks the minimum (the source says
"negative polarity means MIN"). Let `s k` be the machine state before the `k`-th execute of an
init window of `N <= 2^32` executes (`s N` the state before the store), the registers being
carried from one execute to the next (what the looper does in between, stores and AGU updates,
leaves them alone), `cntState` zero after init, and the values
`A[k] = *agu[1]` read by the executes NaN-free. With `auxFunc != 0` the store writes
`idxState`; if some `A[j]` is less than the init value, that index is below `N`, satisfies
`A[idx] <= A[j]` for every `j < N` and is the earliest position attaining that minimum; if no
`A[j]` is less than the init value, it is the `idxState` left from before the window, which
`init` does not reset. -/
theorem C10_maxmin_polarity1 (d : NstDesc) (hpol : d.polarity = true) (haux : d.auxFunc ≠ 0)
    (N : Nat) (hN : N ≤ 4294967296) (s : Nat → NstState Acc) (hcnt : (s 0).cntState = 0)
    (hstep : ∀ k, k < N → nstRegs (s (k + 1)) = nstRegs ((nstMaxMinOp d).execute (s k)))
    (hnan : ∀ k, k < N → fp32ToFloat (loadWord (s k).mem ((s k).agu 1)) ≠ none) :
    loadWord ((nstMaxMinOp d).store (s N)).mem ((s N).agu 2) = (s N).idxState % 4294967296
      ∧ ((∃ j, j < N ∧ floatGt (fp32ToFloat (s 0).aluState)
            (fp32ToFloat (loadWord (s j).mem ((s j).agu 1))) = true) →
          (s N).idxState < N
            ∧ (∀ j, j < N → floatGe (fp32ToFloat (loadWord (s j).mem ((s j).agu 1)))
                (fp32ToFloat (loadWord (s (s N).idxState).mem ((s (s N).idxState).agu 1)))
                  = true)
            ∧ (∀ j, j < (s N).idxState →
                floatGt (fp32ToFloat (loadWord (s j).mem ((s j).agu 1)))
                  (fp32ToFloat (loadWord (s (s N).idxState).mem ((s (s N).idxState).agu 1)))
                  = true))
      ∧ ((∀ j, j < N → floatGt (fp32ToFloat (s 0).aluState)
            (fp32ToFloat (loadWord (s j).mem ((s j).agu 1))) = false) →
          (s N).idxState = (s 0).idxState)
      ∧ (∀ m : NstState Acc, ((nstMaxMinOp d).init m).cntState = 0
          ∧ ((nstMaxMinOp d).init m).aluState = loadInitSel d m
          ∧ ((nstMaxMinOp d).init m).idxState = m.idxState)
      ∧ (∀ m : NstState Acc, nstRegs ((nstMaxMinOp d).store m) = nstRegs m)
      ∧ (∀ (C : NstParams) (l : Nat) (m : NstState Acc), nstRegs (aguUpdate C d l m) = nstRegs m) := by
  obtain ⟨_, hinv⟩ := maxMin_window d hpol N hN s hcnt hstep hnan N (Nat.le_refl N)
  refine ⟨?_, ?_, ?_, fun m => ⟨rfl, rfl, rfl⟩, fun m => rfl, fun C l m => rfl⟩
  · simp only [nstMaxMinOp, haux, ne_eq, not_false_eq_true, if_true]
    exact loadWord_storeWord_same _ _ _
  · rintro ⟨j, hj, hgt⟩
    rcases hinv with ⟨hno, _, _⟩ | ⟨hlt, _, hge, hear, _⟩
    · rw [hno j hj] at hgt
      cases hgt
    · exact ⟨hlt, hge, hear⟩
  · intro hall
    rcases hinv with ⟨_, _, hi⟩ | ⟨hlt, _, _, _, hv0⟩
    · exact hi
    · rw [hall _ hlt] at hv0
      cases hv0

/-- C10 (amended) on the data of S3, the window starting with the running value `9.0` and a
left-over index 7: the index written is 1, the earlier of the two positions of the minimum
`1.0`. -/
theorem C10_maxmin_polarity1_witness :
    descS3.polarity = true ∧ descS3.auxFunc ≠ 0 ∧ 8 ≤ 4294967296 ∧ (winS3 0).cntState = 0
      ∧ (∀ k, k < 8 → nstRegs (winS3 (k + 1)) = nstRegs ((nstMaxMinOp descS3).execute (winS3 k)))
      ∧ (∀ k, k < 8 → fp32ToFloat (loadWord (winS3 k).mem ((winS3 k).agu 1)) ≠ none)
      ∧ (∃ j, j < 8 ∧ floatGt (fp32ToFloat (winS3 0).aluState)
            (fp32ToFloat (loadWord (winS3 j).mem ((winS3 j).agu 1))) = true)
      ∧ loadWord ((nstMaxMinOp descS3).store (winS3 8)).mem ((winS3 8).agu 2)
          = (winS3 8).idxState % 4294967296
      ∧ (winS3 8).idxState = 1 :=
  ⟨rfl, by decide, by decide, rfl, fun _ _ => rfl, by decide, ⟨0, by decide, by decide⟩,
    (C10_maxmin_polarity1 descS3 rfl (by decide) 8 (by decide) winS3 rfl (fun _ _ => rfl)
      (by decide)).1,
    by decide⟩

end MaxMin

/-! ## C11: the index stored by MAXMIN -/

section MaxMinIndex

variable {Acc : Type}

/-- The predicate `tst` of `nstMaxMinOp::execute` (line 591) in state `m`. -/
theorem maxMin_execute_regs_any (d : NstDesc) (m : NstState Acc) :
    nstRegs ((nstMaxMinOp d).execute m)
      = if Bool.xor (floatGt (fp32ToFloat m.aluState) (fp32ToFloat (loadWord m.mem (m.agu 1))))
            (!d.polarity) = true
        then (loadWord m.mem (m.agu 1), m.cntState, (m.cntState + 1) % 4294967296)
        else (m.aluState, m.idxState, (m.cntState + 1) % 4294967296) := by
  simp only [nstMaxMinOp, nstRegs]
  split <;> rfl

/-- C11 (as stated, refuted): in scenario S3 with 100 left in `idxState` no execute of the
window of `N = 8` executes replaces the running value, and the store writes 100, which is not
an index in `[0, 8)`. -/
theorem C11_counterexample :
    validDesc stdParams descS3 = true ∧ descS3.auxFunc ≠ 0
      ∧ countKind EvKind.execute
          (runTrace (nstFuncModel stdParams exactFma descS3 (stateOf memS3 100))) = 8
      ∧ finalWord (nstFuncModel stdParams exactFma descS3 (stateOf memS3 100)) 32 = some 100
      ∧ ¬ (100 < 8) := by
  refine ⟨by decide, by decide, by decide, by decide, by decide⟩

/-- C11 (amended): let `s k` be the machine state before the `k`-th execute of a MAXMIN init
window (`s n` the state before a store that follows `n` executes), the registers being carried
from one execute to the next and `cntState` zero after init. With `auxFunc != 0` the store
writes `idxState`; once some execute of the window has replaced the running value (its
predicate `tst` was true), that is an index below `n`, whatever the input values and the
polarity; as long as none has, it is the `idxState` left from before the window, which `init`
does not reset. -/
theorem C11_maxmin_index (d : NstDesc) (haux : d.auxFunc ≠ 0) (N : Nat)
    (s : Nat → NstState Acc) (hcnt : (s 0).cntState = 0)
    (hstep : ∀ k, k < N → nstRegs (s (k + 1)) = nstRegs ((nstMaxMinOp d).execute (s k))) :
    ∀ n, n ≤ N →
      loadWord ((nstMaxMinOp d).store (s n)).mem ((s n).agu 2) = (s n).idxState % 4294967296
        ∧ ((∃ j, j < n ∧ Bool.xor (floatGt (fp32ToFloat (s j).aluState)
              (fp32ToFloat (loadWord (s j).mem ((s j).agu 1)))) (!d.polarity) = true) →
            (s n).idxState < n)
        ∧ ((∀ j, j < n → Bool.xor (floatGt (fp32ToFloat (s j).aluState)
              (fp32ToFloat (loadWord (s j).mem ((s j).agu 1)))) (!d.polarity) = false) →
            (s n).idxState = (s 0).idxState)
        ∧ ((nstMaxMinOp d).init (s n)).idxState = (s n).idxState := by
  have hinv : ∀ n, n ≤ N →
      (s n).cntState = n % 4294967296
        ∧ (((∀ j, j < n → Bool.xor (floatGt (fp32ToFloat (s j).aluState)
                (fp32ToFloat (loadWord (s j).mem ((s j).agu 1)))) (!d.polarity) = false)
              ∧ (s n).idxState = (s 0).idxState)
          ∨ ((∃ j, j < n ∧ Bool.xor (floatGt (fp32ToFloat (s j).aluState)
                (fp32ToFloat (loadWord (s j).mem ((s j).agu 1)))) (!d.polarity) = true)
              ∧ (s n).idxState < n)) := by
    intro n
    induction n with
    | zero =>
      intro _
      exact ⟨by simp [hcnt], Or.inl ⟨fun j hj => absurd hj (Nat.not_lt_zero j), rfl⟩⟩
    | succ k ih =>
      intro hk
      obtain ⟨hc, hinv⟩ := ih (by omega)
      have hregs := hstep k (by omega)
      rw [maxMin_execute_regs_any d] at hregs
      have hmod : k % 4294967296 ≤ k := Nat.mod_le k 4294967296
      have hcn : (k % 4294967296 + 1) % 4294967296 = (k + 1) % 4294967296 := by omega
      by_cases ht : Bool.xor (floatGt (fp32ToFloat (s k).aluState)
          (fp32ToFloat (loadWord (s k).mem ((s k).agu 1)))) (!d.polarity) = true
      · rw [if_pos ht] at hregs
        simp only [nstRegs, Prod.mk.injEq] at hregs
        obtain ⟨_, hidx, hcn1⟩ := hregs
        rw [hc] at hidx hcn1
        exact ⟨by rw [hcn1, hcn], Or.inr ⟨⟨k, Nat.lt_succ_self k, ht⟩, by omega⟩⟩
      · have htf : Bool.xor (floatGt (fp32ToFloat (s k).aluState)
            (fp32ToFloat (loadWord (s k).mem ((s k).agu 1)))) (!d.polarity) = false := by
          cases h : Bool.xor (floatGt (fp32ToFloat (s k).aluState)
            (fp32ToFloat (loadWord (s k).mem ((s k).agu 1)))) (!d.polarity)
          · rfl
          · exact absurd h ht
        rw [if_neg ht] at hregs
        simp only [nstRegs, Prod.mk.injEq] at hregs
        obtain ⟨_, hidx, hcn1⟩ := hregs
        rw [hc] at hcn1
        refine ⟨by rw [hcn1, hcn], ?_⟩
        rcases hinv with ⟨hno, hi⟩ | ⟨⟨j, hj, hjt⟩, hlt⟩
        · refine Or.inl ⟨?_, by rw [hidx, hi]⟩
          intro j hj
          rcases Nat.lt_succ_iff_lt_or_eq.1 hj with h | h
          · exact hno j h
          · rw [h]; exact htf
        · exact Or.inr ⟨⟨j, by omega, hjt⟩, by rw [hidx]; omega⟩
  intro n hn
  obtain ⟨_, hi⟩ := hinv n hn
  refine ⟨?_, ?_, ?_, rfl⟩
  · simp only [nstMaxMinOp, haux, ne_eq, not_false_eq_true, if_true]
    exact loadWord_storeWord_same _ _ _
  · rintro ⟨j, hj, hjt⟩
    rcases hi with ⟨hno, _⟩ | ⟨_, hlt⟩
    · rw [hno j hj] at hjt
      cases hjt
    · exact hlt
  · intro hall
    rcases hi with ⟨_, h⟩ | ⟨⟨j, hj, hjt⟩, _⟩
    · exact h
    · rw [hall j hj] at hjt
      cases hjt

/-- C11 (amended) on the window `winS3` (data of S3, running value `9.0`, left-over index 7):
the first execute already replaces the running value, and the store after the eight executes
writes the index 1, which is below 8. -/
theorem C11_maxmin_index_witness :
    descS3.auxFunc ≠ 0 ∧ (winS3 0).cntState = 0
      ∧ (∀ k, k < 8 → nstRegs (winS3 (k + 1)) = nstRegs ((nstMaxMinOp descS3).execute (winS3 k)))
      ∧ 8 ≤ 8
      ∧ (∃ j, j < 8 ∧ Bool.xor (floatGt (fp32ToFloat (winS3 j).aluState)
            (fp32ToFloat (loadWord (winS3 j).mem ((winS3 j).agu 1)))) (!descS3.polarity) = true)
      ∧ (winS3 8).idxState < 8
      ∧ loadWord ((nstMaxMinOp descS3).store (winS3 8)).mem ((winS3 8).agu 2) = 1 :=
  ⟨by decide, rfl, fun _ _ => rfl, Nat.le_refl 8, ⟨0, by decide, by decide⟩,
    (C11_maxmin_index descS3 (by decide) 8 winS3 rfl (fun _ _ => rfl) 8 (Nat.le_refl 8)).2.1
      ⟨0, by decide, by decide⟩,
    by decide⟩

end MaxMinIndex

/-! ## C12: the predicate of THTST -/

/-- C12 (as stated, refuted): with `auxFunc & 0x3 = 3` and `polarity = 1` the latched `tst`
is false, not `false XOR polarity = true`: the `default` branch of the `switch` does not apply
the polarity. -/
theorem C12_counterexample :
    AuxCodes stdParams
      ∧ ({ descS4 with auxFunc := 3, polarity := true } : NstDesc).auxFunc &&& 3 = 3
      ∧ ((nstThTstOp stdParams { descS4 with auxFunc := 3, polarity := true }).execute
          (stateOf memS4 0)).tst = false
      ∧ Bool.xor false ({ descS4 with auxFunc := 3, polarity := true } : NstDesc).polarity
          = true := by
  refine ⟨?_, by decide, by decide, by decide⟩
  unfold AuxCodes
  decide

/-- C12 (amended): with the `auxFunc` codes `CMP_EQ = 0`, `CMP_LT = 1`, `CMP_LE = 2`, after
`nstThTstOp::execute` the latched `tst` is `p XOR polarity` where `p` is `aluState == *opB`,
`aluState > *opB`, `aluState >= *opB` for `auxFunc & 0x3` equal to 0, 1, 2, and it is false,
whatever the polarity, for `auxFunc & 0x3 = 3`; `opB` is `agu[1]`. -/
theorem C12_thtst_predicate {Acc : Type} (C : NstParams) (d : NstDesc) (m : NstState Acc)
    (hC : AuxCodes C) :
    ((nstThTstOp C d).execute m).tst
        = (if d.auxFunc &&& 3 = 0 then
            Bool.xor (floatEq (fp32ToFloat m.aluState) (fp32ToFloat (loadWord m.mem (m.agu 1))))
              d.polarity
          else if d.auxFunc &&& 3 = 1 then
            Bool.xor (floatGt (fp32ToFloat m.aluState) (fp32ToFloat (loadWord m.mem (m.agu 1))))
              d.polarity
          else if d.auxFunc &&& 3 = 2 then
            Bool.xor (floatGe (fp32ToFloat m.aluState) (fp32ToFloat (loadWord m.mem (m.agu 1))))
              d.polarity
          else false)
      ∧ ((nstThTstOp C d).execute m).opB = m.agu 1 := by
  obtain ⟨h0, h1, h2, _⟩ := hC
  simp only [nstThTstOp, h0, h1, h2, and_self]

/-- C12 (amended) at `auxFunc = 2`, `polarity = 0` on the first element of S4: `tst` is
`2.5 >= 1.0`, true. -/
theorem C12_thtst_predicate_witness :
    AuxCodes stdParams
      ∧ ((nstThTstOp stdParams descS4).execute
          ((nstThTstOp stdParams descS4).init
            { stateOf memS4 0 with agu := descS4.aguOff })).tst = true := by
  have hC : AuxCodes stdParams := by
    unfold AuxCodes
    decide
  refine ⟨hC, ?_⟩
  rw [(C12_thtst_predicate stdParams descS4
    ((nstThTstOp stdParams descS4).init { stateOf memS4 0 with agu := descS4.aguOff }) hC).1]
  decide

/-! ## C15: the MASKMAC store with a false predicate -/

/-- C15: for MASKMAC, a store that follows an execute whose predicate `tst` is false changes
nothing: the machine state after the store is the one before it, so the destination word
`*agu[2]`, every other byte of TCDM and the accumulator are untouched. -/
theorem C15_maskmac_store_skips {Acc : Type} (C : NstParams) (F : FmaPrim Acc) (d : NstDesc)
    (m : NstState Acc) (h : ((nstMaskMacOp C F d).execute m).tst = false) :
    (nstMaskMacOp C F d).store ((nstMaskMacOp C F d).execute m) = (nstMaskMacOp C F d).execute m
      ∧ ((nstMaskMacOp C F d).store ((nstMaskMacOp C F d).execute m)).mem = m.mem
      ∧ ((nstMaskMacOp C F d).store ((nstMaskMacOp C F d).execute m)).accuState = m.accuState
      ∧ (callStore (nstMaskMacOp C F d) ((nstMaskMacOp C F d).execute m)).mem = m.mem
      ∧ (callStore (nstMaskMacOp C F d) ((nstMaskMacOp C F d).execute m)).accuState
          = m.accuState := by
  have hs : (nstMaskMacOp C F d).store ((nstMaskMacOp C F d).execute m)
      = (nstMaskMacOp C F d).execute m := by
    show (if ((nstMaskMacOp C F d).execute m).tst = true then _ else _) = _
    rw [h]
    rfl
  refine ⟨hs, ?_, ?_, ?_, ?_⟩
  · rw [hs]; rfl
  · rw [hs]; rfl
  · show ((nstMaskMacOp C F d).store ((nstMaskMacOp C F d).execute m)).mem = m.mem
    rw [hs]; rfl
  · show ((nstMaskMacOp C F d).store ((nstMaskMacOp C F d).execute m)).accuState = m.accuState
    rw [hs]; rfl

/-- C15 at `auxFunc = 1` (`aluState > *agu[1]`), `aluState = 2.0` and `*agu[1] = 3.0`: the
predicate is false and the store leaves the state alone. -/
theorem C15_maskmac_store_skips_witness :
    ((nstMaskMacOp stdParams exactFma (descMaskMac 1)).execute (stateMaskMac 0x40400000)).tst
        = false
      ∧ (nstMaskMacOp stdParams exactFma (descMaskMac 1)).store
          ((nstMaskMacOp stdParams exactFma (descMaskMac 1)).execute (stateMaskMac 0x40400000))
        = (nstMaskMacOp stdParams exactFma (descMaskMac 1)).execute (stateMaskMac 0x40400000) :=
  ⟨by decide,
    (C15_maskmac_store_skips stdParams exactFma (descMaskMac 1) (stateMaskMac 0x40400000)
      (by decide)).1⟩

/-! ## C14: the positional mask of MASK -/

section MaskPositional

variable {Acc : Type}

/-- C14 (as stated, refuted): in scenario S5 `aluState` holds the pattern `0x40400000` of the
real 3.0, yet the run writes `+0.0` at position 3 (and at every other position), not
`A[3] = 13.0`: the counter is compared with the bit pattern, an integer near `2^30`. -/
theorem C14_counterexample :
    validDesc stdParams descS5 = true
      ∧ fp32ToFloat 0x40400000 = some (3 * 2 ^ 149)
      ∧ loadWord (memS5 0x40400000) 12 = 0x41500000
      ∧ finalWord (nstFuncModel stdParams exactFma descS5 (stateOf (memS5 0x40400000) 0))
          (36 + 4 * 3) = some C_FP32_ZERO_VAL
      ∧ (List.range 8).map (fun i : Nat => finalWord
            (nstFuncModel stdParams exactFma descS5 (stateOf (memS5 0x40400000) 0))
            (36 + 4 * (i : Int)))
          = List.replicate 8 (some C_FP32_ZERO_VAL) := by
  refine ⟨by decide, by decide, by decide, by decide, by decide⟩

theorem mask_execute_positional (C : NstParams) (d : NstDesc) (hC : AuxCodes C)
    (haux : d.auxFunc = 4) (hpol : d.polarity = false) (m : NstState Acc) :
    ((nstMaskOp C d).execute m).tst = decide (m.cntState = m.aluState)
      ∧ ((nstMaskOp C d).execute m).cntState = (m.cntState + 1) % 4294967296
      ∧ ((nstMaskOp C d).execute m).aluState = m.aluState
      ∧ ((nstMaskOp C d).execute m).opA = m.agu 0
      ∧ ((nstMaskOp C d).execute m).mem = m.mem
      ∧ ((nstMaskOp C d).execute m).agu = m.agu := by
  obtain ⟨h0, h1, h2, h4⟩ := hC
  refine ⟨?_, rfl, rfl, rfl, rfl, rfl⟩
  simp [nstMaskOp, maskPredicate, h0, h1, h2, h4, haux, hpol]

/-- C14 (amended): for MASK with `auxFunc = BIN_OUT` (4) and `polarity = 0` (the `auxFunc`
codes being 0, 1, 2, 4), let `s k` be the machine state before the `k`-th execute after init
(`k` counted from 0), `cntState` and `aluState` being carried from one execute to the next and
`cntState` zero after init. At the `n`-th execute `tst` is true exactly when `n` (modulo
`2^32`) equals the bit pattern in `aluState` read as an unsigned integer, and the store that
follows writes `*agu[0]` at that position and `+0.0` at every other. -/
theorem C14_mask_positional (C : NstParams) (d : NstDesc) (hC : AuxCodes C)
    (haux : d.auxFunc = 4) (hpol : d.polarity = false) (N : Nat) (s : Nat → NstState Acc)
    (hcnt : (s 0).cntState = 0)
    (hstep : ∀ k, k < N → (s (k + 1)).cntState = ((nstMaskOp C d).execute (s k)).cntState
      ∧ (s (k + 1)).aluState = ((nstMaskOp C d).execute (s k)).aluState) :
    ∀ n, n ≤ N →
      (((nstMaskOp C d).execute (s n)).tst = true ↔ n % 4294967296 = (s 0).aluState)
        ∧ loadWord ((nstMaskOp C d).store ((nstMaskOp C d).execute (s n))).mem ((s n).agu 2)
          = if n % 4294967296 = (s 0).aluState then loadWord (s n).mem ((s n).agu 0)
            else C_FP32_ZERO_VAL := by
  have hinv : ∀ n, n ≤ N →
      (s n).cntState = n % 4294967296 ∧ (s n).aluState = (s 0).aluState := by
    intro n
    induction n with
    | zero => intro _; exact ⟨by simp [hcnt], rfl⟩
    | succ k ih =>
      intro hk
      obtain ⟨hc, ha⟩ := ih (by omega)
      obtain ⟨h1, h2⟩ := hstep k (by omega)
      obtain ⟨_, e1, e2, _⟩ := mask_execute_positional C d hC haux hpol (s k)
      rw [e1, hc] at h1
      rw [e2, ha] at h2
      exact ⟨by rw [h1]; omega, h2⟩
  intro n hn
  obtain ⟨hc, ha⟩ := hinv n hn
  obtain ⟨et, _, _, eA, em, eg⟩ := mask_execute_positional C d hC haux hpol (s n)
  have htst : ((nstMaskOp C d).execute (s n)).tst = true ↔ n % 4294967296 = (s 0).aluState := by
    rw [et, hc, ha]
    simp
  refine ⟨htst, ?_⟩
  show loadWord (storeWord ((nstMaskOp C d).execute (s n)).mem
      (((nstMaskOp C d).execute (s n)).agu 2)
      (if ((nstMaskOp C d).execute (s n)).tst = true
        then loadWord ((nstMaskOp C d).execute (s n)).mem ((nstMaskOp C d).execute (s n)).opA
        else C_FP32_ZERO_VAL)) ((s n).agu 2) = _
  rw [eg, loadWord_storeWord_same, em, eA]
  by_cases h : n % 4294967296 = (s 0).aluState
  · rw [if_pos (htst.2 h), if_pos h]
    exact Nat.mod_eq_of_lt (loadWord_lt _ _)
  · have hf : ¬ ((nstMaskOp C d).execute (s n)).tst = true := fun ht => h (htst.1 ht)
    rw [if_neg hf, if_neg h]
    rfl

/-- C14 (amended) on the window of S5 with the integer 3 (pattern `0x00000003`) in `aluState`:
`tst` is true at the execute number 3, where the store writes `A[3] = 13.0`, and the run writes
`+0.0` at the seven other positions. -/
theorem C14_mask_positional_witness :
    AuxCodes stdParams ∧ descS5.auxFunc = 4 ∧ descS5.polarity = false
      ∧ (winS5 3 0).cntState = 0
      ∧ (∀ k, k < 8 → (winS5 3 (k + 1)).cntState
            = ((nstMaskOp stdParams descS5).execute (winS5 3 k)).cntState
          ∧ (winS5 3 (k + 1)).aluState
            = ((nstMaskOp stdParams descS5).execute (winS5 3 k)).aluState)
      ∧ (((nstMaskOp stdParams descS5).execute (winS5 3 3)).tst = true
          ↔ 3 % 4294967296 = (winS5 3 0).aluState)
      ∧ (winS5 3 0).aluState = 3
      ∧ (List.range 8).map (fun i : Nat => finalWord
            (nstFuncModel stdParams exactFma descS5 (stateOf (memS5 3) 0)) (36 + 4 * (i : Int)))
          = [some 0, some 0, some 0, some 0x41500000, some 0, some 0, some 0, some 0] := by
  have hC : AuxCodes stdParams := by
    unfold AuxCodes
    decide
  exact ⟨hC, rfl, rfl, rfl, fun _ _ => ⟨rfl, rfl⟩,
    (C14_mask_positional stdParams descS5 hC rfl rfl 8 (winS5 3) rfl (fun _ _ => ⟨rfl, rfl⟩) 3
      (by decide)).1,
    by decide, by decide⟩

end MaskPositional

/-! ## C20: MASKMAC with `auxFunc & 0x4` -/

/-- C20 (as stated, refuted): with `aluState = 2.0` and `auxFunc & 0x4` set (`auxFunc = 4` and
`auxFunc = 5`), the latched `tst` is the same, false, for the destination words 1.0, 2.0 and
3.0, although `aluState == *agu[2]` holds for 2.0 only and `aluState > *agu[2]` for 1.0 only:
`tst` does not depend on the destination word. -/
theorem C20_counterexample :
    AuxCodes stdParams ∧ 4 &&& 4 ≠ 0 ∧ 5 &&& 4 ≠ 0
      ∧ (∀ w ∈ [0x3F800000, 0x40000000, 0x40400000],
          ((nstMaskMacOp stdParams exactFma (descMaskMac 4)).execute (stateMaskMac w)).tst = false
            ∧ ((nstMaskMacOp stdParams exactFma (descMaskMac 5)).execute (stateMaskMac w)).tst
              = false)
      ∧ floatEq (fp32ToFloat (stateMaskMac 0x40000000).aluState)
          (fp32ToFloat (loadWord (stateMaskMac 0x40000000).mem
            ((stateMaskMac 0x40000000).agu 2))) = true
      ∧ floatEq (fp32ToFloat (stateMaskMac 0x40400000).aluState)
          (fp32ToFloat (loadWord (stateMaskMac 0x40400000).mem
            ((stateMaskMac 0x40400000).agu 2))) = false
      ∧ floatGt (fp32ToFloat (stateMaskMac 0x3F800000).aluState)
          (fp32ToFloat (loadWord (stateMaskMac 0x3F800000).mem
            ((stateMaskMac 0x3F800000).agu 2))) = true
      ∧ floatGt (fp32ToFloat (stateMaskMac 0x40400000).aluState)
          (fp32ToFloat (loadWord (stateMaskMac 0x40400000).mem
            ((stateMaskMac 0x40400000).agu 2))) = false := by
  refine ⟨?_, by decide, by decide, by decide, by decide, by decide, by decide, by decide⟩
  unfold AuxCodes
  decide

/-- C20 (amended): for `nstMaskMacOp::execute` with `auxFunc & 0x4` set (the `auxFunc` codes
being 0, 1, 2, 4), `opA` is latched to the destination `agu[2]` and no operand is read: the
latched `tst` is `(cntState == aluState) XOR polarity` when `auxFunc = 4` and false for every
other `auxFunc`; it is the same for any two states that differ in the TCDM content only. -/
theorem C20_maskmac_positional {Acc : Type} (C : NstParams) (F : FmaPrim Acc) (d : NstDesc)
    (m : NstState Acc) (hC : AuxCodes C) (hbit : d.auxFunc &&& 4 ≠ 0) :
    ((nstMaskMacOp C F d).execute m).tst
        = (if d.auxFunc = 4 then Bool.xor (decide (m.cntState = m.aluState)) d.polarity
          else false)
      ∧ ((nstMaskMacOp C F d).execute m).opA = m.agu 2
      ∧ (∀ mem2 : Int → Nat,
          ((nstMaskMacOp C F d).execute { m with mem := mem2 }).tst
            = ((nstMaskMacOp C F d).execute m).tst) := by
  obtain ⟨h0, h1, h2, h4⟩ := hC
  have n0 : ¬ d.auxFunc = 0 := by
    intro h
    rw [h] at hbit
    exact hbit (by decide)
  have n1 : ¬ d.auxFunc = 1 := by
    intro h
    rw [h] at hbit
    exact hbit (by decide)
  have n2 : ¬ d.auxFunc = 2 := by
    intro h
    rw [h] at hbit
    exact hbit (by decide)
  have key : ∀ x : NstState Acc, ((nstMaskMacOp C F d).execute x).tst
      = (if d.auxFunc = 4 then Bool.xor (decide (x.cntState = x.aluState)) d.polarity
        else false) := by
    intro x
    simp only [nstMaskMacOp, maskPredicate, h0, h1, h2, h4, n0, n1, n2, if_false]
  refine ⟨key m, rfl, ?_⟩
  intro mem2
  rw [key, key]

/-- C20 (amended) at `auxFunc = 4`, `polarity = 0`, `cntState = 0` and `aluState = 2.0`:
`tst` is `0 == 0x40000000`, false. -/
theorem C20_maskmac_positional_witness :
    AuxCodes stdParams ∧ (descMaskMac 4).auxFunc &&& 4 ≠ 0
      ∧ ((nstMaskMacOp stdParams exactFma (descMaskMac 4)).execute (stateMaskMac 0x40000000)).tst
        = (if (descMaskMac 4).auxFunc = 4 then
            Bool.xor (decide ((stateMaskMac 0x40000000).cntState
              = (stateMaskMac 0x40000000).aluState)) (descMaskMac 4).polarity
          else false) := by
  have hC : AuxCodes stdParams := by
    unfold AuxCodes
    decide
  exact ⟨hC, by decide,
    (C20_maskmac_positional stdParams exactFma (descMaskMac 4) (stateMaskMac 0x40000000) hC
      (by decide)).1⟩

/-! ## One innermost iteration with init, execute and store at the same element -/

section SameElement

variable {Acc : Type}

/-- With `initLevel = innerLevel = 0` a call of the looper at level 0 is init, execute, store,
then the AGU update. -/
theorem nstLooper_same_element (C : NstParams) (d : NstDesc) (op : nstInternalOp Acc)
    (hinit : d.initLevel = 0) (hin : d.innerLevel = 0) (isLast : Bool) (m m1 : NstState Acc)
    (h : nstLooper C d op 0 isLast m = Except.ok m1) :
    m1.mem = (callStore op (callExecute op (callInit op m))).mem
      ∧ m1.accuState = (callStore op (callExecute op (callInit op m))).accuState := by
  rw [nstLooper_zero] at h
  rcases looperEnter_ok_or_fault d op 0 m with ⟨_, he⟩ | ⟨_, _, he⟩
  · simp only [he, hinit, if_true, Except.ok.injEq] at h
    subst h
    unfold looperExit
    simp only [hin, if_true]
    split <;> exact ⟨rfl, rfl⟩
  · rw [he] at h
    cases h

theorem loadWord_congr (mem1 mem2 : Int → Nat) (a b : Int)
    (h : ∀ q : Int, 0 ≤ q → q < 4 → mem1 (a + q) % 256 = mem2 (b + q) % 256) :
    loadWord mem1 a = loadWord mem2 b := by
  have h0 := h 0 (by omega) (by omega)
  have h1 := h 1 (by omega) (by omega)
  have h2 := h 2 (by omega) (by omega)
  have h3 := h 3 (by omega) (by omega)
  simp only [add_zero] at h0
  simp only [loadWord, h0, h1, h2, h3]

/-- The bytes after copying the word at `s` to `d`. -/
theorem storeWord_loadWord_byte (mem : Int → Nat) (s d y : Int) :
    storeWord mem d (loadWord mem s) y % 256
      = if d ≤ y ∧ y < d + 4 then mem (y + (s - d)) % 256 else mem y % 256 := by
  unfold storeWord
  by_cases h0 : y = d
  · have e : y + (s - d) = s := by omega
    rw [if_pos h0, if_pos (by omega), e]
    unfold loadWord
    omega
  · rw [if_neg h0]
    by_cases h1 : y = d + 1
    · have e : y + (s - d) = s + 1 := by omega
      rw [if_pos h1, if_pos (by omega), e]
      unfold loadWord
      omega
    · rw [if_neg h1]
      by_cases h2 : y = d + 2
      · have e : y + (s - d) = s + 2 := by omega
        rw [if_pos h2, if_pos (by omega), e]
        unfold loadWord
        omega
      · rw [if_neg h2]
        by_cases h3 : y = d + 3
        · have e : y + (s - d) = s + 3 := by omega
          rw [if_pos h3, if_pos (by omega), e]
          unfold loadWord
          omega
        · rw [if_neg h3, if_neg (by omega)]

/-- Writing a word back where it was read changes no word of memory. -/
theorem loadWord_storeWord_self (mem : Int → Nat) (a x : Int) :
    loadWord (storeWord mem a (loadWord mem a)) x = loadWord mem x := by
  apply loadWord_congr
  intro q _ _
  rw [storeWord_loadWord_byte]
  split
  · have e : x + q + (a - a) = x + q := by omega
    rw [e]
  · rfl

end SameElement

/-! ## C13: the thresholding output of THTST -/

section Threshold

variable {Acc : Type}

/-- C13 (as stated, refuted): scenario S4 (`t = 2.5`, input [1.0, 2.0, 3.0, 4.0]) leaves
[1.0, 2.0, 2.5, 2.5] at the destination, not [2.5, 2.5, 3.0, 4.0]: the values at or below the
threshold pass through and the larger ones are clamped. -/
theorem C13_counterexample :
    validDesc stdParams descS4 = true
      ∧ (List.range 4).map (fun i : Nat => finalWord
            (nstFuncModel stdParams exactFma descS4 (stateOf memS4 0)) (20 + 4 * (i : Int)))
          = [some 0x3F800000, some 0x40000000, some 0x40200000, some 0x40200000]
      ∧ loadWord memS4 0 = 0x40200000
      ∧ floatGe (fp32ToFloat 0x3F800000) (fp32ToFloat 0x40200000) = false := by
  refine ⟨by decide, by decide, by decide, by decide⟩

/-- C13 (amended): for THTST with `auxFunc = CMP_LE` (2), `polarity = 0`, the binary-out bit
clear, `innerLevel = initLevel = 0` and the threshold `t` loaded at init (`initSel < 3`), the
`auxFunc` codes being 0, 1, 2: an innermost iteration started in state `m`, with `x` the word
read through AGU 1, leaves at `agu[2]` the word `x` when `t >= x` and the word `t` otherwise,
so that values at or below the threshold pass through and larger ones are clamped to it;
without the address check the iteration returns. -/
theorem C13_thtst_clamp (C : NstParams) (d : NstDesc) (hC : AuxCodes C) (haux : d.auxFunc = 2)
    (hpol : d.polarity = false) (hin : d.innerLevel = 0) (hinit : d.initLevel = 0)
    (hsel : d.initSel < 3) (isLast : Bool) (m : NstState Acc) :
    (∀ m1, nstLooper C d (nstThTstOp C d) 0 isLast m = Except.ok m1 →
        loadWord m1.mem (m.agu 2)
          = if floatGe (fp32ToFloat (loadWord m.mem (m.agu d.initSel)))
                (fp32ToFloat (loadWord m.mem (m.agu 1))) = true
            then loadWord m.mem (m.agu 1) else loadWord m.mem (m.agu d.initSel))
      ∧ (d.checkTcdmAddrs = false →
          ∃ m1, nstLooper C d (nstThTstOp C d) 0 isLast m = Except.ok m1) := by
  obtain ⟨h0, h1, h2, _⟩ := hC
  constructor
  · intro m1 h
    rw [(nstLooper_same_element C d _ hinit hin isLast m m1 h).1]
    have hs : ¬ 3 ≤ d.initSel := by omega
    have e3 : (2 : Nat) &&& 3 = 2 := by decide
    have e4 : (2 : Nat) &&& 4 = 0 := by decide
    simp only [callStore, callExecute, callInit, nstThTstOp, loadInitSel, hs, if_false, haux, e3,
      e4, h0, h1, h2, hpol, Bool.xor_false, ne_eq, not_true_eq_false, OfNat.ofNat_ne_zero,
      OfNat.ofNat_ne_one, loadWord_storeWord_same]
    by_cases hg : floatGe (fp32ToFloat (loadWord m.mem (m.agu d.initSel)))
        (fp32ToFloat (loadWord m.mem (m.agu 1))) = true
    · simp only [hg, if_true]
      exact Nat.mod_eq_of_lt (loadWord_lt _ _)
    · simp only [hg, if_false]
      exact Nat.mod_eq_of_lt (loadWord_lt _ _)
  · intro hc
    exact nstLooper_total C d (nstThTstOp_frame C d) 0 (fun k hk => absurd hk (Nat.not_lt_zero k))
      hc isLast m

/-- C13 (amended) on the third element of S4 (`t = 2.5`, `x = 3.0`): the iteration returns and
stores the threshold 2.5. -/
theorem C13_thtst_clamp_witness :
    AuxCodes stdParams ∧ descS4.auxFunc = 2 ∧ descS4.polarity = false ∧ descS4.innerLevel = 0
      ∧ descS4.initLevel = 0 ∧ descS4.initSel < 3 ∧ descS4.checkTcdmAddrs = false
      ∧ ∃ m1, nstLooper stdParams descS4 (nstThTstOp stdParams descS4) 0 false
            { stateOf memS4 0 with agu := fun o => if o = 0 then 0 else if o = 1 then 12 else 28 }
            = Except.ok m1
          ∧ loadWord m1.mem 28 = 0x40200000 := by
  have hC : AuxCodes stdParams := by
    unfold AuxCodes
    decide
  refine ⟨hC, rfl, rfl, rfl, rfl, by decide, rfl, ?_⟩
  have hthm := C13_thtst_clamp stdParams descS4 hC rfl rfl rfl rfl (by decide) false
    { stateOf memS4 0 with agu := fun o => if o = 0 then 0 else if o = 1 then 12 else 28 }
  obtain ⟨m1, h⟩ := hthm.2 rfl
  refine ⟨m1, h, ?_⟩
  have hw := hthm.1 m1 h
  rw [show (28 : Int) = ({ stateOf memS4 0 with
    agu := fun o => if o = 0 then 0 else if o = 1 then 12 else 28 } : NstState Int).agu 2
    from rfl, hw]
  decide

end Threshold

/-! ## C19: VADDSUB with a primitive that meets the exact contract -/

/-- C19 (as stated, refuted): with init value 5.0, `A = 3.0` and `polarity = 1` the run stores
`-2.0` (`0xC0000000`), which is `A - init`, not `init - A = 2.0` (`0x40000000`): the polarity
negates the init term. With `polarity = 0` it stores `8.0`. -/
theorem C19_counterexample :
    validDesc stdParams (descAddSub true) = true
      ∧ loadWord memAddSub 4 = 0x40A00000 ∧ loadWord memAddSub 0 = 0x40400000
      ∧ finalWord (nstFuncModel stdParams exactFma (descAddSub true) (stateOf memAddSub 0)) 8
          = some 0xC0000000
      ∧ fp32Encode ((fp32Val 0x40A00000 - fp32Val 0x40400000) * 2 ^ 149) = 0x40000000
      ∧ finalWord (nstFuncModel stdParams exactFma (descAddSub false) (stateOf memAddSub 0)) 8
          = some 0x41000000 := by
  refine ⟨by decide, by decide, by decide, by decide, by decide, by decide⟩

theorem fp32Val_one : fp32Val C_FP32_ONE_VAL = 2 ^ 149 := by decide

theorem fp32Val_zero : fp32Val C_FP32_ZERO_VAL = 0 := by decide

theorem fp32Finite_one : fp32Finite C_FP32_ONE_VAL := by
  unfold fp32Finite
  decide

theorem fp32Finite_zero : fp32Finite C_FP32_ZERO_VAL := by
  unfold fp32Finite
  decide

/-- The primitive `exactFma` meets the exact contract, an accumulator holding its own value. -/
theorem exactFma_exact : ExactFmaContract exactFma (fun x => x) := by
  refine ⟨?_, ?_⟩
  · intro a b negate readout acc res _ _
    cases negate <;> simp [exactFma]
  · intro a b negate readout acc res _ _
    cases negate <;> simp [exactFma]

theorem exactFma_keepsRes : FmaKeepsRes exactFma := by
  intro a b firstOp negate acc res
  simp [exactFma]

/-- C19 (amended): for VADDSUB with `initSel < 3` and `innerLevel = initLevel = 0`, a primitive
that meets the exact contract (`V acc` the exact value an accumulator holds, scaled by `2^298`)
and leaves `*res` alone in a call without readout, and finite operands: an innermost iteration
started in state `m`, with `init` the word at `agu[initSel]` and `A` the word at `agu[0]`,
stores at `agu[2]` the word the primitive reads out of an accumulator that holds exactly
`init + A` when `polarity = 0` and `-init + A` when `polarity = 1` (the polarity negates the
init term, not the A term), replaced by `+0.0` when `auxFunc != 0` and its sign bit is set; the
accumulator still holds that value afterwards; and without the address check the iteration
returns. -/
theorem C19_vaddsub_exact {Acc : Type} (C : NstParams) (F : FmaPrim Acc) (V : Acc → Int)
    (hF : ExactFmaContract F V) (hres : FmaKeepsRes F) (d : NstDesc) (hsel : d.initSel < 3)
    (hin : d.innerLevel = 0) (hinit : d.initLevel = 0) (isLast : Bool) (m : NstState Acc)
    (hfi : fp32Finite (loadWord m.mem (m.agu d.initSel)))
    (hfa : fp32Finite (loadWord m.mem (m.agu 0))) :
    (∀ m1, nstLooper C d (nstVAddSubOp F d) 0 isLast m = Except.ok m1 →
        ∃ acc : Acc,
          V acc = ((if d.polarity = true then -(fp32Val (loadWord m.mem (m.agu d.initSel)))
                else fp32Val (loadWord m.mem (m.agu d.initSel)))
              + fp32Val (loadWord m.mem (m.agu 0))) * 2 ^ 149
            ∧ loadWord m1.mem (m.agu 2)
              = (if d.auxFunc ≠ 0
                    ∧ fp32_getSign ((F.pcsMac C_FP32_ZERO_VAL C_FP32_ZERO_VAL false false true acc
                        (loadWord m.mem (m.agu 2))).2 % 4294967296) = true
                then C_FP32_ZERO_VAL
                else (F.pcsMac C_FP32_ZERO_VAL C_FP32_ZERO_VAL false false true acc
                        (loadWord m.mem (m.agu 2))).2 % 4294967296)
            ∧ V m1.accuState = V acc)
      ∧ (d.checkTcdmAddrs = false →
          ∃ m1, nstLooper C d (nstVAddSubOp F d) 0 isLast m = Except.ok m1) := by
  obtain ⟨hfirst, hadd⟩ := hF
  constructor
  · intro m1 h
    obtain ⟨hm, ha⟩ := nstLooper_same_element C d _ hinit hin isLast m m1 h
    have hs : ¬ 3 ≤ d.initSel := by omega
    -- the state after init and execute
    have hinitS : callInit (nstVAddSubOp F d) m
        = { fmaPreload F d.initSel d.polarity m with
            trace := m.trace ++ [⟨EvKind.init, m.agu⟩] } := by
      simp only [callInit, nstVAddSubOp, hs, if_false]
    have hpre_mem : ∀ x, loadWord (fmaPreload F d.initSel d.polarity m).mem x
        = loadWord m.mem x := by
      intro x
      simp only [fmaPreload, hres _ _ _ _ _ _]
      exact loadWord_storeWord_self m.mem _ x
    have hpre_agu : (fmaPreload F d.initSel d.polarity m).agu = m.agu := rfl
    have hpre_V : V (fmaPreload F d.initSel d.polarity m).accuState
        = (if d.polarity = true then -(fp32Val (loadWord m.mem (m.agu d.initSel)))
            else fp32Val (loadWord m.mem (m.agu d.initSel))) * 2 ^ 149 := by
      simp only [fmaPreload]
      rw [hfirst _ _ _ _ _ _ hfi fp32Finite_one, fp32Val_one]
      split <;> ring
    let s2 := callExecute (nstVAddSubOp F d) (callInit (nstVAddSubOp F d) m)
    have hs2_mem : ∀ x, loadWord s2.mem x = loadWord m.mem x := by
      intro x
      show loadWord (callInit (nstVAddSubOp F d) m).mem x = loadWord m.mem x
      rw [hinitS]
      exact hpre_mem x
    have hs2_agu : s2.agu = m.agu := by
      show (callInit (nstVAddSubOp F d) m).agu = m.agu
      rw [hinitS]
      rfl
    have hs2_V : V s2.accuState
        = ((if d.polarity = true then -(fp32Val (loadWord m.mem (m.agu d.initSel)))
              else fp32Val (loadWord m.mem (m.agu d.initSel)))
            + fp32Val (loadWord m.mem (m.agu 0))) * 2 ^ 149 := by
      show V (F.pcsMac (loadWord (callInit (nstVAddSubOp F d) m).mem
          ((callInit (nstVAddSubOp F d) m).agu 0)) C_FP32_ONE_VAL false false false
          (callInit (nstVAddSubOp F d) m).accuState 0).1 = _
      rw [hinitS]
      simp only []
      rw [hpre_agu, hpre_mem, hadd _ _ _ _ _ _ hfa fp32Finite_one, hpre_V, fp32Val_one]
      simp only [Bool.false_eq_true, if_false]
      ring
    refine ⟨s2.accuState, hs2_V, ?_, ?_⟩
    · rw [hm]
      have hst : (callStore (nstVAddSubOp F d) s2).mem = (fmaStore F d s2).mem := rfl
      rw [hst, ← hs2_agu, fmaStore_word, hs2_mem]
    · rw [ha]
      show V (F.pcsMac C_FP32_ZERO_VAL C_FP32_ZERO_VAL false false true s2.accuState
        (loadWord s2.mem (s2.agu 2))).1 = V s2.accuState
      rw [hadd _ _ _ _ _ _ fp32Finite_zero fp32Finite_zero, fp32Val_zero]
      simp
  · intro hc
    exact nstLooper_total C d (nstVAddSubOp_frame F d) 0
      (fun k hk => absurd hk (Nat.not_lt_zero k)) hc isLast m

/-- C19 (amended) at init value 5.0, `A = 3.0`, `polarity = 1`, the primitive being the exact
one: the iteration returns and the word stored is the readout of `-5 + 3`, `-2.0`. -/
theorem C19_vaddsub_exact_witness :
    ExactFmaContract exactFma (fun x => x) ∧ FmaKeepsRes exactFma
      ∧ (descAddSub true).initSel < 3 ∧ (descAddSub true).innerLevel = 0
      ∧ (descAddSub true).initLevel = 0 ∧ (descAddSub true).checkTcdmAddrs = false
      ∧ fp32Finite (loadWord memAddSub ((descAddSub true).aguOff (descAddSub true).initSel))
      ∧ fp32Finite (loadWord memAddSub ((descAddSub true).aguOff 0))
      ∧ ∃ m1, nstLooper stdParams (descAddSub true) (nstVAddSubOp exactFma (descAddSub true)) 0
            true { stateOf memAddSub 0 with agu := (descAddSub true).aguOff } = Except.ok m1
          ∧ m1.accuState = (-2) * 2 ^ 298
          ∧ loadWord m1.mem 8 = 0xC0000000 := by
  have hf1 : fp32Finite (loadWord memAddSub ((descAddSub true).aguOff (descAddSub true).initSel))
      := by
    unfold fp32Finite
    decide
  have hf0 : fp32Finite (loadWord memAddSub ((descAddSub true).aguOff 0)) := by
    unfold fp32Finite
    decide
  refine ⟨exactFma_exact, exactFma_keepsRes, by decide, rfl, rfl, rfl, hf1, hf0, ?_⟩
  have hthm := C19_vaddsub_exact stdParams exactFma (fun x => x) exactFma_exact
    exactFma_keepsRes (descAddSub true) (by decide) rfl rfl true
    { stateOf memAddSub 0 with agu := (descAddSub true).aguOff } hf1 hf0
  obtain ⟨m1, h⟩ := hthm.2 rfl
  obtain ⟨acc, hacc, hword, hV⟩ := hthm.1 m1 h
  have hacc1 : acc = (-2) * 2 ^ 298 := by
    have e : acc = ((if (descAddSub true).polarity = true
        then -(fp32Val (loadWord memAddSub ((descAddSub true).aguOff (descAddSub true).initSel)))
        else fp32Val (loadWord memAddSub ((descAddSub true).aguOff (descAddSub true).initSel)))
      + fp32Val (loadWord memAddSub ((descAddSub true).aguOff 0))) * 2 ^ 149 := hacc
    rw [e]
    decide
  have hacc2 : m1.accuState = (-2) * 2 ^ 298 := by
    have e : m1.accuState = acc := hV
    rw [e, hacc1]
  refine ⟨m1, h, hacc2, ?_⟩
  rw [show (8 : Int) = ({ stateOf memAddSub 0 with agu := (descAddSub true).aguOff } :
    NstState Int).agu 2 from rfl, hword, hacc1]
  decide

/-! ## C18: a descriptor with all loop bounds 0 is a single scalar evaluation -/

/-- With every loop bound below `level` equal to 0, a last-iteration call of the looper at
`level` has at most one init event, one execute event and at most one store event, in this
order, all at the cursors of the call, and leaves the cursors alone. -/
theorem looperSem_scalar (C : NstParams) (d : NstDesc) :
    ∀ (level : Nat), (∀ k, k < level → d.loopBound k = 0) → ∀ (a : Nat → Int),
      looperSem C d level true a
        = ((if d.initLevel ≤ level then [⟨EvKind.init, a⟩] else [])
            ++ [⟨EvKind.execute, a⟩]
            ++ (if d.innerLevel ≤ level then [⟨EvKind.store, a⟩] else []), a) := by
  intro level
  induction level with
  | zero =>
    intro _ a
    simp [looperSem, initEv, storeEv, exitAgu]
  | succ l ih =>
    intro hb a
    have hl : d.loopBound l = 0 := hb l (Nat.lt_succ_self l)
    have hs := ih (fun k hk => hb k (Nat.lt_succ_of_lt hk)) a
    have h1 : loopSem (looperSem C d l) (d.loopBound l) (d.loopBound l + 1) 0 a
        = looperSem C d l true a := by
      rw [hl]
      simp [loopSem]
    simp only [looperSem, h1, hs, initEv, storeEv, exitAgu]
    by_cases hi : d.initLevel = l + 1
    · by_cases hn : d.innerLevel = l + 1
      · have e1 : ¬ d.initLevel ≤ l := by omega
        have e2 : ¬ d.innerLevel ≤ l := by omega
        simp [hi, hn]
      · by_cases hn2 : d.innerLevel ≤ l
        · have e1 : ¬ d.initLevel ≤ l := by omega
          have e3 : d.innerLevel ≤ l + 1 := by omega
          simp [hi, hn, hn2, e3]
        · have e3 : ¬ d.innerLevel ≤ l + 1 := by omega
          simp [hi, hn, hn2, e3]
    · by_cases hi2 : d.initLevel ≤ l
      · have e0 : d.initLevel ≤ l + 1 := by omega
        by_cases hn : d.innerLevel = l + 1
        · have e2 : ¬ d.innerLevel ≤ l := by omega
          simp [hi, hi2, e0, hn]
        · by_cases hn2 : d.innerLevel ≤ l
          · have e3 : d.innerLevel ≤ l + 1 := by omega
            simp [hi, hi2, e0, hn, hn2, e3]
          · have e3 : ¬ d.innerLevel ≤ l + 1 := by omega
            simp [hi, hi2, e0, hn, hn2, e3]
      · have e0 : ¬ d.initLevel ≤ l + 1 := by omega
        by_cases hn : d.innerLevel = l + 1
        · have e2 : ¬ d.innerLevel ≤ l := by omega
          simp [hi, hi2, e0, hn]
        · by_cases hn2 : d.innerLevel ≤ l
          · have e3 : d.innerLevel ≤ l + 1 := by omega
            simp [hi, hi2, e0, hn, hn2, e3]
          · have e3 : ¬ d.innerLevel ≤ l + 1 := by omega
            simp [hi, hi2, e0, hn, hn2, e3]

/-- C18 (as stated, refuted): the scalar descriptor `descScalarChecked` passes validation and
has all loop bounds (and strides) 0, yet its run is stopped by the first address assertion and
performs no init, no execute and no store. -/
theorem C18_counterexample :
    validDesc stdParams descScalarChecked = true
      ∧ (∀ k, descScalarChecked.loopBound k = 0)
      ∧ (∀ o l, descScalarChecked.aguStride o l = 0)
      ∧ isAddrAbort (nstFuncModel stdParams exactFma descScalarChecked (stateOf memAddSub 0))
          = true
      ∧ (runTrace (nstFuncModel stdParams exactFma descScalarChecked (stateOf memAddSub 0))).length
          = 0 := by
  refine ⟨by decide, fun _ => rfl, fun _ _ => rfl, by decide, by decide⟩

/-- C18 (amended): for every valid descriptor whose `loopBound` entries are all 0 and whose
start cursors pass the address check when it is on (`checkTcdmAddrs` clear, or every `aguOff`
inside `[tcdmLow, tcdmHigh]`), whatever the strides: the run completes, performs exactly one
init, then one execute, then one store, and every AGU cursor equals `aguOff` at each of the
three events and after the run. -/
theorem C18_scalar_run {Acc : Type} (C : NstParams) (F : FmaPrim Acc) (d : NstDesc)
    (m : NstState Acc) (hv : validDesc C d = true)
    (hb : ∀ k, k < C.C_N_HW_LOOPS → d.loopBound k = 0)
    (hr : d.checkTcdmAddrs = true → aguInRange d d.aguOff = true) :
    ∃ m1, nstFuncModel C F d m = Except.ok m1
      ∧ m1.trace = m.trace ++ [⟨EvKind.init, d.aguOff⟩, ⟨EvKind.execute, d.aguOff⟩,
          ⟨EvKind.store, d.aguOff⟩]
      ∧ m1.agu = d.aguOff := by
  obtain ⟨hs, _⟩ := (validDesc_iff C d).1 hv
  obtain ⟨h1, h2, h3, h4, _, _⟩ := (sanityChecks_iff C d).1 hs
  obtain ⟨op, _, hfr, hrun⟩ := nstFuncModel_valid C F d m hv
  have hb0 : ∀ k, k < d.outerLevel → d.loopBound k = 0 := fun k hk => hb k (by omega)
  have hsem := looperSem_scalar C d d.outerLevel hb0 d.aguOff
  simp only [h3, h2, if_true] at hsem
  have hspec := nstLooper_spec C d hfr d.outerLevel
    (fun k hk => by rw [hb0 k hk]; decide) true { m with agu := d.aguOff }
  rw [← hrun] at hspec
  have hsem2 : looperSem C d d.outerLevel true ({ m with agu := d.aguOff } : NstState Acc).agu
      = ([⟨EvKind.init, d.aguOff⟩] ++ [⟨EvKind.execute, d.aguOff⟩]
          ++ [⟨EvKind.store, d.aguOff⟩], d.aguOff) := hsem
  rw [hsem2] at hspec
  rcases hspec with ⟨m1, hr1, ht, ha, _⟩ | ⟨hc, mf, pre, post, _, _, _, hout, e, he, _, hea⟩
  · exact ⟨m1, hr1, ht, ha⟩
  · exfalso
    have hmem : e ∈ [(⟨EvKind.init, d.aguOff⟩ : Event)] ++ [⟨EvKind.execute, d.aguOff⟩]
        ++ [⟨EvKind.store, d.aguOff⟩] := by
      have : [(⟨EvKind.init, d.aguOff⟩ : Event)] ++ [⟨EvKind.execute, d.aguOff⟩]
        ++ [⟨EvKind.store, d.aguOff⟩] = pre ++ post := by assumption
      rw [this]
      exact List.mem_append_right pre he
    have hag : e.agu = d.aguOff := by
      simp only [List.mem_append, List.mem_singleton] at hmem
      rcases hmem with (h | h) | h <;> rw [h]
    rw [← hea, hag, hr hc] at hout
    cases hout

/-- C18 (amended) on the scalar VADDSUB descriptor `descAddSub false`: one init, one execute
and one store at the cursors 0, 4, 8. -/
theorem C18_scalar_run_witness :
    validDesc stdParams (descAddSub false) = true
      ∧ (∀ k, k < stdParams.C_N_HW_LOOPS → (descAddSub false).loopBound k = 0)
      ∧ ((descAddSub false).checkTcdmAddrs = true
          → aguInRange (descAddSub false) (descAddSub false).aguOff = true)
      ∧ ∃ m1, nstFuncModel stdParams exactFma (descAddSub false) (stateOf memAddSub 0)
            = Except.ok m1
          ∧ m1.trace = (stateOf memAddSub 0).trace
              ++ [⟨EvKind.init, (descAddSub false).aguOff⟩,
                ⟨EvKind.execute, (descAddSub false).aguOff⟩,
                ⟨EvKind.store, (descAddSub false).aguOff⟩]
          ∧ m1.agu = (descAddSub false).aguOff :=
  ⟨by decide, fun _ _ => rfl, fun h => absurd h (by decide),
    C18_scalar_run stdParams exactFma (descAddSub false) (stateOf memAddSub 0) (by decide)
      (fun _ _ => rfl) (fun h => absurd h (by decide))⟩

/-! ## C16: COPY as an elementwise identity -/

section CopyIdentity

variable {Acc : Type}

theorem visits_append (s t : List Event) : visits (s ++ t) = visits s ++ visits t := by
  simp [visits]

theorem copyWords_append (s t : List (Nat → Int)) (mem : Int → Nat) :
    copyWords (s ++ t) mem = copyWords t (copyWords s mem) := by
  simp [copyWords]

theorem copySpec_trans (m m1 : NstState Acc) (r : Except (NstFault Acc) (NstState Acc))
    (evs : List Event) (ht : m1.trace = m.trace ++ evs)
    (hm : m1.mem = copyWords (visits evs) m.mem) (h : CopySpec m1 r) : CopySpec m r := by
  obtain ⟨evs2, ht2, hm2⟩ := h
  refine ⟨evs ++ evs2, ?_, ?_⟩
  · rw [ht2, ht, List.append_assoc]
  · rw [hm2, hm, visits_append, copyWords_append]

theorem forLoop_copy (body : Bool → NstState Acc → Except (NstFault Acc) (NstState Acc))
    (H : ∀ b m, CopySpec m (body b m)) (bound : Nat) :
    ∀ (n k : Nat) (m : NstState Acc), CopySpec m (forLoop body bound n k m) := by
  intro n
  induction n with
  | zero =>
    intro k m
    exact ⟨[], by simp [forLoop, runTrace], by simp [forLoop, runMem, visits, copyWords]⟩
  | succ n ih =>
    intro k m
    obtain ⟨evs, ht, hm⟩ := H (k == bound) m
    cases hb : body (k == bound) m with
    | error e =>
      have hfl : forLoop body bound (n + 1) k m = Except.error e := by simp [forLoop, hb]
      rw [hfl, ← hb]
      exact ⟨evs, ht, hm⟩
    | ok m1 =>
      have hfl : forLoop body bound (n + 1) k m = forLoop body bound n (k + 1) m1 := by
        simp [forLoop, hb]
      rw [hfl]
      rw [hb] at ht hm
      exact copySpec_trans m m1 _ evs ht hm (ih (k + 1) m1)

theorem copy_enter (d : NstDesc) (haux : d.auxFunc &&& 1 = 1) (level : Nat) (m : NstState Acc) :
    (if d.initLevel = level then callInit (nstCopyOp d) m else m).trace
        = m.trace ++ initEv d level m.agu
      ∧ (if d.initLevel = level then callInit (nstCopyOp d) m else m).mem = m.mem
      ∧ (if d.initLevel = level then callInit (nstCopyOp d) m else m).agu = m.agu := by
  by_cases h : d.initLevel = level
  · simp [h, initEv, callInit, nstCopyOp, haux]
  · simp [h, initEv]

theorem visits_initEv (d : NstDesc) (level : Nat) (a : Nat → Int) :
    visits (initEv d level a) = [] := by
  unfold initEv visits
  split <;> simp

theorem nstLooper_copy (C : NstParams) (d : NstDesc) (haux : d.auxFunc &&& 1 = 1)
    (hin : d.innerLevel = 0) :
    ∀ (level : Nat) (isLast : Bool) (m : NstState Acc),
      CopySpec m (nstLooper C d (nstCopyOp d) level isLast m) := by
  intro level
  induction level with
  | zero =>
    intro isLast m
    rw [nstLooper_zero]
    rcases looperEnter_ok_or_fault d (nstCopyOp d) 0 m with ⟨_, he⟩ | ⟨_, _, he⟩
    · obtain ⟨ht, hm, ha⟩ := copy_enter d haux 0 m
      rw [he]
      generalize (if d.initLevel = 0 then callInit (nstCopyOp d) m else m) = m' at ht hm ha
      refine ⟨initEv d 0 m.agu ++ [⟨EvKind.execute, m.agu⟩, ⟨EvKind.store, m.agu⟩], ?_, ?_⟩
      · show (looperExit C d (nstCopyOp d) 0 isLast _).trace = _
        unfold looperExit
        simp only [hin, if_true]
        split <;> simp [aguUpdate, callStore, callExecute, ht, ha, nstCopyOp, haux]
      · show (looperExit C d (nstCopyOp d) 0 isLast _).mem = _
        rw [visits_append, visits_initEv]
        unfold looperExit
        simp only [hin, if_true]
        split <;> simp [aguUpdate, callStore, callExecute, hm, ha, nstCopyOp, haux, visits,
          copyWords]
    · rw [he]
      exact ⟨[], by simp [runTrace, NstFault.state], by simp [runMem, NstFault.state, visits,
        copyWords]⟩
  | succ l ih =>
    intro isLast m
    rw [nstLooper_succ]
    rcases looperEnter_ok_or_fault d (nstCopyOp d) (l + 1) m with ⟨_, he⟩ | ⟨_, _, he⟩
    · obtain ⟨ht, hm, ha⟩ := copy_enter d haux (l + 1) m
      rw [he]
      simp only []
      have hm0 : (if d.initLevel = l + 1 then callInit (nstCopyOp d) m else m).mem
          = copyWords (visits (initEv d (l + 1) m.agu)) m.mem := by
        rw [hm, visits_initEv]
        rfl
      by_cases hh : 4294967295 ≤ d.loopBound l
      · rw [if_pos hh]
        exact ⟨initEv d (l + 1) m.agu, ht, hm0⟩
      · rw [if_neg hh]
        have hfl := forLoop_copy (nstLooper C d (nstCopyOp d) l) (fun b m => ih b m)
          (d.loopBound l) (d.loopBound l + 1) 0
          (if d.initLevel = l + 1 then callInit (nstCopyOp d) m else m)
        refine copySpec_trans m _ _ _ ht hm0 ?_
        cases hf : forLoop (nstLooper C d (nstCopyOp d) l) (d.loopBound l) (d.loopBound l + 1) 0
            (if d.initLevel = l + 1 then callInit (nstCopyOp d) m else m) with
        | error e =>
          rw [hf] at hfl
          exact hfl
        | ok m2 =>
          rw [hf] at hfl
          obtain ⟨evs, ht2, hm2⟩ := hfl
          refine ⟨evs, ?_, ?_⟩
          · show (looperExit C d (nstCopyOp d) (l + 1) isLast m2).trace = _
            rw [← ht2]
            unfold looperExit
            have hne : ¬ d.innerLevel = l + 1 := by omega
            simp only [hne, if_false]
            split <;> simp [aguUpdate, runTrace]
          · show (looperExit C d (nstCopyOp d) (l + 1) isLast m2).mem = _
            rw [← hm2]
            unfold looperExit
            have hne : ¬ d.innerLevel = l + 1 := by omega
            simp only [hne, if_false]
            split <;> simp [aguUpdate, runMem]
    · rw [he]
      exact ⟨[], by simp [runTrace, NstFault.state], by simp [runMem, NstFault.state, visits,
        copyWords]⟩

/-- The words left by `copyWords`: when no source word overlaps a destination word, and any two
destination words either do not overlap or lie at the same displacement from their source
words, every destination word holds the source word of its visit. -/
theorem copyWords_spec (all : List (Nat → Int)) (mem0 : Int → Nat)
    (hsd : ∀ v ∈ all, ∀ w ∈ all, wordsDisjoint (v 0) (w 2))
    (hdd : ∀ v ∈ all, ∀ w ∈ all, wordsDisjoint (v 2) (w 2) ∨ v 0 - v 2 = w 0 - w 2) :
    ∀ vs : List (Nat → Int), (∀ v ∈ vs, v ∈ all) →
      (∀ v ∈ vs, ∀ q : Int, 0 ≤ q → q < 4 →
          copyWords vs mem0 (v 2 + q) % 256 = mem0 (v 0 + q) % 256)
        ∧ (∀ y : Int, (∀ w ∈ all, ¬ (w 2 ≤ y ∧ y < w 2 + 4)) →
          copyWords vs mem0 y % 256 = mem0 y % 256) := by
  intro vs
  induction vs using List.reverseRecOn with
  | nil =>
    intro _
    exact ⟨fun v hv => absurd hv (List.not_mem_nil v), fun _ _ => rfl⟩
  | append_singleton init w ih =>
    intro hsub
    have hw : w ∈ all := hsub w (by simp)
    obtain ⟨iha, ihb⟩ := ih (fun v hv => hsub v (by simp [hv]))
    have hstep : ∀ y : Int, copyWords (init ++ [w]) mem0 y % 256
        = if w 2 ≤ y ∧ y < w 2 + 4 then copyWords init mem0 (y + (w 0 - w 2)) % 256
          else copyWords init mem0 y % 256 := by
      intro y
      rw [copyWords_append]
      exact storeWord_loadWord_byte (copyWords init mem0) (w 0) (w 2) y
    constructor
    · intro v hv q hq0 hq4
      have hvall : v ∈ all := hsub v hv
      rw [hstep]
      by_cases hc : w 2 ≤ v 2 + q ∧ v 2 + q < w 2 + 4
      · rw [if_pos hc]
        have hz : copyWords init mem0 (v 2 + q + (w 0 - w 2)) % 256
            = mem0 (v 2 + q + (w 0 - w 2)) % 256 := by
          apply ihb
          intro u hu
          have := hsd w hw u hu
          unfold wordsDisjoint at this
          omega
        rw [hz]
        have hd := hdd v hvall w hw
        unfold wordsDisjoint at hd
        have e : v 2 + q + (w 0 - w 2) = v 0 + q := by omega
        rw [e]
      · rw [if_neg hc]
        rcases List.mem_append.1 hv with h | h
        · exact iha v h q hq0 hq4
        · have : v = w := by simpa using h
          subst this
          omega
    · intro y hy
      rw [hstep, if_neg (hy w hw)]
      exact ihb y hy

/-- C16: for COPY with `auxFunc & 1 = 1` and `innerLevel = 0`, a valid descriptor, the elements
visited being those of the run without address check; when no source word visited overlaps a
destination word visited (source and destination regions disjoint) and any two destination
words visited either do not overlap or lie at the same displacement from their source words
(equal strides, or a destination that does not revisit a word): the run ends, completed or
stopped by an address assertion, the elements it has visited are the first ones of the
unchecked run, all of them if it is not stopped, and at its end the destination word of every
visit equals the source word of that visit in the memory before the run, whatever `initSel`
and the registers before the run. -/
theorem C16_copy_identity (C : NstParams) (F : FmaPrim Acc) (d : NstDesc) (m : NstState Acc)
    (hW : C.C_HW_LOOP_WIDTH < 32) (hv : validDesc C d = true)
    (hop : selectOp C F d = some (nstCopyOp d)) (haux : d.auxFunc &&& 1 = 1)
    (hin : d.innerLevel = 0)
    (hsd : ∀ v ∈ visits (looperSem C d d.outerLevel true d.aguOff).1,
      ∀ w ∈ visits (looperSem C d d.outerLevel true d.aguOff).1, wordsDisjoint (v 0) (w 2))
    (hdd : ∀ v ∈ visits (looperSem C d d.outerLevel true d.aguOff).1,
      ∀ w ∈ visits (looperSem C d d.outerLevel true d.aguOff).1,
        wordsDisjoint (v 2) (w 2) ∨ v 0 - v 2 = w 0 - w 2) :
    ∃ evs rest, runTrace (nstFuncModel C F d m) = m.trace ++ evs
      ∧ (looperSem C d d.outerLevel true d.aguOff).1 = evs ++ rest
      ∧ (isAddrAbort (nstFuncModel C F d m) = false →
          rest = [] ∧ ∃ m1, nstFuncModel C F d m = Except.ok m1)
      ∧ ∀ v ∈ visits evs,
          loadWord (runMem (nstFuncModel C F d m)) (v 2) = loadWord m.mem (v 0) := by
  obtain ⟨op, hsel, _, hrun⟩ := nstFuncModel_valid C F d m hv
  rw [hop] at hsel
  cases hsel
  obtain ⟨evs, ht, hm⟩ := nstLooper_copy C d haux hin d.outerLevel true
    ({ m with agu := d.aguOff } : NstState Acc)
  rw [← hrun] at ht hm
  have hpre : ∃ rest, (looperSem C d d.outerLevel true d.aguOff).1 = evs ++ rest
      ∧ (isAddrAbort (nstFuncModel C F d m) = false →
          rest = [] ∧ ∃ m1, nstFuncModel C F d m = Except.ok m1) := by
    rcases nstFuncModel_spec C F d m hW hv with
      ⟨m1, hr, ht1, _, _⟩ | ⟨_, mf, pre, post, hr, hs, ht1, _⟩
    · refine ⟨[], ?_, fun _ => ⟨rfl, m1, hr⟩⟩
      rw [hr] at ht
      have : m.trace ++ (looperSem C d d.outerLevel true d.aguOff).1 = m.trace ++ evs := by
        rw [← ht1]
        exact ht
      rw [List.append_nil]
      exact List.append_cancel_left this
    · refine ⟨post, ?_, ?_⟩
      · rw [hr] at ht
        have : m.trace ++ pre = m.trace ++ evs := by
          rw [← ht1]
          exact ht
        rw [hs, List.append_cancel_left this]
      · intro hna
        rw [hr] at hna
        cases hna
  obtain ⟨rest, hfull, hcomp⟩ := hpre
  refine ⟨evs, rest, ht, hfull, hcomp, ?_⟩
  intro v hvis
  have hsub : ∀ u ∈ visits evs, u ∈ visits (looperSem C d d.outerLevel true d.aguOff).1 := by
    intro u hu
    rw [hfull, visits_append]
    exact List.mem_append_left _ hu
  have hb := (copyWords_spec _ m.mem hsd hdd (visits evs) hsub).1 v hvis
  rw [hm]
  exact loadWord_congr _ _ _ _ hb

/-- C16 on scenario S6 (the 2x4 tile of a 2x6 matrix, copied to a contiguous destination): the
eight visits have pairwise disjoint destination words, none of which overlaps a source word. -/
theorem C16_copy_identity_witness :
    stdParams.C_HW_LOOP_WIDTH < 32 ∧ validDesc stdParams descS6 = true
      ∧ selectOp stdParams exactFma descS6 = some (nstCopyOp descS6)
      ∧ descS6.auxFunc &&& 1 = 1 ∧ descS6.innerLevel = 0
      ∧ (∀ v ∈ visits (looperSem stdParams descS6 descS6.outerLevel true descS6.aguOff).1,
          ∀ w ∈ visits (looperSem stdParams descS6 descS6.outerLevel true descS6.aguOff).1,
            wordsDisjoint (v 0) (w 2))
      ∧ (∀ v ∈ visits (looperSem stdParams descS6 descS6.outerLevel true descS6.aguOff).1,
          ∀ w ∈ visits (looperSem stdParams descS6 descS6.outerLevel true descS6.aguOff).1,
            wordsDisjoint (v 2) (w 2) ∨ v 0 - v 2 = w 0 - w 2)
      ∧ ∃ evs rest,
          runTrace (nstFuncModel stdParams exactFma descS6 (stateOf memS6 0))
              = (stateOf memS6 0).trace ++ evs
            ∧ (looperSem stdParams descS6 descS6.outerLevel true descS6.aguOff).1 = evs ++ rest
            ∧ (isAddrAbort (nstFuncModel stdParams exactFma descS6 (stateOf memS6 0)) = false →
                rest = [] ∧ ∃ m1, nstFuncModel stdParams exactFma descS6 (stateOf memS6 0)
                  = Except.ok m1)
            ∧ ∀ v ∈ visits evs,
                loadWord (runMem (nstFuncModel stdParams exactFma descS6 (stateOf memS6 0))) (v 2)
                  = loadWord (stateOf memS6 0).mem (v 0) :=
  ⟨by decide, by decide, rfl, by decide, rfl, by decide, by decide,
    C16_copy_identity stdParams exactFma descS6 (stateOf memS6 0) (by decide) (by decide) rfl
      (by decide) rfl (by decide) (by decide)⟩

end CopyIdentity

/-! ## C17: what a run takes over from the registers left by earlier runs -/

section Registers

variable {Acc : Type}

theorem Agree_mono {k1 k2 : RegMask} (h : RegMask.le k1 k2) {m m' : NstState Acc}
    (ha : Agree k2 m m') : Agree k1 m m' := by
  obtain ⟨h1, h2, h3, h4, h5, h6⟩ := h
  obtain ⟨a1, a2, a3, a4, a5, a6, a7, a8⟩ := ha
  exact ⟨a1, a2, fun x => a3 (h1 x), fun x => a4 (h2 x), fun x => a5 (h3 x), fun x => a6 (h4 x),
    fun x => a7 (h5 x), fun x => a8 (h6 x)⟩

theorem Agree_none {k : RegMask} {m m' : NstState Acc} (ha : Agree k m m') :
    Agree RegMask.none m m' :=
  ⟨ha.1, ha.2.1, (fun x => by cases x), (fun x => by cases x), (fun x => by cases x),
    (fun x => by cases x), (fun x => by cases x), (fun x => by cases x)⟩

theorem Agree_aguUpdate (C : NstParams) (d : NstDesc) (level : Nat) {k : RegMask}
    {m m' : NstState Acc} (ha : Agree k m m') :
    Agree k (aguUpdate C d level m) (aguUpdate C d level m') := by
  obtain ⟨a1, a2, a3⟩ := ha
  refine ⟨a1, ?_, a3⟩
  show aguStep C d level m.agu = aguStep C d level m'.agu
  rw [a2]

theorem SameOutcome_mem {Q : NstState Acc → NstState Acc → Prop}
    (hQ : ∀ a b, Q a b → a.mem = b.mem) {r r' : Except (NstFault Acc) (NstState Acc)}
    (h : SameOutcome Q r r') :
    runMem r = runMem r' ∧ isAddrAbort r = isAddrAbort r'
      ∧ ((∃ a, r = Except.ok a) ↔ (∃ b, r' = Except.ok b)) := by
  cases r with
  | ok a =>
    cases r' with
    | ok b => exact ⟨hQ a b h, rfl, ⟨fun _ => ⟨b, rfl⟩, fun _ => ⟨a, rfl⟩⟩⟩
    | error e => cases e <;> exact False.elim h
  | error e =>
    cases r' with
    | ok b => cases e <;> exact False.elim h
    | error e' =>
      cases e <;> cases e' <;>
        first
          | exact False.elim h
          | exact ⟨h, rfl, ⟨(fun ⟨_, hx⟩ => by cases hx), (fun ⟨_, hx⟩ => by cases hx)⟩⟩

theorem looperEnter_rel (d : NstDesc) (op : nstInternalOp Acc) (level : Nat)
    (m m' : NstState Acc) (ha : m.agu = m'.agu) :
    (looperEnter d op level m = Except.ok (if d.initLevel = level then callInit op m else m)
        ∧ looperEnter d op level m'
          = Except.ok (if d.initLevel = level then callInit op m' else m'))
      ∨ (looperEnter d op level m = Except.error (NstFault.aguRange m)
        ∧ looperEnter d op level m' = Except.error (NstFault.aguRange m')) := by
  unfold looperEnter
  rw [← ha]
  by_cases hc : (d.checkTcdmAddrs && !aguInRange d m.agu) = true
  · right
    simp [hc]
  · left
    simp [hc]

theorem forLoop_step (body : Bool → NstState Acc → Except (NstFault Acc) (NstState Acc))
    (bound n k : Nat) (m : NstState Acc) :
    forLoop body bound (n + 1) k m
      = match body (k == bound) m with
        | Except.error e => Except.error e
        | Except.ok m1 => forLoop body bound n (k + 1) m1 := rfl

theorem forLoop_rel (body : Bool → NstState Acc → Except (NstFault Acc) (NstState Acc))
    (P Q : NstState Acc → NstState Acc → Prop) (hQP : ∀ a b, Q a b → P a b)
    (H : ∀ b m m', P m m' → SameOutcome Q (body b m) (body b m')) (bound : Nat) :
    ∀ (n k : Nat) (m m' : NstState Acc), P m m' →
      SameOutcome Q (forLoop body bound (n + 1) k m) (forLoop body bound (n + 1) k m') := by
  intro n
  induction n with
  | zero =>
    intro k m m' hp
    have h := H (k == bound) m m' hp
    rw [forLoop_step body bound 0 k m, forLoop_step body bound 0 k m']
    cases hb : body (k == bound) m with
    | ok a =>
      cases hb' : body (k == bound) m' with
      | ok b =>
        rw [hb, hb'] at h
        exact h
      | error e =>
        rw [hb, hb'] at h
        cases e <;> exact False.elim h
    | error e =>
      cases hb' : body (k == bound) m' with
      | ok b =>
        rw [hb, hb'] at h
        cases e <;> exact False.elim h
      | error e' =>
        rw [hb, hb'] at h
        exact h
  | succ n ih =>
    intro k m m' hp
    have h := H (k == bound) m m' hp
    rw [forLoop_step body bound (n + 1) k m, forLoop_step body bound (n + 1) k m']
    cases hb : body (k == bound) m with
    | ok a =>
      cases hb' : body (k == bound) m' with
      | ok b =>
        rw [hb, hb'] at h
        exact ih (k + 1) a b (hQP a b h)
      | error e =>
        rw [hb, hb'] at h
        cases e <;> exact False.elim h
    | error e =>
      cases hb' : body (k == bound) m' with
      | ok b =>
        rw [hb, hb'] at h
        cases e <;> exact False.elim h
      | error e' =>
        rw [hb, hb'] at h
        exact h

theorem looperExit_rel (C : NstParams) (d : NstDesc) {op : nstInternalOp Acc} {k1 k2 : RegMask}
    (hop : Hygienic op k1 k2) (level : Nat) (isLast : Bool) (m m' : NstState Acc)
    (h : Agree k2 m m') :
    Agree k2 (looperExit C d op level isLast m) (looperExit C d op level isLast m') := by
  have hs : Agree k2 (if d.innerLevel = level then callStore op m else m)
      (if d.innerLevel = level then callStore op m' else m') := by
    by_cases hl : d.innerLevel = level
    · rw [if_pos hl, if_pos hl]
      exact hop.2.2.2 m m' h
    · rw [if_neg hl, if_neg hl]
      exact h
  unfold looperExit
  by_cases hu : level < C.C_N_HW_LOOPS ∧ isLast = false
  · simp only [hu, and_self, if_true]
    exact Agree_aguUpdate C d level hs
  · simp only [hu, if_false]
    exact hs

theorem enter_rel (d : NstDesc) {op : nstInternalOp Acc} {k1 k2 : RegMask}
    (hop : Hygienic op k1 k2) (level : Nat) (m m' : NstState Acc)
    (h : if level < d.initLevel then Agree k1 m m' else Agree RegMask.none m m') :
    if level ≤ d.initLevel
    then Agree k1 (if d.initLevel = level then callInit op m else m)
      (if d.initLevel = level then callInit op m' else m')
    else Agree RegMask.none (if d.initLevel = level then callInit op m else m)
      (if d.initLevel = level then callInit op m' else m') := by
  by_cases h1 : d.initLevel = level
  · have h2 : ¬ level < d.initLevel := by omega
    have h3 : level ≤ d.initLevel := by omega
    rw [if_neg h2] at h
    rw [if_pos h3, if_pos h1, if_pos h1]
    exact hop.2.1 m m' h
  · rw [if_neg h1, if_neg h1]
    by_cases h2 : level < d.initLevel
    · rw [if_pos h2] at h
      rw [if_pos (by omega)]
      exact h
    · rw [if_neg h2] at h
      rw [if_neg (by omega)]
      exact h

/-- Two calls of the looper on states that agree on memory and cursors, and inside an init
window also on the registers `init` has set, end the same way and agree on the registers of
`k2`. -/
theorem nstLooper_rel (C : NstParams) (d : NstDesc) {op : nstInternalOp Acc} {k1 k2 : RegMask}
    (hop : Hygienic op k1 k2) :
    ∀ (level : Nat) (isLast : Bool) (m m' : NstState Acc),
      (if level < d.initLevel then Agree k1 m m' else Agree RegMask.none m m') →
      SameOutcome (Agree k2) (nstLooper C d op level isLast m)
        (nstLooper C d op level isLast m') := by
  intro level
  induction level with
  | zero =>
    intro isLast m m' hpre
    have hagu : m.agu = m'.agu := by
      split at hpre
      · exact hpre.2.1
      · exact hpre.2.1
    have hen := enter_rel d hop 0 m m' hpre
    rw [if_pos (Nat.zero_le _)] at hen
    rw [nstLooper_zero, nstLooper_zero]
    rcases looperEnter_rel d op 0 m m' hagu with ⟨e1, e2⟩ | ⟨e1, e2⟩
    · rw [e1, e2]
      exact looperExit_rel C d hop 0 isLast _ _ (hop.2.2.1 _ _ hen)
    · rw [e1, e2]
      split at hpre
      · exact hpre.1
      · exact hpre.1
  | succ l ih =>
    intro isLast m m' hpre
    have hagu : m.agu = m'.agu := by
      split at hpre
      · exact hpre.2.1
      · exact hpre.2.1
    have hmem : m.mem = m'.mem := by
      split at hpre
      · exact hpre.1
      · exact hpre.1
    have hen := enter_rel d hop (l + 1) m m' hpre
    have hen2 : if l < d.initLevel
        then Agree k1 (if d.initLevel = l + 1 then callInit op m else m)
          (if d.initLevel = l + 1 then callInit op m' else m')
        else Agree RegMask.none (if d.initLevel = l + 1 then callInit op m else m)
          (if d.initLevel = l + 1 then callInit op m' else m') := by
      by_cases hl : l < d.initLevel
      · rw [if_pos hl]
        rw [if_pos (by omega)] at hen
        exact hen
      · rw [if_neg hl]
        rw [if_neg (by omega)] at hen
        exact hen
    rw [nstLooper_succ, nstLooper_succ]
    rcases looperEnter_rel d op (l + 1) m m' hagu with ⟨e1, e2⟩ | ⟨e1, e2⟩
    · rw [e1, e2]
      simp only []
      by_cases hh : 4294967295 ≤ d.loopBound l
      · rw [if_pos hh, if_pos hh]
        show (if d.initLevel = l + 1 then callInit op m else m).mem
          = (if d.initLevel = l + 1 then callInit op m' else m').mem
        split at hen2
        · exact hen2.1
        · exact hen2.1
      · rw [if_neg hh, if_neg hh]
        have hfl := forLoop_rel (nstLooper C d op l)
          (fun a b => if l < d.initLevel then Agree k1 a b else Agree RegMask.none a b)
          (Agree k2)
          (fun a b hq => by
            show if l < d.initLevel then Agree k1 a b else Agree RegMask.none a b
            split
            · exact Agree_mono hop.1 hq
            · exact Agree_none hq)
          (fun b a a' hp => ih b a a' hp) (d.loopBound l) (d.loopBound l) 0 _ _ hen2
        cases hf : forLoop (nstLooper C d op l) (d.loopBound l) (d.loopBound l + 1) 0
            (if d.initLevel = l + 1 then callInit op m else m) with
        | ok a =>
          cases hf' : forLoop (nstLooper C d op l) (d.loopBound l) (d.loopBound l + 1) 0
              (if d.initLevel = l + 1 then callInit op m' else m') with
          | ok b =>
            rw [hf, hf'] at hfl
            exact looperExit_rel C d hop (l + 1) isLast a b hfl
          | error e =>
            rw [hf, hf'] at hfl
            cases e <;> exact False.elim hfl
        | error e =>
          cases hf' : forLoop (nstLooper C d op l) (d.loopBound l) (d.loopBound l + 1) 0
              (if d.initLevel = l + 1 then callInit op m' else m') with
          | ok b =>
            rw [hf, hf'] at hfl
            cases e <;> exact False.elim hfl
          | error e' =>
            rw [hf, hf'] at hfl
            exact hfl
    · rw [e1, e2]
      exact hmem

end Registers

/-! ### The registers each kernel reads and writes -/

section Kernels

variable {Acc : Type}

theorem nstMacOp_hygienic (F : FmaPrim Acc) (hF : FmaFirstOpContract F) (d : NstDesc) :
    Hygienic (nstMacOp F d : nstInternalOp Acc) ⟨true, false, false, false, false, false⟩
      ⟨true, false, false, false, false, false⟩ := by
  refine ⟨by simp [RegMask.le], ?_, ?_, ?_⟩
  · rintro ⟨agu, acc, alu, cnt, idx, tst, opA, opB, mem, tr⟩
      ⟨agu', acc', alu', cnt', idx', tst', opA', opB', mem', tr'⟩
      ⟨hm, ha, hacc, halu, hcnt, htst, hopA, hopB⟩
    simp only [forall_const, RegMask.none, false_implies, Bool.false_eq_true]
      at hm ha hacc halu hcnt htst hopA hopB
    subst_vars
    simp only [Agree, nstMacOp, fmaPreload, fmaStore]
    split
    · simp
    · rw [hF _ _ _ _ acc acc']
      simp
  · rintro ⟨agu, acc, alu, cnt, idx, tst, opA, opB, mem, tr⟩
      ⟨agu', acc', alu', cnt', idx', tst', opA', opB', mem', tr'⟩
      ⟨hm, ha, hacc, halu, hcnt, htst, hopA, hopB⟩
    simp only [forall_const, RegMask.none, false_implies, Bool.false_eq_true]
      at hm ha hacc halu hcnt htst hopA hopB
    subst_vars
    simp only [Agree, nstMacOp, fmaPreload, fmaStore]
    simp
  · rintro ⟨agu, acc, alu, cnt, idx, tst, opA, opB, mem, tr⟩
      ⟨agu', acc', alu', cnt', idx', tst', opA', opB', mem', tr'⟩
      ⟨hm, ha, hacc, halu, hcnt, htst, hopA, hopB⟩
    simp only [forall_const, RegMask.none, false_implies, Bool.false_eq_true]
      at hm ha hacc halu hcnt htst hopA hopB
    subst_vars
    simp only [Agree, nstMacOp, fmaPreload, fmaStore]
    simp

theorem nstVAddSubOp_hygienic (F : FmaPrim Acc) (hF : FmaFirstOpContract F) (d : NstDesc) :
    Hygienic (nstVAddSubOp F d : nstInternalOp Acc) ⟨true, false, false, false, false, false⟩
      ⟨true, false, false, false, false, false⟩ := by
  refine ⟨by simp [RegMask.le], ?_, ?_, ?_⟩
  · rintro ⟨agu, acc, alu, cnt, idx, tst, opA, opB, mem, tr⟩
      ⟨agu', acc', alu', cnt', idx', tst', opA', opB', mem', tr'⟩
      ⟨hm, ha, hacc, halu, hcnt, htst, hopA, hopB⟩
    simp only [forall_const, RegMask.none, false_implies, Bool.false_eq_true]
      at hm ha hacc halu hcnt htst hopA hopB
    subst_vars
    simp only [Agree, nstVAddSubOp, fmaPreload, fmaStore]
    split
    · simp
    · rw [hF _ _ _ _ acc acc']
      simp
  · rintro ⟨agu, acc, alu, cnt, idx, tst, opA, opB, mem, tr⟩
      ⟨agu', acc', alu', cnt', idx', tst', opA', opB', mem', tr'⟩
      ⟨hm, ha, hacc, halu, hcnt, htst, hopA, hopB⟩
    simp only [forall_const, RegMask.none, false_implies, Bool.false_eq_true]
      at hm ha hacc halu hcnt htst hopA hopB
    subst_vars
    simp only [Agree, nstVAddSubOp, fmaPreload, fmaStore]
    simp
  · rintro ⟨agu, acc, alu, cnt, idx, tst, opA, opB, mem, tr⟩
      ⟨agu', acc', alu', cnt', idx', tst', opA', opB', mem', tr'⟩
      ⟨hm, ha, hacc, halu, hcnt, htst, hopA, hopB⟩
    simp only [forall_const, RegMask.none, false_implies, Bool.false_eq_true]
      at hm ha hacc halu hcnt htst hopA hopB
    subst_vars
    simp only [Agree, nstVAddSubOp, fmaPreload, fmaStore]
    simp

theorem nstVMultOp_hygienic (F : FmaPrim Acc) (hF : FmaFirstOpContract F) (d : NstDesc) :
    Hygienic (nstVMultOp F d : nstInternalOp Acc) ⟨false, false, false, false, false, false⟩
      ⟨true, false, false, false, false, false⟩ := by
  refine ⟨by simp [RegMask.le], ?_, ?_, ?_⟩
  · rintro ⟨agu, acc, alu, cnt, idx, tst, opA, opB, mem, tr⟩
      ⟨agu', acc', alu', cnt', idx', tst', opA', opB', mem', tr'⟩
      ⟨hm, ha, hacc, halu, hcnt, htst, hopA, hopB⟩
    simp only [forall_const, RegMask.none, false_implies, Bool.false_eq_true]
      at hm ha hacc halu hcnt htst hopA hopB
    subst_vars
    simp only [Agree, nstVMultOp, fmaStore]
    simp
  · rintro ⟨agu, acc, alu, cnt, idx, tst, opA, opB, mem, tr⟩
      ⟨agu', acc', alu', cnt', idx', tst', opA', opB', mem', tr'⟩
      ⟨hm, ha, hacc, halu, hcnt, htst, hopA, hopB⟩
    simp only [forall_const, RegMask.none, false_implies, Bool.false_eq_true]
      at hm ha hacc halu hcnt htst hopA hopB
    subst_vars
    simp only [Agree, nstVMultOp, fmaStore]
    rw [hF _ _ _ _ acc acc']
    simp
  · rintro ⟨agu, acc, alu, cnt, idx, tst, opA, opB, mem, tr⟩
      ⟨agu', acc', alu', cnt', idx', tst', opA', opB', mem', tr'⟩
      ⟨hm, ha, hacc, halu, hcnt, htst, hopA, hopB⟩
    simp only [forall_const, RegMask.none, false_implies, Bool.false_eq_true]
      at hm ha hacc halu hcnt htst hopA hopB
    subst_vars
    simp only [Agree, nstVMultOp, fmaStore]
    simp

theorem nstOuterPOp_hygienic (F : FmaPrim Acc) (d : NstDesc) :
    Hygienic (nstOuterPOp F d : nstInternalOp Acc) ⟨true, true, false, false, false, false⟩
      ⟨true, true, false, false, false, false⟩ := by
  refine ⟨by simp [RegMask.le], ?_, ?_, ?_⟩
  · rintro ⟨agu, acc, alu, cnt, idx, tst, opA, opB, mem, tr⟩
      ⟨agu', acc', alu', cnt', idx', tst', opA', opB', mem', tr'⟩
      ⟨hm, ha, hacc, halu, hcnt, htst, hopA, hopB⟩
    simp only [forall_const, RegMask.none, false_implies, Bool.false_eq_true]
      at hm ha hacc halu hcnt htst hopA hopB
    subst_vars
    simp only [Agree, nstOuterPOp, fmaStore, loadInitSel]
    simp
  · rintro ⟨agu, acc, alu, cnt, idx, tst, opA, opB, mem, tr⟩
      ⟨agu', acc', alu', cnt', idx', tst', opA', opB', mem', tr'⟩
      ⟨hm, ha, hacc, halu, hcnt, htst, hopA, hopB⟩
    simp only [forall_const, RegMask.none, false_implies, Bool.false_eq_true]
      at hm ha hacc halu hcnt htst hopA hopB
    subst_vars
    simp only [Agree, nstOuterPOp, fmaStore, loadInitSel]
    simp
  · rintro ⟨agu, acc, alu, cnt, idx, tst, opA, opB, mem, tr⟩
      ⟨agu', acc', alu', cnt', idx', tst', opA', opB', mem', tr'⟩
      ⟨hm, ha, hacc, halu, hcnt, htst, hopA, hopB⟩
    simp only [forall_const, RegMask.none, false_implies, Bool.false_eq_true]
      at hm ha hacc halu hcnt htst hopA hopB
    subst_vars
    simp only [Agree, nstOuterPOp, fmaStore, loadInitSel]
    simp

theorem nstMaxMinOp_hygienic (d : NstDesc) (haux : d.auxFunc = 0) :
    Hygienic (nstMaxMinOp d : nstInternalOp Acc) ⟨false, true, true, false, false, false⟩
      ⟨false, true, true, false, false, false⟩ := by
  refine ⟨by simp [RegMask.le], ?_, ?_, ?_⟩
  · rintro ⟨agu, acc, alu, cnt, idx, tst, opA, opB, mem, tr⟩
      ⟨agu', acc', alu', cnt', idx', tst', opA', opB', mem', tr'⟩
      ⟨hm, ha, hacc, halu, hcnt, htst, hopA, hopB⟩
    simp only [forall_const, RegMask.none, false_implies, Bool.false_eq_true]
      at hm ha hacc halu hcnt htst hopA hopB
    subst_vars
    simp only [Agree, nstMaxMinOp, loadInitSel, haux]
    simp
  · rintro ⟨agu, acc, alu, cnt, idx, tst, opA, opB, mem, tr⟩
      ⟨agu', acc', alu', cnt', idx', tst', opA', opB', mem', tr'⟩
      ⟨hm, ha, hacc, halu, hcnt, htst, hopA, hopB⟩
    simp only [forall_const, RegMask.none, false_implies, Bool.false_eq_true]
      at hm ha hacc halu hcnt htst hopA hopB
    subst_vars
    simp only [Agree, nstMaxMinOp, loadInitSel, haux]
    split <;> simp
  · rintro ⟨agu, acc, alu, cnt, idx, tst, opA, opB, mem, tr⟩
      ⟨agu', acc', alu', cnt', idx', tst', opA', opB', mem', tr'⟩
      ⟨hm, ha, hacc, halu, hcnt, htst, hopA, hopB⟩
    simp only [forall_const, RegMask.none, false_implies, Bool.false_eq_true]
      at hm ha hacc halu hcnt htst hopA hopB
    subst_vars
    simp only [Agree, nstMaxMinOp, loadInitSel, haux]
    simp

theorem nstThTstOp_hygienic (C : NstParams) (d : NstDesc) :
    Hygienic (nstThTstOp C d : nstInternalOp Acc) ⟨false, true, false, false, false, false⟩
      ⟨false, true, false, true, false, true⟩ := by
  refine ⟨by simp [RegMask.le], ?_, ?_, ?_⟩
  · rintro ⟨agu, acc, alu, cnt, idx, tst, opA, opB, mem, tr⟩
      ⟨agu', acc', alu', cnt', idx', tst', opA', opB', mem', tr'⟩
      ⟨hm, ha, hacc, halu, hcnt, htst, hopA, hopB⟩
    simp only [forall_const, RegMask.none, false_implies, Bool.false_eq_true]
      at hm ha hacc halu hcnt htst hopA hopB
    subst_vars
    simp only [Agree, nstThTstOp, loadInitSel]
    simp
  · rintro ⟨agu, acc, alu, cnt, idx, tst, opA, opB, mem, tr⟩
      ⟨agu', acc', alu', cnt', idx', tst', opA', opB', mem', tr'⟩
      ⟨hm, ha, hacc, halu, hcnt, htst, hopA, hopB⟩
    simp only [forall_const, RegMask.none, false_implies, Bool.false_eq_true]
      at hm ha hacc halu hcnt htst hopA hopB
    subst_vars
    simp only [Agree, nstThTstOp, loadInitSel]
    simp
  · rintro ⟨agu, acc, alu, cnt, idx, tst, opA, opB, mem, tr⟩
      ⟨agu', acc', alu', cnt', idx', tst', opA', opB', mem', tr'⟩
      ⟨hm, ha, hacc, halu, hcnt, htst, hopA, hopB⟩
    simp only [forall_const, RegMask.none, false_implies, Bool.false_eq_true]
      at hm ha hacc halu hcnt htst hopA hopB
    subst_vars
    simp only [Agree, nstThTstOp, loadInitSel]
    simp

theorem nstMaskOp_hygienic (C : NstParams) (d : NstDesc) :
    Hygienic (nstMaskOp C d : nstInternalOp Acc) ⟨false, true, true, false, false, false⟩
      ⟨false, true, true, true, true, false⟩ := by
  refine ⟨by simp [RegMask.le], ?_, ?_, ?_⟩
  · rintro ⟨agu, acc, alu, cnt, idx, tst, opA, opB, mem, tr⟩
      ⟨agu', acc', alu', cnt', idx', tst', opA', opB', mem', tr'⟩
      ⟨hm, ha, hacc, halu, hcnt, htst, hopA, hopB⟩
    simp only [forall_const, RegMask.none, false_implies, Bool.false_eq_true]
      at hm ha hacc halu hcnt htst hopA hopB
    subst_vars
    simp only [Agree, nstMaskOp, loadInitSel, maskPredicate]
    simp
  · rintro ⟨agu, acc, alu, cnt, idx, tst, opA, opB, mem, tr⟩
      ⟨agu', acc', alu', cnt', idx', tst', opA', opB', mem', tr'⟩
      ⟨hm, ha, hacc, halu, hcnt, htst, hopA, hopB⟩
    simp only [forall_const, RegMask.none, false_implies, Bool.false_eq_true]
      at hm ha hacc halu hcnt htst hopA hopB
    subst_vars
    simp only [Agree, nstMaskOp, loadInitSel, maskPredicate]
    simp
  · rintro ⟨agu, acc, alu, cnt, idx, tst, opA, opB, mem, tr⟩
      ⟨agu', acc', alu', cnt', idx', tst', opA', opB', mem', tr'⟩
      ⟨hm, ha, hacc, halu, hcnt, htst, hopA, hopB⟩
    simp only [forall_const, RegMask.none, false_implies, Bool.false_eq_true]
      at hm ha hacc halu hcnt htst hopA hopB
    subst_vars
    simp only [Agree, nstMaskOp, loadInitSel, maskPredicate]
    simp

theorem nstMaskMacOp_hygienic (C : NstParams) (F : FmaPrim Acc) (hF : FmaFirstOpContract F) (d : NstDesc) :
    Hygienic (nstMaskMacOp C F d : nstInternalOp Acc) ⟨true, true, true, false, false, false⟩
      ⟨true, true, true, true, true, false⟩ := by
  refine ⟨by simp [RegMask.le], ?_, ?_, ?_⟩
  · rintro ⟨agu, acc, alu, cnt, idx, tst, opA, opB, mem, tr⟩
      ⟨agu', acc', alu', cnt', idx', tst', opA', opB', mem', tr'⟩
      ⟨hm, ha, hacc, halu, hcnt, htst, hopA, hopB⟩
    simp only [forall_const, RegMask.none, false_implies, Bool.false_eq_true]
      at hm ha hacc halu hcnt htst hopA hopB
    subst_vars
    simp only [Agree, nstMaskMacOp, fmaPreload, maskPredicate]
    rw [hF _ _ _ _ acc acc']
    simp
  · rintro ⟨agu, acc, alu, cnt, idx, tst, opA, opB, mem, tr⟩
      ⟨agu', acc', alu', cnt', idx', tst', opA', opB', mem', tr'⟩
      ⟨hm, ha, hacc, halu, hcnt, htst, hopA, hopB⟩
    simp only [forall_const, RegMask.none, false_implies, Bool.false_eq_true]
      at hm ha hacc halu hcnt htst hopA hopB
    subst_vars
    simp only [Agree, nstMaskMacOp, fmaPreload, maskPredicate]
    simp
  · rintro ⟨agu, acc, alu, cnt, idx, tst, opA, opB, mem, tr⟩
      ⟨agu', acc', alu', cnt', idx', tst', opA', opB', mem', tr'⟩
      ⟨hm, ha, hacc, halu, hcnt, htst, hopA, hopB⟩
    simp only [forall_const, RegMask.none, false_implies, Bool.false_eq_true]
      at hm ha hacc halu hcnt htst hopA hopB
    subst_vars
    simp only [Agree, nstMaskMacOp, fmaPreload, maskPredicate]
    split <;> simp

theorem nstCopyOp_load_hygienic (d : NstDesc) (haux : d.auxFunc &&& 1 ≠ 0) :
    Hygienic (nstCopyOp d : nstInternalOp Acc) ⟨false, false, false, false, false, false⟩
      ⟨false, true, false, false, false, false⟩ := by
  refine ⟨by simp [RegMask.le], ?_, ?_, ?_⟩
  · rintro ⟨agu, acc, alu, cnt, idx, tst, opA, opB, mem, tr⟩
      ⟨agu', acc', alu', cnt', idx', tst', opA', opB', mem', tr'⟩
      ⟨hm, ha, hacc, halu, hcnt, htst, hopA, hopB⟩
    simp only [forall_const, RegMask.none, false_implies, Bool.false_eq_true]
      at hm ha hacc halu hcnt htst hopA hopB
    subst_vars
    simp only [Agree, nstCopyOp, if_pos haux]
    simp
  · rintro ⟨agu, acc, alu, cnt, idx, tst, opA, opB, mem, tr⟩
      ⟨agu', acc', alu', cnt', idx', tst', opA', opB', mem', tr'⟩
      ⟨hm, ha, hacc, halu, hcnt, htst, hopA, hopB⟩
    simp only [forall_const, RegMask.none, false_implies, Bool.false_eq_true]
      at hm ha hacc halu hcnt htst hopA hopB
    subst_vars
    simp only [Agree, nstCopyOp, if_pos haux]
    simp
  · rintro ⟨agu, acc, alu, cnt, idx, tst, opA, opB, mem, tr⟩
      ⟨agu', acc', alu', cnt', idx', tst', opA', opB', mem', tr'⟩
      ⟨hm, ha, hacc, halu, hcnt, htst, hopA, hopB⟩
    simp only [forall_const, RegMask.none, false_implies, Bool.false_eq_true]
      at hm ha hacc halu hcnt htst hopA hopB
    subst_vars
    simp only [Agree, nstCopyOp, if_pos haux]
    simp

theorem nstCopyOp_fill_hygienic (d : NstDesc) (haux : ¬ d.auxFunc &&& 1 ≠ 0) :
    Hygienic (nstCopyOp d : nstInternalOp Acc) ⟨false, true, false, false, false, false⟩
      ⟨false, true, false, false, false, false⟩ := by
  refine ⟨by simp [RegMask.le], ?_, ?_, ?_⟩
  · rintro ⟨agu, acc, alu, cnt, idx, tst, opA, opB, mem, tr⟩
      ⟨agu', acc', alu', cnt', idx', tst', opA', opB', mem', tr'⟩
      ⟨hm, ha, hacc, halu, hcnt, htst, hopA, hopB⟩
    simp only [forall_const, RegMask.none, false_implies, Bool.false_eq_true]
      at hm ha hacc halu hcnt htst hopA hopB
    subst_vars
    simp only [Agree, nstCopyOp, loadInitSel, if_neg haux]
    simp
  · rintro ⟨agu, acc, alu, cnt, idx, tst, opA, opB, mem, tr⟩
      ⟨agu', acc', alu', cnt', idx', tst', opA', opB', mem', tr'⟩
      ⟨hm, ha, hacc, halu, hcnt, htst, hopA, hopB⟩
    simp only [forall_const, RegMask.none, false_implies, Bool.false_eq_true]
      at hm ha hacc halu hcnt htst hopA hopB
    subst_vars
    simp only [Agree, nstCopyOp, loadInitSel, if_neg haux]
    simp
  · rintro ⟨agu, acc, alu, cnt, idx, tst, opA, opB, mem, tr⟩
      ⟨agu', acc', alu', cnt', idx', tst', opA', opB', mem', tr'⟩
      ⟨hm, ha, hacc, halu, hcnt, htst, hopA, hopB⟩
    simp only [forall_const, RegMask.none, false_implies, Bool.false_eq_true]
      at hm ha hacc halu hcnt htst hopA hopB
    subst_vars
    simp only [Agree, nstCopyOp, loadInitSel, if_neg haux]
    simp

end Kernels

section RegisterIndependence

variable {Acc : Type}

/-- Every kernel the `switch` can select, MAXMIN with the index output (`auxFunc != 0`) apart,
reads no register before it has written it. -/
theorem selectOp_hygienic (C : NstParams) (F : FmaPrim Acc) (hF : FmaFirstOpContract F)
    (d : NstDesc) (hmm : d.opCode = C.C_NST_MAXMIN_OP → d.auxFunc = 0) (op : nstInternalOp Acc)
    (h : selectOp C F d = some op) : ∃ k1 k2, Hygienic op k1 k2 := by
  unfold selectOp at h
  repeat' split at h
  all_goals first | (simp at h; done) | skip
  all_goals (simp only [Option.some.injEq] at h; subst h)
  · exact ⟨_, _, nstMacOp_hygienic F hF d⟩
  · exact ⟨_, _, nstVAddSubOp_hygienic F hF d⟩
  · exact ⟨_, _, nstVMultOp_hygienic F hF d⟩
  · exact ⟨_, _, nstOuterPOp_hygienic F d⟩
  · exact ⟨_, _, nstMaxMinOp_hygienic d (hmm (by assumption))⟩
  · exact ⟨_, _, nstThTstOp_hygienic C d⟩
  · exact ⟨_, _, nstMaskOp_hygienic C d⟩
  · exact ⟨_, _, nstMaskMacOp_hygienic C F hF d⟩
  · by_cases haux : d.auxFunc &&& 1 ≠ 0
    · exact ⟨_, _, nstCopyOp_load_hygienic d haux⟩
    · exact ⟨_, _, nstCopyOp_fill_hygienic d haux⟩

/-- C17 (as stated, refuted): two runs of scenario S3 on the same memory that differ only in
the value left in `idxState` (0 and 7) write different words to the destination: the register
is not reset at the start of the run, and no execute of S3 overwrites it. -/
theorem C17_counterexample :
    validDesc stdParams descS3 = true
      ∧ (stateOf memS3 0).mem = (stateOf memS3 7).mem
      ∧ finalWord (nstFuncModel stdParams exactFma descS3 (stateOf memS3 0)) 32 = some 0
      ∧ finalWord (nstFuncModel stdParams exactFma descS3 (stateOf memS3 7)) 32 = some 7 := by
  refine ⟨by decide, rfl, by decide, by decide⟩

/-- C17 (amended): `nstFuncModel` resets only the AGU cursors at the start of a run; the
registers are written by the kernels. For every valid descriptor other than MAXMIN with the
index output (`auxFunc != 0`), the FMA primitive ignoring the accumulator it is given when
`firstOp` is set: two runs started on the same memory, whatever the registers, latches and
cursors left over from earlier runs, end the same way (both complete, or both are stopped by
an address assertion) with identical memory; and they complete unless an address assertion
stops them (`C_HW_LOOP_WIDTH < 32`). -/
theorem C17_register_independence (C : NstParams) (F : FmaPrim Acc) (d : NstDesc)
    (m m' : NstState Acc) (hW : C.C_HW_LOOP_WIDTH < 32) (hv : validDesc C d = true)
    (hF : FmaFirstOpContract F) (hmm : d.opCode = C.C_NST_MAXMIN_OP → d.auxFunc = 0)
    (hmem : m.mem = m'.mem) :
    runMem (nstFuncModel C F d m) = runMem (nstFuncModel C F d m')
      ∧ isAddrAbort (nstFuncModel C F d m) = isAddrAbort (nstFuncModel C F d m')
      ∧ (isAddrAbort (nstFuncModel C F d m) = false →
          ∃ a b, nstFuncModel C F d m = Except.ok a ∧ nstFuncModel C F d m' = Except.ok b) := by
  obtain ⟨op, hsel, _, hrun⟩ := nstFuncModel_valid C F d m hv
  obtain ⟨op', hsel', _, hrun'⟩ := nstFuncModel_valid C F d m' hv
  rw [hsel] at hsel'
  cases hsel'
  obtain ⟨k1, k2, hyg⟩ := selectOp_hygienic C F hF d hmm op hsel
  obtain ⟨hs, _⟩ := (validDesc_iff C d).1 hv
  obtain ⟨_, _, h3, _⟩ := (sanityChecks_iff C d).1 hs
  have hpre : if d.outerLevel < d.initLevel
      then Agree k1 ({ m with agu := d.aguOff } : NstState Acc) { m' with agu := d.aguOff }
      else Agree RegMask.none ({ m with agu := d.aguOff } : NstState Acc)
        { m' with agu := d.aguOff } := by
    rw [if_neg (by omega)]
    exact ⟨hmem, rfl, (fun x => by cases x), (fun x => by cases x), (fun x => by cases x),
      (fun x => by cases x), (fun x => by cases x), (fun x => by cases x)⟩
  have hrel := nstLooper_rel C d hyg d.outerLevel true _ _ hpre
  rw [← hrun, ← hrun'] at hrel
  obtain ⟨e1, e2, _⟩ := SameOutcome_mem (fun a b (h : Agree k2 a b) => h.1) hrel
  refine ⟨e1, e2, ?_⟩
  intro hna
  obtain ⟨a, ha, _⟩ := nstFuncModel_complete C F d m hW hv hna
  obtain ⟨b, hb, _⟩ := nstFuncModel_complete C F d m' hW hv (by rw [← e2]; exact hna)
  exact ⟨a, b, ha, hb⟩

/-- C17 (amended) on the dot product of S1: the run started with an accumulator, `aluState`,
`idxState` and cursors left over from elsewhere writes the same memory as the run started from
the zero registers. -/
theorem C17_register_independence_witness :
    stdParams.C_HW_LOOP_WIDTH < 32 ∧ validDesc stdParams descS1 = true
      ∧ FmaFirstOpContract exactFma
      ∧ (descS1.opCode = stdParams.C_NST_MAXMIN_OP → descS1.auxFunc = 0)
      ∧ (stateOf memS1 0).mem
          = ({ stateOf memS1 5 with accuState := 77, aluState := 9, agu := fun _ => 1 } :
              NstState Int).mem
      ∧ runMem (nstFuncModel stdParams exactFma descS1 (stateOf memS1 0))
          = runMem (nstFuncModel stdParams exactFma descS1
              { stateOf memS1 5 with accuState := 77, aluState := 9, agu := fun _ => 1 }) :=
  ⟨by decide, by decide, fun _ _ _ _ _ _ _ => rfl, fun h => absurd h (by decide), rfl,
    (C17_register_independence stdParams exactFma descS1 (stateOf memS1 0)
      { stateOf memS1 5 with accuState := 77, aluState := 9, agu := fun _ => 1 }
      (by decide) (by decide) (fun _ _ _ _ _ _ _ => rfl) (fun h => absurd h (by decide)) rfl).1⟩

end RegisterIndependence

/-! ## C21: the cursors after a run -/

/-- The sweep displacement `D_L` of the recurrence is the closed sum over the levels. -/
theorem sweepDisp_eq_runDisp (d : NstDesc) (o : Nat) :
    ∀ L : Nat, sweepDisp d o L = runDisp d o L := by
  intro L
  induction L with
  | zero => simp [sweepDisp, runDisp]
  | succ L ih =>
    have hsum : ∑ l ∈ Finset.range L,
          d.aguStride o l * (d.loopBound l : Int) * (loopProd d (l + 1) (L + 1) : Int)
        = runDisp d o L * ((d.loopBound L : Int) + 1) := by
      unfold runDisp
      rw [Finset.sum_mul]
      apply Finset.sum_congr rfl
      intro l hl
      have hlL : l + 1 ≤ L := by
        have := Finset.mem_range.1 hl
        omega
      rw [loopProd_succ d hlL]
      push_cast
      ring
    unfold runDisp at hsum ⊢
    rw [sweepDisp, ih, Finset.sum_range_succ, hsum, loopProd_self]
    unfold runDisp
    push_cast
    ring

/-- Iterations `k, ..., bound` of two bodies that agree on every last iteration, and on the
others when the bound is not 0, give the same events and cursors. -/
theorem loopSem_congr_last (body1 body2 : Bool → (Nat → Int) → List Event × (Nat → Int))
    (bound : Nat) (H : ∀ b a, (b = false → bound ≠ 0) → body1 b a = body2 b a) :
    ∀ (n k : Nat) (a : Nat → Int), k + n = bound + 1 →
      loopSem body1 bound n k a = loopSem body2 bound n k a := by
  intro n
  induction n with
  | zero => intro k a _; rfl
  | succ n ih =>
    intro k a hk
    have hb : body1 (k == bound) a = body2 (k == bound) a := by
      apply H
      intro hne
      have : k ≠ bound := by simpa using hne
      omega
    rw [loopSem_succ, loopSem_succ, hb, ih (k + 1) _ (by omega)]

/-- Strides of levels whose loop bound is 0, and of the levels from `L` on, are not applied by
a call of the looper at a level up to `L` that is a last iteration, or whose own stride is
kept. -/
theorem looperSem_withStride (C : NstParams) (d : NstDesc) (s : Nat → Nat → Int) (L : Nat)
    (hs : ∀ o l, l < L → d.loopBound l ≠ 0 → s o l = d.aguStride o l) :
    ∀ (level : Nat), level ≤ L → ∀ (isLast : Bool) (a : Nat → Int),
      (isLast = false → level < L ∧ d.loopBound level ≠ 0) →
      looperSem C (d.withStride s) level isLast a = looperSem C d level isLast a := by
  have hexit : ∀ (level : Nat) (isLast : Bool) (a : Nat → Int),
      (isLast = false → level < L ∧ d.loopBound level ≠ 0) →
      exitAgu C (d.withStride s) level isLast a = exitAgu C d level isLast a := by
    intro level isLast a hl
    unfold exitAgu
    by_cases hc : level < C.C_N_HW_LOOPS ∧ isLast = false
    · rw [if_pos hc, if_pos hc]
      obtain ⟨h1, h2⟩ := hl hc.2
      funext o
      simp only [aguStep, NstDesc.withStride, hs o level h1 h2]
    · rw [if_neg hc, if_neg hc]
  intro level
  induction level with
  | zero =>
    intro _ isLast a hl
    simp only [looperSem, hexit 0 isLast a hl]
    rfl
  | succ l ih =>
    intro hL isLast a hl
    have hloop : loopSem (looperSem C (d.withStride s) l) (d.loopBound l) (d.loopBound l + 1) 0 a
        = loopSem (looperSem C d l) (d.loopBound l) (d.loopBound l + 1) 0 a := by
      apply loopSem_congr_last
      · intro b x hb
        exact ih (by omega) b x (fun h => ⟨by omega, hb h⟩)
      · omega
    have hloop2 : loopSem (looperSem C (d.withStride s) l) ((d.withStride s).loopBound l)
          ((d.withStride s).loopBound l + 1) 0 a
        = loopSem (looperSem C d l) (d.loopBound l) (d.loopBound l + 1) 0 a := hloop
    simp only [looperSem, hloop2, hexit (l + 1) isLast _ hl]
    rfl

/-- C21: for every valid descriptor whose run is not stopped by an address assertion (with
`C_HW_LOOP_WIDTH < 32`) the run completes and, for every AGU `o < 3`, leaves
`agu[o] = aguOff[o] + sum_{l<outerLevel} aguStride[o][l] * loopBound[l]
* prod_{l<k<outerLevel}(loopBound[k]+1)` at pointer width; and the strides of the levels from
`outerLevel` on and of the levels whose `loopBound` is 0 are never applied: the run of the
descriptor with any other values there completes with the same cursors. -/
theorem C21_final_cursors {Acc : Type} (C : NstParams) (F : FmaPrim Acc) (d : NstDesc)
    (m : NstState Acc) (hW : C.C_HW_LOOP_WIDTH < 32) (hv : validDesc C d = true)
    (hna : isAddrAbort (nstFuncModel C F d m) = false) :
    ∃ m1, nstFuncModel C F d m = Except.ok m1
      ∧ (∀ o, o < C_N_AGUS →
          m1.agu o % (2 : Int) ^ C.ptrBits
            = (d.aguOff o + runDisp d o d.outerLevel) % (2 : Int) ^ C.ptrBits)
      ∧ (∀ s : Nat → Nat → Int,
          (∀ o l, l < d.outerLevel → d.loopBound l ≠ 0 → s o l = d.aguStride o l) →
          ∃ m2, nstFuncModel C F (d.withStride s) m = Except.ok m2 ∧ m2.agu = m1.agu) := by
  obtain ⟨hs, _⟩ := (validDesc_iff C d).1 hv
  obtain ⟨_, _, _, h4, _⟩ := (sanityChecks_iff C d).1 hs
  rcases nstFuncModel_spec C F d m hW hv with ⟨m1, hr, _, ha, hin⟩ | ⟨_, mf, _, _, hr, _⟩
  · refine ⟨m1, hr, ?_, ?_⟩
    · intro o ho
      have h := looperSem_agu C d o ho d.outerLevel h4 true d.aguOff
      simp only [Bool.true_eq_false, and_false, if_false, add_zero] at h
      rw [ha, ← sweepDisp_eq_runDisp]
      exact h
    · intro s hstr
      have hsem : looperSem C (d.withStride s) d.outerLevel true d.aguOff
          = looperSem C d d.outerLevel true d.aguOff :=
        looperSem_withStride C d s d.outerLevel hstr d.outerLevel (Nat.le_refl _) true d.aguOff
          (fun h => by cases h)
      have hv2 : validDesc C (d.withStride s) = true := hv
      rcases nstFuncModel_spec C F (d.withStride s) m hW hv2 with
        ⟨m2, hr2, _, ha2, _⟩ | ⟨hc, mf, pre, post, _, _, _, hout, e, he, hk, hea⟩
      · refine ⟨m2, hr2, ?_⟩
        rw [ha2, ha]
        exact congrArg Prod.snd hsem
      · exfalso
        have hsplit : (looperSem C (d.withStride s) (d.withStride s).outerLevel true
            (d.withStride s).aguOff).1 = pre ++ post := by assumption
        have hmem : e ∈ (looperSem C d d.outerLevel true d.aguOff).1 := by
          rw [← hsem]
          have : e ∈ pre ++ post := List.mem_append_right pre he
          rw [← hsplit] at this
          exact this
        have hrange := hin hc e hmem hk
        rw [hea] at hrange
        have hout2 : aguInRange d mf.agu = false := hout
        rw [hrange] at hout2
        cases hout2
  · rw [hr] at hna
    cases hna

/-- C21 on scenario S6 (`outerLevel = 2`, `loopBound = [3, 1]`, strides 4 and 12 on AGU 0): the
source cursor ends at `0 + 4 * 3 * 2 + 12 * 1 = 36`, the last word of the tile. -/
theorem C21_final_cursors_witness :
    stdParams.C_HW_LOOP_WIDTH < 32 ∧ validDesc stdParams descS6 = true
      ∧ isAddrAbort (nstFuncModel stdParams exactFma descS6 (stateOf memS6 0)) = false
      ∧ runDisp descS6 0 descS6.outerLevel = 36
      ∧ ∃ m1, nstFuncModel stdParams exactFma descS6 (stateOf memS6 0) = Except.ok m1
          ∧ m1.agu 0 % (2 : Int) ^ stdParams.ptrBits
            = (descS6.aguOff 0 + runDisp descS6 0 descS6.outerLevel)
              % (2 : Int) ^ stdParams.ptrBits := by
  refine ⟨by decide, by decide, by decide, ?_, ?_⟩
  · simp [runDisp, descS6, loopProd, Finset.sum_range_succ, Finset.prod_Ico_succ_top]
  · obtain ⟨m1, hr, ha, _⟩ := C21_final_cursors stdParams exactFma descS6 (stateOf memS6 0)
      (by decide) (by decide) (by decide)
    exact ⟨m1, hr, ha 0 (by decide)⟩

/-! ## C22: the resources of the looper -/

section Resources

variable {Acc : Type}

theorem forLoopChk_eq
    (bodyChk : Bool → NstState Acc → Except ResFault (Except (NstFault Acc) (NstState Acc)))
    (body : Bool → NstState Acc → Except (NstFault Acc) (NstState Acc))
    (H : ∀ b m, bodyChk b m = Except.ok (body b m)) (bound : Nat) (hb : bound < 4294967295) :
    ∀ (n k : Nat) (m : NstState Acc), k + n ≤ bound + 1 →
      forLoopChk bodyChk bound n k m = Except.ok (forLoop body bound n k m) := by
  intro n
  induction n with
  | zero => intro k m _; rfl
  | succ n ih =>
    intro k m hk
    rw [forLoopChk, forLoop, H]
    cases body (k == bound) m with
    | error e => rfl
    | ok m1 =>
      simp only []
      rw [if_neg (by omega)]
      exact ih (k + 1) m1 (by omega)

/-- With a stack of more than `level` activations, loop bounds the counter can pass and levels
the `loopBound` array has, the looper with explicit resources is the looper. -/
theorem nstLooperChk_eq (C : NstParams) (d : NstDesc) (op : nstInternalOp Acc) :
    ∀ (level : Nat), level ≤ C.C_N_HW_LOOPS → (∀ k, k < level → d.loopBound k < 4294967295) →
      ∀ (fuel : Nat), level < fuel → ∀ (isLast : Bool) (m : NstState Acc),
        nstLooperChk C d op fuel level isLast m = Except.ok (nstLooper C d op level isLast m) := by
  intro level
  induction level with
  | zero =>
    intro _ _ fuel hf isLast m
    obtain ⟨f, rfl⟩ : ∃ f, fuel = f + 1 := ⟨fuel - 1, by omega⟩
    rw [nstLooperChk, nstLooper_zero]
    cases looperEnter d op 0 m with
    | error e => rfl
    | ok m1 => simp
  | succ l ih =>
    intro hl hb fuel hf isLast m
    obtain ⟨f, rfl⟩ : ∃ f, fuel = f + 1 := ⟨fuel - 1, by omega⟩
    rw [nstLooperChk, nstLooper_succ]
    cases looperEnter d op (l + 1) m with
    | error e => rfl
    | ok m1 =>
      have hbl : d.loopBound l < 4294967295 := hb l (Nat.lt_succ_self l)
      have hloop := forLoopChk_eq (nstLooperChk C d op f l) (nstLooper C d op l)
        (fun b s => ih (by omega) (fun k hk => hb k (by omega)) f (by omega) b s)
        (d.loopBound l) hbl (d.loopBound l + 1) 0 m1 (by omega)
      simp only [Nat.add_sub_cancel, Nat.succ_ne_zero, if_false]
      rw [if_neg (by omega), if_neg (by omega), hloop]
      cases forLoop (nstLooper C d op l) (d.loopBound l) (d.loopBound l + 1) 0 m1 with
      | error e => rfl
      | ok m2 => rfl

/-- A stack of `level` activations or fewer is not enough for a call at `level` that no
address assertion stops. -/
theorem nstLooperChk_short (C : NstParams) (d : NstDesc) (op : nstInternalOp Acc)
    (hc : d.checkTcdmAddrs = false) :
    ∀ (fuel level : Nat), fuel ≤ level → level ≤ C.C_N_HW_LOOPS →
      ∀ (isLast : Bool) (m : NstState Acc),
        nstLooperChk C d op fuel level isLast m = Except.error ResFault.stackDepth := by
  intro fuel
  induction fuel with
  | zero => intro level _ _ isLast m; rfl
  | succ f ih =>
    intro level hf hl isLast m
    obtain ⟨l, rfl⟩ : ∃ l, level = l + 1 := ⟨level - 1, by omega⟩
    have he : looperEnter d op (l + 1) m
        = Except.ok (if d.initLevel = l + 1 then callInit op m else m) := by
      simp [looperEnter, hc]
    rw [nstLooperChk, he]
    simp only [Nat.add_sub_cancel, Nat.succ_ne_zero, if_false]
    rw [if_neg (by omega)]
    have hfirst : forLoopChk (nstLooperChk C d op f l) (d.loopBound l) (d.loopBound l + 1) 0
        (if d.initLevel = l + 1 then callInit op m else m)
        = Except.error ResFault.stackDepth := by
      rw [forLoopChk, ih l (by omega) (by omega)]
    rw [hfirst]

/-- C22: for every descriptor that passes validation (with `C_HW_LOOP_WIDTH < 32`) the looper
terminates: the run returns or is stopped by an address assertion, and it does so with a stack
of `outerLevel + 1 <= C_N_HW_LOOPS + 1` activations of the looper, without a wrap of the 32-bit
loop counter and without an index `level - 1` past the `C_N_HW_LOOPS` entries of `loopBound`
(the run with these resources made explicit is the run); a stride `aguStride[o][level]` is read
under the guard `level < C_N_HW_LOOPS` only, and only the cursors `agu[o]` with `o < 3` are
updated. The depth `outerLevel + 1` is reached when no address assertion stops the run. -/
theorem C22_looper_resources (C : NstParams) (F : FmaPrim Acc) (d : NstDesc) (m : NstState Acc)
    (hW : C.C_HW_LOOP_WIDTH < 32) (hv : validDesc C d = true) :
    (∀ fuel, d.outerLevel + 1 ≤ fuel →
        nstFuncModelChk C F d fuel m = Except.ok (nstFuncModel C F d m))
      ∧ d.outerLevel + 1 ≤ C.C_N_HW_LOOPS + 1
      ∧ ((∃ m1, nstFuncModel C F d m = Except.ok m1)
          ∨ (∃ mf, nstFuncModel C F d m = Except.error (NstFault.aguRange mf)))
      ∧ (∀ level, 0 < level → level ≤ d.outerLevel →
          level - 1 < C.C_N_HW_LOOPS ∧ d.loopBound (level - 1) + 1 < 4294967296)
      ∧ (∀ (op : nstInternalOp Acc) (level : Nat) (isLast : Bool) (s : NstState Acc),
          C.C_N_HW_LOOPS ≤ level →
          looperExit C d op level isLast s = if d.innerLevel = level then callStore op s else s)
      ∧ (∀ (level : Nat) (a : Nat → Int) (o : Nat), C_N_AGUS ≤ o → aguStep C d level a o = a o)
      ∧ (d.checkTcdmAddrs = false →
          nstFuncModelChk C F d d.outerLevel m = Except.error ResFault.stackDepth) := by
  obtain ⟨hs, _⟩ := (validDesc_iff C d).1 hv
  obtain ⟨_, _, _, h4, _⟩ := (sanityChecks_iff C d).1 hs
  have hb := validDesc_bound C d hW hv
  obtain ⟨op, hsel, _, hrun⟩ := nstFuncModel_valid C F d m hv
  have hsan : ¬ (sanityChecks C d = false) := by
    rw [hs]
    exact Bool.noConfusion
  refine ⟨?_, by omega, ?_, ?_, ?_, ?_, ?_⟩
  · intro fuel hf
    rw [hrun]
    unfold nstFuncModelChk
    rw [if_neg hsan, hsel]
    exact nstLooperChk_eq C d op d.outerLevel h4 hb fuel (by omega) true _
  · rcases nstFuncModel_spec C F d m hW hv with ⟨m1, hr, _⟩ | ⟨_, mf, _, _, hr, _⟩
    · exact Or.inl ⟨m1, hr⟩
    · exact Or.inr ⟨mf, hr⟩
  · intro level h0 hl
    have := hb (level - 1) (by omega)
    exact ⟨by omega, by omega⟩
  · intro op level isLast s hl
    unfold looperExit
    rw [if_neg (by omega)]
  · intro level a o ho
    unfold aguStep
    rw [if_neg (by omega)]
  · intro hc
    unfold nstFuncModelChk
    rw [if_neg hsan, hsel]
    exact nstLooperChk_short C d op hc d.outerLevel d.outerLevel (Nat.le_refl _) h4 true _

/-- C22 on scenario S1 (`outerLevel = 1`): two activations are enough, one is not. -/
theorem C22_looper_resources_witness :
    stdParams.C_HW_LOOP_WIDTH < 32 ∧ validDesc stdParams descS1 = true
      ∧ nstFuncModelChk stdParams exactFma descS1 (descS1.outerLevel + 1) (stateOf memS1 0)
          = Except.ok (nstFuncModel stdParams exactFma descS1 (stateOf memS1 0))
      ∧ resFault (nstFuncModelChk stdParams exactFma descS1 1 (stateOf memS1 0))
          = some ResFault.stackDepth :=
  ⟨by decide, by decide,
    (C22_looper_resources stdParams exactFma descS1 (stateOf memS1 0) (by decide)
      (by decide)).1 (descS1.outerLevel + 1) (Nat.le_refl _),
    by decide⟩

end Resources

/-! ## C23: the order of the kernel events -/

theorem phaseRun_append (p : Phase) (s t : List Event) :
    phaseRun p (s ++ t) = (phaseRun p s).bind (fun q => phaseRun q t) := by
  induction s generalizing p with
  | nil => rfl
  | cons e s ih =>
    simp only [List.cons_append, phaseRun]
    cases phaseStep p e.kind with
    | none => rfl
    | some q => exact ih q

theorem phaseRun_append_some {p q r : Phase} {s t : List Event} (hs : phaseRun p s = some q)
    (ht : phaseRun q t = some r) : phaseRun p (s ++ t) = some r := by
  rw [phaseRun_append, hs]
  exact ht

/-- A sequence in order has all its beginnings in order. -/
theorem phaseRun_prefix {p q : Phase} {s t : List Event} (h : phaseRun p (s ++ t) = some q) :
    ∃ u, phaseRun p s = some u ∧ phaseRun u t = some q := by
  rw [phaseRun_append] at h
  cases hs : phaseRun p s with
  | none => rw [hs] at h; cases h
  | some u => rw [hs] at h; exact ⟨u, rfl, h⟩

theorem phaseRun_initEv (d : NstDesc) (level : Nat) (a : Nat → Int) (p : Phase)
    (hp : d.initLevel = level → p = Phase.fresh ∨ p = Phase.done) :
    phaseRun p (initEv d level a)
      = some (if d.initLevel = level then Phase.armed else p) := by
  unfold initEv
  by_cases h : d.initLevel = level
  · rw [if_pos h, if_pos h]
    rcases hp h with rfl | rfl <;> rfl
  · rw [if_neg h, if_neg h]
    rfl

theorem phaseRun_storeEv (d : NstDesc) (level : Nat) (a : Nat → Int) (p : Phase)
    (hp : d.innerLevel = level → p = Phase.busy) :
    phaseRun p (storeEv d level a)
      = some (if d.innerLevel = level then Phase.done else p) := by
  unfold storeEv
  by_cases h : d.innerLevel = level
  · rw [if_pos h, if_pos h, hp h]
    rfl
  · rw [if_neg h, if_neg h]
    rfl

/-- Iterations of a body that ends in a phase in which it can start again. -/
theorem loopSem_phase (body : Bool → (Nat → Int) → List Event × (Nat → Int)) (bound : Nat)
    (P : Phase → Prop) (q : Phase) (hq : P q)
    (H : ∀ b a p, P p → phaseRun p (body b a).1 = some q) :
    ∀ (n k : Nat) (a : Nat → Int) (p : Phase), P p →
      phaseRun p (loopSem body bound (n + 1) k a).1 = some q := by
  intro n
  induction n with
  | zero =>
    intro k a p hp
    rw [loopSem_succ]
    simp only [loopSem, List.append_nil]
    exact H _ a p hp
  | succ n ih =>
    intro k a p hp
    rw [loopSem_succ]
    exact phaseRun_append_some (H _ a p hp) (ih (k + 1) _ q hq)

theorem phasePre_post (d : NstDesc) (level : Nat) :
    phasePre d level (phasePost d level) := by
  unfold phasePre phasePost
  by_cases h1 : level < d.innerLevel
  · simp [h1]
  · by_cases h2 : level < d.initLevel
    · simp [h1, h2]
    · simp [h1, h2]

/-- The events of a call of the looper at `level`, started in a phase in which such a call can
start, are in order and end in the phase of the level. -/
theorem looperSem_phase (C : NstParams) (d : NstDesc) (hlev : d.innerLevel ≤ d.initLevel) :
    ∀ (level : Nat) (isLast : Bool) (a : Nat → Int) (p : Phase), phasePre d level p →
      phaseRun p (looperSem C d level isLast a).1 = some (phasePost d level) := by
  intro level
  induction level with
  | zero =>
    intro isLast a p hp
    simp only [looperSem]
    have hinit : phaseRun p (initEv d 0 a)
        = some (if d.initLevel = 0 then Phase.armed else p) := by
      apply phaseRun_initEv
      intro h0
      unfold phasePre at hp
      rw [if_neg (by omega), if_neg (by omega)] at hp
      exact hp
    have hne : (if d.initLevel = 0 then Phase.armed else p) ≠ Phase.fresh := by
      by_cases h0 : d.initLevel = 0
      · rw [if_pos h0]
        exact Phase.noConfusion
      · rw [if_neg h0]
        unfold phasePre at hp
        by_cases h1 : 0 < d.innerLevel
        · rw [if_pos h1] at hp
          exact hp
        · rw [if_neg h1, if_pos (by omega)] at hp
          rcases hp with rfl | rfl <;> exact Phase.noConfusion
    have hexec : phaseRun (if d.initLevel = 0 then Phase.armed else p)
        [(⟨EvKind.execute, a⟩ : Event)] = some Phase.busy := by
      generalize (if d.initLevel = 0 then Phase.armed else p) = u at hne
      cases u
      · exact absurd rfl hne
      · rfl
      · rfl
      · rfl
    have hstore : phaseRun Phase.busy (storeEv d 0 a)
        = some (if d.innerLevel = 0 then Phase.done else Phase.busy) :=
      phaseRun_storeEv d 0 a Phase.busy (fun _ => rfl)
    have hpost : phasePost d 0 = if d.innerLevel = 0 then Phase.done else Phase.busy := by
      unfold phasePost
      by_cases h : d.innerLevel = 0
      · rw [if_neg (by omega), if_pos h]
      · rw [if_pos (by omega), if_neg h]
    rw [hpost]
    exact phaseRun_append_some (phaseRun_append_some hinit hexec) hstore
  | succ l ih =>
    intro isLast a p hp
    simp only [looperSem]
    have hinit : phaseRun p (initEv d (l + 1) a)
        = some (if d.initLevel = l + 1 then Phase.armed else p) := by
      apply phaseRun_initEv
      intro h0
      unfold phasePre at hp
      rw [if_neg (by omega), if_neg (by omega)] at hp
      exact hp
    have hpre : phasePre d l (if d.initLevel = l + 1 then Phase.armed else p) := by
      unfold phasePre at hp ⊢
      by_cases h0 : d.initLevel = l + 1
      · rw [if_pos h0]
        by_cases h1 : l < d.innerLevel
        · rw [if_pos h1]
          exact Phase.noConfusion
        · rw [if_neg h1, if_pos (by omega)]
          exact Or.inl rfl
      · rw [if_neg h0]
        by_cases h1 : l + 1 < d.innerLevel
        · rw [if_pos h1] at hp
          rw [if_pos (by omega)]
          exact hp
        · rw [if_neg h1] at hp
          by_cases h2 : l + 1 < d.initLevel
          · rw [if_pos h2] at hp
            by_cases h3 : l < d.innerLevel
            · rw [if_pos h3]
              rcases hp with rfl | rfl <;> exact Phase.noConfusion
            · rw [if_neg h3, if_pos (by omega)]
              exact hp
          · rw [if_neg h2] at hp
            rw [if_neg (by omega), if_neg (by omega)]
            exact hp
    have hloop := loopSem_phase (looperSem C d l) (d.loopBound l) (phasePre d l)
      (phasePost d l) (phasePre_post d l) (fun b x u hu => ih b x u hu) (d.loopBound l) 0 a
      _ hpre
    have hstore : phaseRun (phasePost d l)
        (storeEv d (l + 1)
          (loopSem (looperSem C d l) (d.loopBound l) (d.loopBound l + 1) 0 a).2)
        = some (if d.innerLevel = l + 1 then Phase.done else phasePost d l) := by
      apply phaseRun_storeEv
      intro h
      unfold phasePost
      rw [if_pos (by omega)]
    have hpost : phasePost d (l + 1)
        = if d.innerLevel = l + 1 then Phase.done else phasePost d l := by
      unfold phasePost
      by_cases h : d.innerLevel = l + 1
      · rw [if_neg (by omega), if_pos h]
      · rw [if_neg h]
        by_cases h1 : l + 1 < d.innerLevel
        · rw [if_pos h1, if_pos (by omega)]
        · rw [if_neg h1, if_neg (by omega)]
    rw [hpost]
    exact phaseRun_append_some (phaseRun_append_some hinit hloop) hstore

/-- Only an execute leads to the phase `busy`. -/
theorem phaseRun_busy_last (p : Phase) (hp : p ≠ Phase.busy) :
    ∀ s : List Event, phaseRun p s = some Phase.busy →
      ∃ s' x, s = s' ++ [x] ∧ x.kind = EvKind.execute := by
  intro s
  induction s using List.reverseRecOn with
  | nil =>
    intro h
    simp only [phaseRun, Option.some.injEq] at h
    exact absurd h hp
  | append_singleton s' x _ =>
    intro h
    obtain ⟨u, _, hx⟩ := phaseRun_prefix h
    refine ⟨s', x, rfl, ?_⟩
    cases hk : x.kind
    · cases u <;> simp [phaseRun, phaseStep, hk] at hx
    · rfl
    · cases u <;> simp [phaseRun, phaseStep, hk] at hx

/-- Only a store leads to the phase `done`. -/
theorem phaseRun_done_last (p : Phase) (hp : p ≠ Phase.done) :
    ∀ s : List Event, phaseRun p s = some Phase.done →
      ∃ s' x, s = s' ++ [x] ∧ x.kind = EvKind.store := by
  intro s
  induction s using List.reverseRecOn with
  | nil =>
    intro h
    simp only [phaseRun, Option.some.injEq] at h
    exact absurd h hp
  | append_singleton s' x _ =>
    intro h
    obtain ⟨u, _, hx⟩ := phaseRun_prefix h
    refine ⟨s', x, rfl, ?_⟩
    cases hk : x.kind
    · cases u <;> simp [phaseRun, phaseStep, hk] at hx
    · cases u <;> simp [phaseRun, phaseStep, hk] at hx
    · rfl

/-- From `busy` on, up to the next store there are only executes. -/
theorem phaseRun_busy_mid :
    ∀ (s : List Event) (q : Phase), phaseRun Phase.busy s = some q →
      (∀ y ∈ s, y.kind ≠ EvKind.store) → ∀ y ∈ s, y.kind = EvKind.execute := by
  intro s
  induction s with
  | nil => intro q _ _ y hy; cases hy
  | cons e t ih =>
    intro q h hns y hy
    have he : e.kind = EvKind.execute := by
      cases hk : e.kind
      · simp [phaseRun, phaseStep, hk] at h
      · rfl
      · exact absurd hk (hns e (List.mem_cons_self e t))
    have ht : phaseRun Phase.busy t = some q := by
      simpa [phaseRun, phaseStep, he] using h
    rcases List.mem_cons.1 hy with rfl | hyt
    · exact he
    · exact ih q ht (fun z hz => hns z (List.mem_cons_of_mem e hz)) y hyt

/-- The first event of a sequence in order is an init. -/
theorem phaseRun_fresh_head (e : Event) (t : List Event) (q : Phase)
    (h : phaseRun Phase.fresh (e :: t) = some q) : e.kind = EvKind.init := by
  cases hk : e.kind
  · rfl
  · simp [phaseRun, phaseStep, hk] at h
  · simp [phaseRun, phaseStep, hk] at h

/-- C23 (as stated, refuted): the descriptor of S1 with the address check on and all cursors
outside the window passes validation, and its run, stopped by the first address assertion, has
no kernel event at all: its sequence of events neither starts with an init nor ends with a
store. -/
theorem C23_counterexample :
    validDesc stdParams descS1Checked = true
      ∧ runTrace (nstFuncModel stdParams exactFma descS1Checked (stateOf memS1 0)) = []
      ∧ (runTrace (nstFuncModel stdParams exactFma descS1Checked (stateOf memS1 0))).head?
          = none
      ∧ (runTrace (nstFuncModel stdParams exactFma descS1Checked (stateOf memS1 0))).getLast?
          = none := by
  have h : runTrace (nstFuncModel stdParams exactFma descS1Checked (stateOf memS1 0)) = [] :=
    rfl
  refine ⟨by decide, h, ?_, ?_⟩
  · rw [h]
    rfl
  · rw [h]
    rfl

/-- C23 (amended): for every valid descriptor (with `C_HW_LOOP_WIDTH < 32`), `evs` being the
sequence of kernel events of a run: when the run is not stopped by an address assertion it
completes and `evs` starts with an init and ends with a store; and in every run, stopped or
not, no execute or store happens before the first init, every store is preceded by at least
one execute since the previous store, and no init falls between an execute of a store window
and that window's store. -/
theorem C23_event_order {Acc : Type} (C : NstParams) (F : FmaPrim Acc) (d : NstDesc)
    (m : NstState Acc) (hW : C.C_HW_LOOP_WIDTH < 32) (hv : validDesc C d = true) :
    ∃ evs, runTrace (nstFuncModel C F d m) = m.trace ++ evs
      ∧ (isAddrAbort (nstFuncModel C F d m) = false →
          (∃ m1, nstFuncModel C F d m = Except.ok m1)
            ∧ (∃ e t, evs = e :: t ∧ e.kind = EvKind.init)
            ∧ (∃ t e, evs = t ++ [e] ∧ e.kind = EvKind.store))
      ∧ (∀ pre e post, evs = pre ++ e :: post → e.kind ≠ EvKind.init →
          ∃ i ∈ pre, i.kind = EvKind.init)
      ∧ (∀ pre s post, evs = pre ++ s :: post → s.kind = EvKind.store →
          ∃ pre1 x mid, pre = pre1 ++ x :: mid ∧ x.kind = EvKind.execute
            ∧ ∀ y ∈ mid, y.kind ≠ EvKind.store)
      ∧ (∀ pre x mid s post, evs = pre ++ x :: (mid ++ s :: post) → x.kind = EvKind.execute →
          s.kind = EvKind.store → (∀ y ∈ mid, y.kind ≠ EvKind.store) →
          ∀ y ∈ mid, y.kind ≠ EvKind.init) := by
  obtain ⟨hs, _⟩ := (validDesc_iff C d).1 hv
  obtain ⟨h1, _, h3, _⟩ := (sanityChecks_iff C d).1 hs
  have hfull : phaseRun Phase.fresh (looperSem C d d.outerLevel true d.aguOff).1
      = some Phase.done := by
    have h := looperSem_phase C d h1 d.outerLevel true d.aguOff Phase.fresh (by
      unfold phasePre
      rw [if_neg (by omega), if_neg (by omega)]
      exact Or.inl rfl)
    unfold phasePost at h
    rw [if_neg (by omega)] at h
    exact h
  -- the events of the run are a beginning of those of the unchecked run
  have hevs : ∃ evs rest, runTrace (nstFuncModel C F d m) = m.trace ++ evs
      ∧ (looperSem C d d.outerLevel true d.aguOff).1 = evs ++ rest
      ∧ (isAddrAbort (nstFuncModel C F d m) = false →
          rest = [] ∧ ∃ m1, nstFuncModel C F d m = Except.ok m1) := by
    rcases nstFuncModel_spec C F d m hW hv with
      ⟨m1, hr, ht, _, _⟩ | ⟨_, mf, pre, post, hr, hsp, ht, _⟩
    · refine ⟨_, [], ?_, (List.append_nil _).symm, fun _ => ⟨rfl, m1, hr⟩⟩
      rw [hr]
      exact ht
    · refine ⟨pre, post, ?_, hsp, ?_⟩
      · rw [hr]
        exact ht
      · intro hna
        rw [hr] at hna
        cases hna
  obtain ⟨evs, rest, htr, hsplit, hcomp⟩ := hevs
  have hord : ∃ u, phaseRun Phase.fresh evs = some u := by
    rw [hsplit] at hfull
    obtain ⟨u, hu, _⟩ := phaseRun_prefix hfull
    exact ⟨u, hu⟩
  obtain ⟨u, hu⟩ := hord
  refine ⟨evs, htr, ?_, ?_, ?_, ?_⟩
  · intro hna
    obtain ⟨hrest, hok⟩ := hcomp hna
    rw [hrest, List.append_nil] at hsplit
    rw [hsplit] at hfull
    refine ⟨hok, ?_, ?_⟩
    · cases hev : evs with
      | nil =>
        rw [hev] at hfull
        simp [phaseRun] at hfull
      | cons e t =>
        rw [hev] at hfull
        exact ⟨e, t, rfl, phaseRun_fresh_head e t _ hfull⟩
    · exact phaseRun_done_last Phase.fresh Phase.noConfusion evs hfull
  · intro pre e post hdec hne
    cases pre with
    | nil =>
      rw [hdec] at hu
      exact absurd (phaseRun_fresh_head e post u hu) hne
    | cons i pre1 =>
      rw [hdec] at hu
      exact ⟨i, List.mem_cons_self i pre1, phaseRun_fresh_head i _ u hu⟩
  · intro pre s post hdec hst
    rw [hdec] at hu
    obtain ⟨v, hv1, hv2⟩ := phaseRun_prefix hu
    have hvb : v = Phase.busy := by
      cases v <;> simp [phaseRun, phaseStep, hst] at hv2
      rfl
    rw [hvb] at hv1
    obtain ⟨pre1, x, hpre, hx⟩ := phaseRun_busy_last Phase.fresh Phase.noConfusion pre hv1
    exact ⟨pre1, x, [], hpre, hx, fun y hy => by cases hy⟩
  · intro pre x mid s post hdec hx hst hmid y hy
    rw [hdec] at hu
    obtain ⟨v, _, hv2⟩ := phaseRun_prefix hu
    have hv3 : phaseRun Phase.busy (mid ++ s :: post) = some u := by
      cases v <;> simp [phaseRun, phaseStep, hx] at hv2 <;> exact hv2
    obtain ⟨w, hw, _⟩ := phaseRun_prefix hv3
    rw [phaseRun_busy_mid mid w hw hmid y hy]
    exact EvKind.noConfusion

/-- C23 (amended) on scenario S1: the run completes and its events start with the init of the
dot product and end with the store of the fourth element. -/
theorem C23_event_order_witness :
    stdParams.C_HW_LOOP_WIDTH < 32 ∧ validDesc stdParams descS1 = true
      ∧ isAddrAbort (nstFuncModel stdParams exactFma descS1 (stateOf memS1 0)) = false
      ∧ ∃ evs, runTrace (nstFuncModel stdParams exactFma descS1 (stateOf memS1 0))
            = (stateOf memS1 0).trace ++ evs
          ∧ (∃ e t, evs = e :: t ∧ e.kind = EvKind.init)
          ∧ (∃ t e, evs = t ++ [e] ∧ e.kind = EvKind.store) := by
  refine ⟨by decide, by decide, by decide, ?_⟩
  obtain ⟨evs, htr, hcomp, _⟩ := C23_event_order stdParams exactFma descS1 (stateOf memS1 0)
    (by decide) (by decide)
  exact ⟨evs, htr, (hcomp (by decide)).2⟩

end Ntx
